import Mathlib

/-!
# Verification of the Saturn translation-conversion scripts

Shallow embedding of the three Python scripts in `src/translations/`:

* `crowdin.py` — forward converter (vendor zip → generated dart file),
  strict-JSON serialization, aborts with `KeyError` on unmapped locales;
* `crowdin_to_dart.py` — forward converter variant: sorts entry names,
  silently skips unmapped locales, serializes with `indent=2` and applies
  the regex-based `convert_to_single_quotes` rewrite;
* `dart_to_crowdin.py` — reverse converter (generated dart file → per-locale
  JSON files → zip), via marker search, sigil unescaping and
  `ast.literal_eval`.

Strings are modelled as `List Char` (`LStr`). Bundles (flat string-to-string
JSON objects) and catalogs (locale → bundle) are ordered association lists,
mirroring Python dict insertion order. File contents are modelled
character-exactly; filesystem writes of the reverse converter are modelled as
an effect trace.
-/

/-- Character list: the model of a Python `str`. -/
abbrev LStr := List Char

/-- A flat string-to-string JSON object (one locale's translations), in
insertion order, as produced by `json.loads` on a vendor file. -/
abbrev Bundle := List (LStr × LStr)

/-- The aggregate catalog: app-locale code → bundle, in insertion order. -/
abbrev Catalog := List (LStr × Bundle)

/-! ## Association-list primitives (Python `dict` operations) -/

/-- Python `d[k]` read: first (and with the nodup-keys invariant, only)
binding of `k`. -/
def alookup (k : LStr) : List (LStr × α) → Option α
  | [] => none
  | (k', v) :: rest => if k' = k then some v else alookup k rest

/-- Python `d[k] = v` on an ordered dict: update in place if the key is
present, else append at the end. -/
def dictInsert (d : List (LStr × α)) (k : LStr) (v : α) : List (LStr × α) :=
  if (alookup k d).isSome then
    d.map (fun kv => if kv.1 = k then (k, v) else kv)
  else d ++ [(k, v)]

/-! ## Substring search: Python `in`, `str.index`, `str.rindex` -/

/-- Does `pat` occur at the very start of `s`? -/
def lhead_matches : LStr → LStr → Bool
  | [], _ => true
  | _ :: _, [] => false
  | p :: ps, c :: cs => p = c && lhead_matches ps cs

/-- Python `pat in s`: substring containment. -/
def containsSub (pat : LStr) : LStr → Bool
  | [] => lhead_matches pat []
  | c :: t => lhead_matches pat (c :: t) || containsSub pat t

/-- Python `s.index(pat)`: position of the first occurrence, `none` models the
`ValueError` raised when the pattern is absent. -/
def strIndex (pat : LStr) : LStr → Option Nat
  | [] => if lhead_matches pat [] then some 0 else none
  | c :: t =>
    if lhead_matches pat (c :: t) then some 0
    else (strIndex pat t).map (· + 1)

/-- Auxiliary descending scan for `rindex`: largest `i ≤ start` at which `pat`
matches. -/
def rfindAux (pat s : LStr) : Nat → Option Nat
  | 0 => if lhead_matches pat s then some 0 else none
  | i + 1 => if lhead_matches pat (s.drop (i + 1)) then some (i + 1) else rfindAux pat s i

/-- Python `s.rindex(pat)`: position of the last occurrence, `none` models the
`ValueError` raised when the pattern is absent. -/
def strRIndex (pat s : LStr) : Option Nat := rfindAux pat s s.length

/-- Python slice `s[a:b]` (with `0 ≤ a`, `b` clamped, empty when `b ≤ a`). -/
def pySlice (s : LStr) (a b : Nat) : LStr := (s.drop a).take (b - a)

/-! ## The sigil escaping: `.replace("$", "\\$")` and `.replace("\\$", "$")` -/

/-- `data.replace("$", "\\$")`: the needle is a single character, so the
replacement acts independently on every character. -/
def repD : LStr → LStr
  | [] => []
  | c :: rest => (if c = '$' then ['\\', '$'] else [c]) ++ repD rest

/-- `s.replace("\\$", "$")`: left-to-right non-overlapping replacement of the
two-character needle `\$` by `$`. -/
def repDS : LStr → LStr
  | [] => []
  | [c] => [c]
  | c :: d :: rest =>
    if c = '\\' ∧ d = '$' then '$' :: repDS rest else c :: repDS (d :: rest)

/-! ## JSON string escaping (`json.dumps` with `ensure_ascii=False`)

`json.dumps` escapes exactly `"`, `\` and the control characters `0x00–0x1f`;
the five usual shorthands are used, other control characters become `\u00XX`
with lowercase hex digits; all other characters (including non-ASCII) pass
through unchanged. -/

/-- Lowercase hex digit for a value `< 16`. -/
def hexDig (n : Nat) : Char :=
  if n < 10 then Char.ofNat (48 + n) else Char.ofNat (87 + n)

/-- The escape sequence `json.dumps` emits for one character. -/
def escChar (c : Char) : LStr :=
  if c = '"' then ['\\', '"']
  else if c = '\\' then ['\\', '\\']
  else if c = Char.ofNat 10 then ['\\', 'n']
  else if c = Char.ofNat 13 then ['\\', 'r']
  else if c = Char.ofNat 9 then ['\\', 't']
  else if c = Char.ofNat 8 then ['\\', 'b']
  else if c = Char.ofNat 12 then ['\\', 'f']
  else if c.toNat < 32 then ['\\', 'u', '0', '0', hexDig (c.toNat / 16), hexDig (c.toNat % 16)]
  else [c]

/-- `json.dumps` escaping of a whole string body. -/
def escapeJson : LStr → LStr
  | [] => []
  | c :: rest => escChar c ++ escapeJson rest

/-! ## Character classes -/

/-- Whitespace for both the `\s` regex class and the literal grammar:
space, tab, newline, carriage return, vertical tab, form feed. -/
def isWsC (c : Char) : Bool :=
  c = ' ' || c = Char.ofNat 9 || c = Char.ofNat 10 || c = Char.ofNat 13 ||
  c = Char.ofNat 11 || c = Char.ofNat 12

/-- The regex `\w` class restricted to ASCII (the inputs relevant here are
ASCII): letters, digits, underscore. -/
def isWordC (c : Char) : Bool :=
  (48 ≤ c.toNat && c.toNat ≤ 57) || (65 ≤ c.toNat && c.toNat ≤ 90) ||
  (97 ≤ c.toNat && c.toNat ≤ 122) || c = '_'

def skipWs : LStr → LStr
  | [] => []
  | c :: t => if isWsC c then skipWs t else c :: t

/-! ## Python string-literal parsing (the string fragment of `ast.literal_eval`)

`strBody d s` parses the body of a string literal delimited by `d` (which has
already been consumed), unescaping as the CPython tokenizer does: the named
escapes, `\uXXXX`, and for an unrecognized escape the backslash is kept
together with the following character. A raw newline or carriage return inside
the literal is a syntax error. Returns the decoded body and the characters
after the closing delimiter. -/

def isHexDig (c : Char) : Bool :=
  ('0' ≤ c && c ≤ '9') || ('a' ≤ c && c ≤ 'f') || ('A' ≤ c && c ≤ 'F')

def hexVal (c : Char) : Nat :=
  if c ≤ '9' then c.toNat - 48
  else if c ≤ 'F' then c.toNat - 55
  else c.toNat - 87

def strBody (d : Char) : LStr → Option (LStr × LStr)
  | [] => none
  | c :: rest =>
    if c = d then some ([], rest)
    else if c = '\\' then
      match rest with
      | [] => none
      | e :: r2 =>
        if e = 'n' then (strBody d r2).map (fun p => (Char.ofNat 10 :: p.1, p.2))
        else if e = 'r' then (strBody d r2).map (fun p => (Char.ofNat 13 :: p.1, p.2))
        else if e = 't' then (strBody d r2).map (fun p => (Char.ofNat 9 :: p.1, p.2))
        else if e = 'b' then (strBody d r2).map (fun p => (Char.ofNat 8 :: p.1, p.2))
        else if e = 'f' then (strBody d r2).map (fun p => (Char.ofNat 12 :: p.1, p.2))
        else if e = '\\' then (strBody d r2).map (fun p => ('\\' :: p.1, p.2))
        else if e = '\'' then (strBody d r2).map (fun p => ('\'' :: p.1, p.2))
        else if e = '"' then (strBody d r2).map (fun p => ('"' :: p.1, p.2))
        else if e = 'u' then
          match r2 with
          | h1 :: h2 :: h3 :: h4 :: r3 =>
            if isHexDig h1 && isHexDig h2 && isHexDig h3 && isHexDig h4 then
              (strBody d r3).map (fun p =>
                (Char.ofNat (((hexVal h1 * 16 + hexVal h2) * 16 + hexVal h3) * 16 + hexVal h4)
                  :: p.1, p.2))
            else none
          | _ => none
        else (strBody d r2).map (fun p => ('\\' :: e :: p.1, p.2))
    else if c = Char.ofNat 10 ∨ c = Char.ofNat 13 then none
    else (strBody d rest).map (fun p => (c :: p.1, p.2))

/-- A string literal: an opening quote (either style), a body, the closing
quote. -/
def parseStrLit : LStr → Option (LStr × LStr)
  | [] => none
  | c :: rest => if c = '"' ∨ c = '\'' then strBody c rest else none

/-! ## The dict fragment of `ast.literal_eval`

The generated files hold a two-level structure — a dict from locale strings
to dicts from key strings to value strings — so `ast.literal_eval` is
modelled on exactly that grammar (string literals in either quote style,
whitespace between tokens, Python dict/str literal syntax). The parsers are
fuelled so that they are structurally recursive and kernel-computable; the
fuel is instantiated with the input length, which always suffices. -/

def expectC (c : Char) : LStr → Option LStr
  | [] => none
  | d :: t => if d = c then some t else none

/-- One or more `key-string : value-string` pairs followed by the closing
brace of the inner dict. -/
def parseInnerPairs : Nat → LStr → Option (Bundle × LStr)
  | 0, _ => none
  | fuel + 1, s => do
    let (k, s1) ← parseStrLit s
    let s2 ← expectC ':' (skipWs s1)
    let (v, s3) ← parseStrLit (skipWs s2)
    match skipWs s3 with
    | [] => none
    | c :: r =>
      if c = '}' then some ([(k, v)], r)
      else if c = ',' then do
        let (ps, r2) ← parseInnerPairs fuel (skipWs r)
        some ((k, v) :: ps, r2)
      else none

/-- An inner dict literal: `{}` or `{ pairs }`. -/
def parseDict (fuel : Nat) (s : LStr) : Option (Bundle × LStr) :=
  match skipWs s with
  | [] => none
  | c :: r =>
    if c = '{' then
      match skipWs r with
      | [] => none
      | d :: r2 => if d = '}' then some ([], r2) else parseInnerPairs fuel (d :: r2)
    else none

/-- One or more `locale-string : inner-dict` pairs followed by the closing
brace of the outer dict. -/
def parseCatPairs : Nat → LStr → Option (Catalog × LStr)
  | 0, _ => none
  | fuel + 1, s => do
    let (loc, s1) ← parseStrLit s
    let s2 ← expectC ':' (skipWs s1)
    let (b, s3) ← parseDict fuel (skipWs s2)
    match skipWs s3 with
    | [] => none
    | c :: r =>
      if c = '}' then some ([(loc, b)], r)
      else if c = ',' then do
        let (es, r2) ← parseCatPairs fuel (skipWs r)
        some ((loc, b) :: es, r2)
      else none

/-- The outer dict literal. -/
def parseCatalogTop (fuel : Nat) (s : LStr) : Option (Catalog × LStr) :=
  match skipWs s with
  | [] => none
  | c :: r =>
    if c = '{' then
      match skipWs r with
      | [] => none
      | d :: r2 => if d = '}' then some ([], r2) else parseCatPairs fuel (d :: r2)
    else none

/-- `ast.literal_eval` on the two-level catalog grammar: the whole input must
be consumed (up to trailing whitespace), `none` models the exception raised
on malformed input. -/
def literalEvalCatalog (s : LStr) : Option Catalog :=
  match parseCatalogTop (s.length + 1) s with
  | some (cat, rest) => if skipWs rest = [] then some cat else none
  | none => none

/-! ## The serializers (`json.dumps`)

`crowdin.py` uses `json.dumps(out, ensure_ascii=False)`: compact form with
default separators `", "` and `": "`. `crowdin_to_dart.py` uses
`json.dumps(out, ensure_ascii=False, indent=2)`. `dart_to_crowdin.py` writes
each bundle with `json.dumps(translations, ensure_ascii=False, indent=2)`.
Non-ASCII characters pass through unescaped in all of them (`escChar`). -/

/-- A serialized double-quoted JSON string. -/
def qstr (s : LStr) : LStr := '"' :: escapeJson s ++ ['"']

def sp2 : LStr := [' ', ' ']

def sp4 : LStr := [' ', ' ', ' ', ' ']

def dumpPairsCTail : Bundle → LStr
  | [] => []
  | (k, v) :: rest => ',' :: ' ' :: qstr k ++ ':' :: ' ' :: qstr v ++ dumpPairsCTail rest

def dumpPairsC : Bundle → LStr
  | [] => []
  | (k, v) :: rest => qstr k ++ ':' :: ' ' :: qstr v ++ dumpPairsCTail rest

/-- A bundle in compact form. -/
def dumpBundleC (b : Bundle) : LStr := '{' :: dumpPairsC b ++ ['}']

def dumpCatTailC : Catalog → LStr
  | [] => []
  | (loc, b) :: rest => ',' :: ' ' :: qstr loc ++ ':' :: ' ' :: dumpBundleC b ++ dumpCatTailC rest

def dumpCatEntriesC : Catalog → LStr
  | [] => []
  | (loc, b) :: rest => qstr loc ++ ':' :: ' ' :: dumpBundleC b ++ dumpCatTailC rest

/-- `json.dumps(cat, ensure_ascii=False)`. -/
def jsonDumpsCompact (cat : Catalog) : LStr := '{' :: dumpCatEntriesC cat ++ ['}']

def dumpPairsITail : Bundle → LStr
  | [] => []
  | (k, v) :: rest => ',' :: '\n' :: sp4 ++ qstr k ++ ':' :: ' ' :: qstr v ++ dumpPairsITail rest

def dumpPairsI : Bundle → LStr
  | [] => []
  | (k, v) :: rest => sp4 ++ qstr k ++ ':' :: ' ' :: qstr v ++ dumpPairsITail rest

/-- A bundle nested at depth 1, `indent=2`. -/
def dumpBundleI : Bundle → LStr
  | [] => ['{', '}']
  | b => '{' :: '\n' :: dumpPairsI b ++ '\n' :: sp2 ++ ['}']

def dumpCatTailI : Catalog → LStr
  | [] => []
  | (loc, b) :: rest => ',' :: '\n' :: sp2 ++ qstr loc ++ ':' :: ' ' :: dumpBundleI b ++ dumpCatTailI rest

def dumpCatEntriesI : Catalog → LStr
  | [] => []
  | (loc, b) :: rest => sp2 ++ qstr loc ++ ':' :: ' ' :: dumpBundleI b ++ dumpCatTailI rest

/-- `json.dumps(cat, ensure_ascii=False, indent=2)`. -/
def jsonDumpsIndent : Catalog → LStr
  | [] => ['{', '}']
  | cat => '{' :: '\n' :: dumpCatEntriesI cat ++ '\n' :: ['}']

def dumpPairsTopTail : Bundle → LStr
  | [] => []
  | (k, v) :: rest => ',' :: '\n' :: sp2 ++ qstr k ++ ':' :: ' ' :: qstr v ++ dumpPairsTopTail rest

def dumpPairsTop : Bundle → LStr
  | [] => []
  | (k, v) :: rest => sp2 ++ qstr k ++ ':' :: ' ' :: qstr v ++ dumpPairsTopTail rest

/-- `json.dumps(b, ensure_ascii=False, indent=2)` on one bundle (the files the
reverse converter writes: two-space indentation, non-ASCII unescaped). -/
def jsonDumpsBundleTop : Bundle → LStr
  | [] => ['{', '}']
  | b => '{' :: '\n' :: dumpPairsTop b ++ '\n' :: ['}']

/-- Fuel cost of parsing a catalog: one unit per locale plus the bundle
sizes. -/
def catCost : Catalog → Nat
  | [] => 0
  | (_, b) :: rest => b.length + 1 + catCost rest

/-! ## The locale mapping tables

`lang_crowdin` is transcribed from `crowdin.py` and `lang_crowdin_ctd` from
`crowdin_to_dart.py`, each in its dictionary order. -/

def lang_crowdin : List (LStr × LStr) := [
  ("ar".data, "ar-ar".data), ("bg".data, "bul-bg".data), ("ast".data, "ast-es".data),
  ("de".data, "de-de".data), ("el".data, "el-gr".data), ("es-ES".data, "es-es".data),
  ("fa".data, "fa-ir".data), ("fil".data, "fil-ph".data), ("fr".data, "fr-fr".data),
  ("he".data, "he-il".data), ("hr".data, "hr-hr".data), ("id".data, "id-id".data),
  ("it".data, "it-it".data), ("ko".data, "ko-ko".data), ("pt-BR".data, "pt-br".data),
  ("ro".data, "ro-ro".data), ("ru".data, "ru-ru".data), ("tr".data, "tr-tr".data),
  ("pl".data, "pl-pl".data), ("uk".data, "uk-ua".data), ("hu".data, "hu-hu".data),
  ("ur-PK".data, "ur-pk".data), ("hi".data, "hi-in".data), ("sk".data, "sk-sk".data),
  ("cs".data, "cs-cz".data), ("vi".data, "vi-vi".data), ("nl".data, "nl-NL".data),
  ("sl".data, "sl-SL".data), ("zh-CN".data, "zh-CN".data)]

def lang_crowdin_ctd : List (LStr × LStr) := [
  ("ar".data, "ar-ar".data), ("ast".data, "ast-es".data), ("bg".data, "bul-bg".data),
  ("cs".data, "cs-cz".data), ("de".data, "de-de".data), ("el".data, "el-gr".data),
  ("es-ES".data, "es-es".data), ("fa".data, "fa-ir".data), ("fil".data, "fil-ph".data),
  ("fr".data, "fr-fr".data), ("he".data, "he-il".data), ("hi".data, "hi-in".data),
  ("hr".data, "hr-hr".data), ("hu".data, "hu-hu".data), ("id".data, "id-id".data),
  ("it".data, "it-it".data), ("ko".data, "ko-ko".data), ("nl".data, "nl-nl".data),
  ("pl".data, "pl-pl".data), ("pt-BR".data, "pt-br".data), ("ro".data, "ro-ro".data),
  ("ru".data, "ru-ru".data), ("sk".data, "sk-sk".data), ("sl".data, "sl-sl".data),
  ("tr".data, "tr-tr".data), ("uk".data, "uk-ua".data), ("ur-PK".data, "ur-pk".data),
  ("vi".data, "vi-vi".data), ("zh-CN".data, "zh-cn".data)]

/-! ## Forward converter of `crowdin.py`

The input archive is modelled as a list of entries in archive order: entry
name (a path string) and the flat string-to-string object its JSON content
parses to. -/

abbrev Archive := List (String × Bundle)

def saturnName : LStr := "saturn.json".data

/-- `file.split("/")[0]`. -/
def vendorLang (name : String) : LStr := name.data.takeWhile (fun c => c ≠ '/')

/-- `generate_dart` of `crowdin.py`, aggregation loop: iterates the archive in
stored order, selects entries whose name contains `saturn.json`, and writes
`out[lang_crowdin[lang]]`; an unmapped `lang` raises `KeyError`, modelled as
`none`. -/
def crowdinAggregate (archive : Archive) : Option Catalog :=
  archive.foldl (fun acc e =>
    acc.bind (fun out =>
      if containsSub saturnName e.1.data then
        match alookup (vendorLang e.1) lang_crowdin with
        | some app => some (dictInsert out app e.2)
        | none => none
      else some out)) (some [])

def startMarker : LStr := "const crowdin = ".data

def endMarker : LStr := ['}', ';']

/-- The file content `crowdin.py` writes:
`f"const crowdin = {json.dumps(out, ensure_ascii=False).replace(chr(36), bs+chr(36))};"`. -/
def crowdinContent (out : Catalog) : LStr :=
  startMarker ++ repD (jsonDumpsCompact out) ++ [';']

/-! ## `convert_to_single_quotes` of `crowdin_to_dart.py`

`re.sub` with pattern `"((?:[^"\\]|\\.)*)":\s*"((?:[^"\\]|\\.)*)"` and
`replace_quotes`, then `re.sub` with pattern `"(\w+_\w+)":\s*{` and
`replace_locale_quotes`. The content group `(?:[^"\\]|\\.)*` tokenizes
deterministically (a bare `"` ends it, a `\` must pair with the following
non-newline character), so each attempted match is a deterministic scan;
`re.sub` tries each position left to right and restarts after the replaced
text. The scan is fuelled by the remaining length. -/

def matchStrBody : LStr → Option (LStr × LStr)
  | [] => none
  | c :: rest =>
    if c = '"' then some ([], rest)
    else if c = '\\' then
      match rest with
      | [] => none
      | e :: r2 =>
        if e = '\n' then none
        else (matchStrBody r2).map (fun p => ('\\' :: e :: p.1, p.2))
    else (matchStrBody rest).map (fun p => (c :: p.1, p.2))

/-- `replace_quotes`: requote key and value, switching each to single quotes
unless it contains an apostrophe; the separator is normalized to `": "`. -/
def replacePair (k v : LStr) : LStr :=
  (if k.contains '\'' then '"' :: k ++ ['"'] else '\'' :: k ++ ['\'']) ++
  ':' :: ' ' ::
  (if v.contains '\'' then '"' :: v ++ ['"'] else '\'' :: v ++ ['\''])

/-- Attempt to match the key-value pattern at the current position; returns
the replacement text and the remainder after the match. -/
def trySub1At : LStr → Option (LStr × LStr)
  | [] => none
  | c :: r =>
    if c = '"' then
      match matchStrBody r with
      | none => none
      | some (k, r1) =>
        match r1 with
        | [] => none
        | c1 :: r2 =>
          if c1 = ':' then
            match skipWs r2 with
            | [] => none
            | c2 :: r3 =>
              if c2 = '"' then
                match matchStrBody r3 with
                | none => none
                | some (v, r4) => some (replacePair k v, r4)
              else none
          else none
    else none

/-- Is there an underscore at a position that has word characters on both
sides, i.e. does an all-word run admit a `\w+_\w+` split? -/
def midUS : LStr → Bool
  | [] => false
  | [_] => false
  | c :: d :: rest => if c = '_' then true else midUS (d :: rest)

def midUnderscore : LStr → Bool
  | [] => false
  | _ :: rest => midUS rest

/-- Attempt to match the locale pattern `"(\w+_\w+)":\s*{` at the current
position; the replacement is `f"'(locale)': ("` with a single space. -/
def trySub2At : LStr → Option (LStr × LStr)
  | [] => none
  | c :: r =>
    if c = '"' then
      match r.dropWhile isWordC with
      | [] => none
      | c1 :: r1 =>
        if c1 = '"' ∧ midUnderscore (r.takeWhile isWordC) then
          match r1 with
          | [] => none
          | c2 :: r2 =>
            if c2 = ':' then
              match skipWs r2 with
              | [] => none
              | c3 :: r3 =>
                if c3 = '{' then
                  some ('\'' :: r.takeWhile isWordC ++ '\'' :: ':' :: ' ' :: ['{'], r3)
                else none
            else none
        else none
    else none

/-- The `re.sub` scan loop: try the pattern at each position left to right,
restarting after each replacement; fuelled by the remaining length. -/
def reSubF (tryAt : LStr → Option (LStr × LStr)) : Nat → LStr → LStr
  | 0, s => s
  | _ + 1, [] => []
  | fuel + 1, c :: rest =>
    match tryAt (c :: rest) with
    | some (rep, restAfter) => rep ++ reSubF tryAt fuel restAfter
    | none => c :: reSubF tryAt fuel rest

def convert_to_single_quotes (s : LStr) : LStr :=
  let t := reSubF trySub1At s.length s
  reSubF trySub2At t.length t

/-! ## Forward converter of `crowdin_to_dart.py` -/

/-- `zip.open(file).read()`: content of the entry with the given name. -/
def archLookup (name : String) : Archive → Option Bundle
  | [] => none
  | (n, b) :: rest => if n = name then some b else archLookup name rest

/-- `generate_dart` of `crowdin_to_dart.py`, aggregation loop: entry names are
sorted first, entries are selected by name, and a locale absent from the
mapping table is silently skipped. -/
def ctdAggregate (archive : Archive) : Catalog :=
  (List.insertionSort (· ≤ ·) (archive.map Prod.fst)).foldl (fun out name =>
    if containsSub saturnName name.data then
      match archLookup name archive with
      | some bundle =>
        match alookup (vendorLang name) lang_crowdin_ctd with
        | some app => dictInsert out app bundle
        | none => out
      | none => out
    else out) []

/-- The file content `crowdin_to_dart.py` writes: dollar-escaped `indent=2`
serialization passed through `convert_to_single_quotes`, in the
`const crowdin = ...;` frame. -/
def ctdContent (archive : Archive) : LStr :=
  startMarker ++ convert_to_single_quotes (repD (jsonDumpsIndent (ctdAggregate archive))) ++ [';']

/-! ## Reverse converter of `dart_to_crowdin.py` -/

/-- Filesystem effects of the reverse converter, in program order. -/
inductive FsEffect
  | makedirs (path : LStr)
  | write (path : LStr) (content : LStr)
  | makeArchive (base fmt root : LStr)
  | rmtree (path : LStr)
deriving DecidableEq

/-- The two writes performed for one locale: `os.makedirs(output_dir,
exist_ok=True)` and the `saturn.json` write with `indent=2`,
`ensure_ascii=False`. -/
def localeEffects (loc : LStr) (tr : Bundle) : List FsEffect :=
  [FsEffect.makedirs ("./saturn/".data ++ loc),
   FsEffect.write ("./saturn/".data ++ loc ++ "/saturn.json".data) (jsonDumpsBundleTop tr)]

def catEffects : Catalog → List FsEffect
  | [] => []
  | (loc, tr) :: rest => localeEffects loc tr ++ catEffects rest

/-- The trailing archive-then-delete steps. -/
def finalEffects : List FsEffect :=
  [FsEffect.makeArchive "saturn".data "zip".data "./saturn".data,
   FsEffect.rmtree "./saturn".data]

/-- `process_dart_file`: marker search (`index` / `rindex` raise on absence),
slice, sigil unescape, `ast.literal_eval`, then the writes. Returns the
filesystem effects in execution order and the parsed catalog (`none` when the
run aborts with an exception; every filesystem effect happens after
`ast.literal_eval` succeeds). -/
def process_dart_file (content : LStr) : List FsEffect × Option Catalog :=
  match strIndex startMarker content with
  | none => ([], none)
  | some start =>
    match strRIndex endMarker content with
    | none => ([], none)
    | some e =>
      match literalEvalCatalog (repDS (pySlice content (start + startMarker.length) (e + 1))) with
      | none => ([], none)
      | some cat => (catEffects cat ++ finalEffects, some cat)

/-! ## Claim C1: locating each archive entry in the aggregate -/

/-- Vendor locales of the selected entries, in archive order. -/
def selLangs (l : Archive) : List LStr :=
  (l.filter (fun e => containsSub saturnName e.1.data)).map (fun e => vendorLang e.1)

/-! ## Character classes for the convertibility family

The scan theorems below are proved for catalogs whose keys and locale codes
are plain ASCII (the shape all real translation keys and locale codes have),
while values stay completely arbitrary. -/

/-- Plain key characters: ASCII letters and digits, space, hyphen,
underscore. -/
def plainKeyC (c : Char) : Bool :=
  (48 ≤ c.toNat && c.toNat ≤ 57) || (65 ≤ c.toNat && c.toNat ≤ 90) ||
  (97 ≤ c.toNat && c.toNat ≤ 122) || c = ' ' || c = '-' || c = '_'

/-- Plain locale characters: ASCII letters and digits, hyphen. -/
def plainLocC (c : Char) : Bool :=
  (48 ≤ c.toNat && c.toNat ≤ 57) || (65 ≤ c.toNat && c.toNat ≤ 90) ||
  (97 ≤ c.toNat && c.toNat ≤ 122) || c = '-'

/-- The dollar-escaped serialized body of a value string: what stands between
its quotes in the written file. -/
def bodyOf (v : LStr) : LStr := repD (escapeJson v)

/-- The canonical scan: `re.sub` with exactly enough fuel. -/
def RS (tryAt : LStr → Option (LStr × LStr)) (s : LStr) : LStr :=
  reSubF tryAt s.length s

/-- The value part of a rewritten pair: requoted per the apostrophe rule. -/
def valR (v : LStr) : LStr :=
  if (bodyOf v).contains '\'' then '"' :: bodyOf v ++ ['"'] else '\'' :: bodyOf v ++ ['\'']

/-- A rewritten pair for a plain key: single-quoted key, normalized `: `
separator, value per the apostrophe rule. -/
def pairR (k v : LStr) : LStr := '\'' :: k ++ '\'' :: ':' :: ' ' :: valR v

/-- The dollar-escaped `indent=2` serialization, with plain keys written out
literally: the text `crowdin_to_dart.py` feeds to the quote rewriter. -/
def edPairsTail : Bundle → LStr
  | [] => []
  | (k, v) :: rest =>
    ',' :: '\n' :: ' ' :: ' ' :: ' ' :: ' ' ::
      '"' :: k ++ '"' :: ':' :: ' ' :: '"' :: bodyOf v ++ '"' :: edPairsTail rest

def edPairs : Bundle → LStr
  | [] => []
  | (k, v) :: rest =>
    ' ' :: ' ' :: ' ' :: ' ' ::
      '"' :: k ++ '"' :: ':' :: ' ' :: '"' :: bodyOf v ++ '"' :: edPairsTail rest

def edBundleNE (b : Bundle) : LStr := '{' :: '\n' :: edPairs b ++ '\n' :: ' ' :: ' ' :: ['}']

def edCatTail : Catalog → LStr
  | [] => []
  | (loc, b) :: rest =>
    ',' :: '\n' :: ' ' :: ' ' :: '"' :: loc ++ '"' :: ':' :: ' ' :: edBundleNE b ++ edCatTail rest

def edCatEntries : Catalog → LStr
  | [] => []
  | (loc, b) :: rest =>
    ' ' :: ' ' :: '"' :: loc ++ '"' :: ':' :: ' ' :: edBundleNE b ++ edCatTail rest

def edRender (cat : Catalog) : LStr := '{' :: '\n' :: edCatEntries cat ++ '\n' :: ['}']

/-- The image of the escaped serialization under the quote rewriter: pairs are
requoted, locale keys keep their double quotes. -/
def m1PairsTail : Bundle → LStr
  | [] => []
  | (k, v) :: rest =>
    ',' :: '\n' :: ' ' :: ' ' :: ' ' :: ' ' :: pairR k v ++ m1PairsTail rest

def m1Pairs : Bundle → LStr
  | [] => []
  | (k, v) :: rest => ' ' :: ' ' :: ' ' :: ' ' :: pairR k v ++ m1PairsTail rest

def m1BundleNE (b : Bundle) : LStr := '{' :: '\n' :: m1Pairs b ++ '\n' :: ' ' :: ' ' :: ['}']

def m1CatTail : Catalog → LStr
  | [] => []
  | (loc, b) :: rest =>
    ',' :: '\n' :: ' ' :: ' ' :: '"' :: loc ++ '"' :: ':' :: ' ' :: m1BundleNE b ++ m1CatTail rest

def m1CatEntries : Catalog → LStr
  | [] => []
  | (loc, b) :: rest =>
    ' ' :: ' ' :: '"' :: loc ++ '"' :: ':' :: ' ' :: m1BundleNE b ++ m1CatTail rest

def m1Render (cat : Catalog) : LStr := '{' :: '\n' :: m1CatEntries cat ++ '\n' :: ['}']

/-- Plainness of a catalog: locale codes from the ASCII letter/digit/hyphen
alphabet, nonempty bundles, keys from the ASCII letter/digit/space/hyphen/
underscore alphabet. Values are unrestricted. -/
def plainCat (cat : Catalog) : Prop :=
  ∀ e ∈ cat, (∀ c ∈ e.1, plainLocC c = true) ∧ e.2 ≠ [] ∧
    ∀ p ∈ e.2, ∀ c ∈ p.1, plainKeyC c = true

/-- The rewritten value before dollar escaping: the same requoting decision,
with the plain JSON-escaped body. -/
def uvalR (v : LStr) : LStr :=
  if (bodyOf v).contains '\'' then '"' :: escapeJson v ++ ['"']
  else '\'' :: escapeJson v ++ ['\'']

def upairR (k v : LStr) : LStr := '\'' :: k ++ '\'' :: ':' :: ' ' :: uvalR v

def u1PairsTail : Bundle → LStr
  | [] => []
  | (k, v) :: rest =>
    ',' :: '\n' :: ' ' :: ' ' :: ' ' :: ' ' :: upairR k v ++ u1PairsTail rest

def u1Pairs : Bundle → LStr
  | [] => []
  | (k, v) :: rest => ' ' :: ' ' :: ' ' :: ' ' :: upairR k v ++ u1PairsTail rest

def u1BundleNE (b : Bundle) : LStr := '{' :: '\n' :: u1Pairs b ++ '\n' :: ' ' :: ' ' :: ['}']

def u1CatTail : Catalog → LStr
  | [] => []
  | (loc, b) :: rest =>
    ',' :: '\n' :: ' ' :: ' ' :: '"' :: loc ++ '"' :: ':' :: ' ' :: u1BundleNE b ++ u1CatTail rest

def u1CatEntries : Catalog → LStr
  | [] => []
  | (loc, b) :: rest =>
    ' ' :: ' ' :: '"' :: loc ++ '"' :: ':' :: ' ' :: u1BundleNE b ++ u1CatTail rest

def u1Render (cat : Catalog) : LStr := '{' :: '\n' :: u1CatEntries cat ++ '\n' :: ['}']

/-- Every `$` is immediately preceded by a backslash: the invariant the sigil
escape establishes and the quote rewriter must preserve. -/
def dE (s : LStr) : Prop := ∀ a b, s = a ++ '$' :: b → ∃ a2, a = a2 ++ ['\\']

/-- Scan-state variant: a leading `$` is also allowed when the character
already emitted just before this suffix was a backslash. -/
def dEx (bs : Bool) (s : LStr) : Prop :=
  ∀ a b, s = a ++ '$' :: b → (a = [] ∧ bs = true) ∨ ∃ a2, a = a2 ++ ['\\']

theorem repD_append (a b : LStr) : repD (a ++ b) = repD a ++ repD b := by
  induction a with
  | nil => rfl
  | cons c t ih => simp [repD, ih]

/-- The first character of a dollar-escaped string is never `$`. -/
theorem repD_head_ne_dollar (s : LStr) (c : Char) (t : LStr) :
    repD s = c :: t → c ≠ '$' := by
  cases s with
  | nil => intro h; cases h
  | cons a r =>
    by_cases ha : a = '$'
    · subst ha
      simp only [repD, if_pos rfl, List.cons_append, List.nil_append]
      intro h
      injection h with h1 _
      rw [← h1]
      decide
    · simp only [repD, if_neg ha, List.singleton_append]
      intro h
      injection h with h1 _
      rw [← h1]
      exact ha

theorem repD_eq_nil (s : LStr) : repD s = [] → s = [] := by
  cases s with
  | nil => intro; rfl
  | cons c t =>
    by_cases hc : c = '$' <;> simp [repD, hc]

/-- The two sigil replacements cancel: this holds for arbitrary input, because
the forward replacement never produces a `$` at the head of its output. -/
theorem repDS_repD (s : LStr) : repDS (repD s) = s := by
  induction s with
  | nil => rfl
  | cons c rest ih =>
    by_cases hc : c = '$'
    · subst hc
      simp only [repD, if_pos rfl, List.cons_append, List.nil_append]
      simp only [repDS, and_self, if_pos]
      simp [ih]
    · simp only [repD, if_neg hc, List.singleton_append]
      cases hrest : repD rest with
      | nil =>
        have : rest = [] := repD_eq_nil rest hrest
        subst this
        rfl
      | cons d t =>
        have hd : d ≠ '$' := repD_head_ne_dollar rest d t hrest
        simp only [repDS]
        rw [if_neg (by intro h; exact hd h.2)]
        rw [← hrest, ih]

theorem escapeJson_append (a b : LStr) :
    escapeJson (a ++ b) = escapeJson a ++ escapeJson b := by
  induction a with
  | nil => rfl
  | cons c t ih => simp [escapeJson, ih]

theorem skipWs_not_ws (c : Char) (t : LStr) (h : isWsC c = false) :
    skipWs (c :: t) = c :: t := by
  simp [skipWs, h]

theorem skipWs_ws_prefix (w s : LStr) (h : ∀ c ∈ w, isWsC c = true) :
    skipWs (w ++ s) = skipWs s := by
  induction w with
  | nil => rfl
  | cons c t ih =>
    have hc := h c (List.mem_cons_self c t)
    simp only [List.cons_append, skipWs, hc, if_pos]
    exact ih (fun d hd => h d (List.mem_cons_of_mem c hd))

/-! ## Round-trip of string escaping through the literal parser -/

theorem isHexDig_hexDig (m : Nat) (h : m < 16) : isHexDig (hexDig m) = true := by
  interval_cases m <;> decide

theorem hexVal_hexDig (m : Nat) (h : m < 16) : hexVal (hexDig m) = m := by
  interval_cases m <;> decide

/-- Double-quoted literal: parsing the escaped body recovers the original
string, for arbitrary original strings. -/
theorem strBody_dq_escape (v rest : LStr) :
    strBody '"' (escapeJson v ++ '"' :: rest) = some (v, rest) := by
  induction v with
  | nil =>
    rw [escapeJson, List.nil_append, strBody.eq_def]
    simp
  | cons c v' ih =>
    rw [escapeJson, List.append_assoc]
    by_cases h1 : c = '"'
    · subst h1
      rw [show escChar '"' = ['\\', '"'] from by decide, List.cons_append,
        List.cons_append, List.nil_append, strBody.eq_def]
      simp [ih]
    · by_cases h2 : c = '\\'
      · subst h2
        rw [show escChar '\\' = ['\\', '\\'] from by decide, List.cons_append,
          List.cons_append, List.nil_append, strBody.eq_def]
        simp [ih]
      · by_cases h3 : c = Char.ofNat 10
        · subst h3
          rw [show escChar (Char.ofNat 10) = ['\\', 'n'] from by decide, List.cons_append,
            List.cons_append, List.nil_append, strBody.eq_def]
          simp [ih]
        · by_cases h4 : c = Char.ofNat 13
          · subst h4
            rw [show escChar (Char.ofNat 13) = ['\\', 'r'] from by decide, List.cons_append,
              List.cons_append, List.nil_append, strBody.eq_def]
            simp [ih]
          · by_cases h5 : c = Char.ofNat 9
            · subst h5
              rw [show escChar (Char.ofNat 9) = ['\\', 't'] from by decide, List.cons_append,
                List.cons_append, List.nil_append, strBody.eq_def]
              simp [ih]
            · by_cases h6 : c = Char.ofNat 8
              · subst h6
                rw [show escChar (Char.ofNat 8) = ['\\', 'b'] from by decide, List.cons_append,
                  List.cons_append, List.nil_append, strBody.eq_def]
                simp [ih]
              · by_cases h7 : c = Char.ofNat 12
                · subst h7
                  rw [show escChar (Char.ofNat 12) = ['\\', 'f'] from by decide,
                    List.cons_append, List.cons_append, List.nil_append, strBody.eq_def]
                  simp [ih]
                · by_cases h8 : c.toNat < 32
                  · have hdiv : c.toNat / 16 < 16 := by omega
                    have hmod : c.toNat % 16 < 16 := Nat.mod_lt _ (by norm_num)
                    rw [show escChar c
                        = ['\\', 'u', '0', '0', hexDig (c.toNat / 16), hexDig (c.toNat % 16)]
                      from by
                        simp only [escChar, if_neg h1, if_neg h2, if_neg h3, if_neg h4,
                          if_neg h5, if_neg h6, if_neg h7, if_pos h8]]
                    simp only [List.cons_append, List.nil_append]
                    rw [strBody.eq_def]
                    simp [ih, isHexDig_hexDig _ hdiv, isHexDig_hexDig _ hmod,
                      hexVal_hexDig _ hdiv, hexVal_hexDig _ hmod,
                      show isHexDig '0' = true from by decide,
                      show hexVal '0' = 0 from by decide]
                    rw [show (c.toNat / 16) * 16 + c.toNat % 16 = c.toNat from by omega]
                    exact Char.ofNat_toNat c
                  · rw [show escChar c = [c] from by
                        simp only [escChar, if_neg h1, if_neg h2, if_neg h3, if_neg h4,
                          if_neg h5, if_neg h6, if_neg h7, if_neg h8]]
                    simp only [List.cons_append, List.nil_append]
                    rw [strBody.eq_def]
                    simp [ih, h1, h2, h3, h4]

/-- Single-quoted literal: parsing the escaped body recovers the original
string, provided the original contains no apostrophe (the rewriter only
single-quotes such strings). -/
theorem strBody_sq_escape (v rest : LStr) (hv : '\'' ∉ v) :
    strBody '\'' (escapeJson v ++ '\'' :: rest) = some (v, rest) := by
  induction v with
  | nil =>
    rw [escapeJson, List.nil_append, strBody.eq_def]
    simp
  | cons c v' ih =>
    have hc' : c ≠ '\'' := fun h => hv (h ▸ List.mem_cons_self c v')
    have ih' := ih (fun h => hv (List.mem_cons_of_mem c h))
    rw [escapeJson, List.append_assoc]
    by_cases h1 : c = '"'
    · subst h1
      rw [show escChar '"' = ['\\', '"'] from by decide, List.cons_append,
        List.cons_append, List.nil_append, strBody.eq_def]
      simp [ih']
    · by_cases h2 : c = '\\'
      · subst h2
        rw [show escChar '\\' = ['\\', '\\'] from by decide, List.cons_append,
          List.cons_append, List.nil_append, strBody.eq_def]
        simp [ih']
      · by_cases h3 : c = Char.ofNat 10
        · subst h3
          rw [show escChar (Char.ofNat 10) = ['\\', 'n'] from by decide, List.cons_append,
            List.cons_append, List.nil_append, strBody.eq_def]
          simp [ih']
        · by_cases h4 : c = Char.ofNat 13
          · subst h4
            rw [show escChar (Char.ofNat 13) = ['\\', 'r'] from by decide, List.cons_append,
              List.cons_append, List.nil_append, strBody.eq_def]
            simp [ih']
          · by_cases h5 : c = Char.ofNat 9
            · subst h5
              rw [show escChar (Char.ofNat 9) = ['\\', 't'] from by decide, List.cons_append,
                List.cons_append, List.nil_append, strBody.eq_def]
              simp [ih']
            · by_cases h6 : c = Char.ofNat 8
              · subst h6
                rw [show escChar (Char.ofNat 8) = ['\\', 'b'] from by decide, List.cons_append,
                  List.cons_append, List.nil_append, strBody.eq_def]
                simp [ih']
              · by_cases h7 : c = Char.ofNat 12
                · subst h7
                  rw [show escChar (Char.ofNat 12) = ['\\', 'f'] from by decide,
                    List.cons_append, List.cons_append, List.nil_append, strBody.eq_def]
                  simp [ih']
                · by_cases h8 : c.toNat < 32
                  · have hdiv : c.toNat / 16 < 16 := by omega
                    have hmod : c.toNat % 16 < 16 := Nat.mod_lt _ (by norm_num)
                    rw [show escChar c
                        = ['\\', 'u', '0', '0', hexDig (c.toNat / 16), hexDig (c.toNat % 16)]
                      from by
                        simp only [escChar, if_neg h1, if_neg h2, if_neg h3, if_neg h4,
                          if_neg h5, if_neg h6, if_neg h7, if_pos h8]]
                    simp only [List.cons_append, List.nil_append]
                    rw [strBody.eq_def]
                    simp [ih', isHexDig_hexDig _ hdiv, isHexDig_hexDig _ hmod,
                      hexVal_hexDig _ hdiv, hexVal_hexDig _ hmod,
                      show isHexDig '0' = true from by decide,
                      show hexVal '0' = 0 from by decide]
                    rw [show (c.toNat / 16) * 16 + c.toNat % 16 = c.toNat from by omega]
                    exact Char.ofNat_toNat c
                  · rw [show escChar c = [c] from by
                        simp only [escChar, if_neg h1, if_neg h2, if_neg h3, if_neg h4,
                          if_neg h5, if_neg h6, if_neg h7, if_neg h8]]
                    simp only [List.cons_append, List.nil_append]
                    rw [strBody.eq_def]
                    simp [ih', h2, h3, h4, hc']

/-! ## Round-trip: compact serialization through the literal parser -/

theorem qstr_cons (s rest : LStr) :
    qstr s ++ rest = '"' :: (escapeJson s ++ '"' :: rest) := by
  simp [qstr]

theorem parseStrLit_q (s rest : LStr) :
    parseStrLit (qstr s ++ rest) = some (s, rest) := by
  rw [qstr_cons]
  simp [parseStrLit, strBody_dq_escape s rest]

theorem skipWs_qstr (s rest : LStr) : skipWs (qstr s ++ rest) = qstr s ++ rest := by
  rw [qstr_cons]
  exact skipWs_not_ws _ _ (by decide)

theorem expectC_self (c : Char) (t : LStr) : expectC c (c :: t) = some t := by
  simp [expectC]

theorem skipWs_sp (t : LStr) : skipWs (' ' :: t) = skipWs t := by
  simp only [skipWs]
  exact if_pos (by decide)

theorem RT_pairsC (b : Bundle) : ∀ (fuel : Nat) (rest : LStr), b ≠ [] → b.length ≤ fuel →
    parseInnerPairs fuel (dumpPairsC b ++ '}' :: rest) = some (b, rest) := by
  induction b with
  | nil => intro fuel rest h _; exact absurd rfl h
  | cons p b' ih =>
    intro fuel rest _ hlen
    obtain ⟨k, v⟩ := p
    cases fuel with
    | zero => simp at hlen
    | succ f =>
      simp only [dumpPairsC, List.append_assoc, List.cons_append]
      simp only [parseInnerPairs, Option.bind_eq_bind]
      rw [parseStrLit_q]
      simp only [Option.some_bind]
      rw [skipWs_not_ws ':' _ (by decide), expectC_self]
      simp only [Option.some_bind]
      rw [skipWs_sp, skipWs_qstr, parseStrLit_q]
      simp only [Option.some_bind]
      cases hb' : b' with
      | nil =>
        simp only [dumpPairsCTail, List.nil_append]
        rw [skipWs_not_ws '}' rest (by decide)]
        simp
      | cons q b'' =>
        obtain ⟨k2, v2⟩ := q
        simp only [dumpPairsCTail, List.cons_append, List.append_assoc]
        rw [skipWs_not_ws ',' _ (by decide)]
        have hih := ih f rest (by simp [hb']) (by subst hb'; simpa using Nat.le_of_succ_le_succ hlen)
        rw [hb'] at hih
        simp only [dumpPairsC, List.append_assoc, List.cons_append] at hih
        simp only [show ((',' : Char) = '}') = False from by simp,
          show ((',' : Char) = ',') = True from by simp, if_false, if_true]
        rw [skipWs_sp, skipWs_qstr, hih]
        simp

theorem RT_dictC (b : Bundle) (fuel : Nat) (rest : LStr) (hlen : b.length ≤ fuel) :
    parseDict fuel (dumpBundleC b ++ rest) = some (b, rest) := by
  cases b with
  | nil =>
    show parseDict fuel (['{', '}'] ++ rest) = some ([], rest)
    simp only [parseDict, List.cons_append, List.nil_append]
    rw [skipWs_not_ws '{' _ (by decide)]
    dsimp only
    rw [if_pos rfl]
    rw [skipWs_not_ws '}' _ (by decide)]
    dsimp only
    rw [if_pos rfl]
  | cons p b' =>
    obtain ⟨k, v⟩ := p
    have hshape : dumpPairsC ((k, v) :: b') ++ '}' :: rest
        = '"' :: (escapeJson k ++ '"' ::
            (':' :: ' ' :: (qstr v ++ (dumpPairsCTail b' ++ '}' :: rest)))) := by
      simp [dumpPairsC, qstr]
    have htext : dumpBundleC ((k, v) :: b') ++ rest
        = '{' :: (dumpPairsC ((k, v) :: b') ++ '}' :: rest) := by
      simp [dumpBundleC]
    rw [htext]
    simp only [parseDict]
    rw [skipWs_not_ws '{' _ (by decide)]
    dsimp only
    rw [if_pos rfl]
    rw [hshape]
    rw [skipWs_not_ws '"' _ (by decide)]
    dsimp only
    rw [if_neg (by decide)]
    rw [← hshape]
    exact RT_pairsC _ fuel rest (by simp) hlen

theorem RT_catC (cat : Catalog) : ∀ (fuel : Nat) (rest : LStr), cat ≠ [] →
    catCost cat ≤ fuel →
    parseCatPairs fuel (dumpCatEntriesC cat ++ '}' :: rest) = some (cat, rest) := by
  induction cat with
  | nil => intro fuel rest h _; exact absurd rfl h
  | cons p cat' ih =>
    intro fuel rest _ hlen
    obtain ⟨loc, b⟩ := p
    cases fuel with
    | zero => simp [catCost] at hlen
    | succ f =>
      have hbf : b.length ≤ f := by simp [catCost] at hlen; omega
      simp only [dumpCatEntriesC, List.append_assoc, List.cons_append]
      simp only [parseCatPairs, Option.bind_eq_bind]
      rw [parseStrLit_q]
      simp only [Option.some_bind]
      rw [skipWs_not_ws ':' _ (by decide), expectC_self]
      simp only [Option.some_bind]
      rw [show skipWs (' ' :: (dumpBundleC b ++ (dumpCatTailC cat' ++ '}' :: rest)))
          = dumpBundleC b ++ (dumpCatTailC cat' ++ '}' :: rest) from by
        rw [skipWs_sp]
        cases b with
        | nil => exact skipWs_not_ws '{' _ (by decide)
        | cons q b'' => exact skipWs_not_ws '{' _ (by decide)]
      rw [RT_dictC b f _ hbf]
      simp only [Option.some_bind]
      cases hc' : cat' with
      | nil =>
        simp only [dumpCatTailC, List.nil_append]
        rw [skipWs_not_ws '}' rest (by decide)]
        simp
      | cons q cat'' =>
        obtain ⟨loc2, b2⟩ := q
        simp only [dumpCatTailC, List.cons_append, List.append_assoc]
        rw [skipWs_not_ws ',' _ (by decide)]
        have hih := ih f rest (by simp [hc'])
          (by subst hc'; simp [catCost] at hlen ⊢; omega)
        rw [hc'] at hih
        simp only [dumpCatEntriesC, List.append_assoc, List.cons_append] at hih
        simp only [show ((',' : Char) = '}') = False from by simp,
          show ((',' : Char) = ',') = True from by simp, if_false, if_true]
        rw [skipWs_sp, skipWs_qstr, hih]
        simp

theorem len_qstr (s : LStr) : 2 ≤ (qstr s).length := by
  simp [qstr]

theorem len_dumpPairsCTail (b : Bundle) : b.length ≤ (dumpPairsCTail b).length := by
  induction b with
  | nil => simp [dumpPairsCTail]
  | cons p b' ih =>
    obtain ⟨k, v⟩ := p
    simp [dumpPairsCTail]
    omega

theorem len_dumpPairsC (b : Bundle) : b.length ≤ (dumpPairsC b).length := by
  cases b with
  | nil => simp [dumpPairsC]
  | cons p b' =>
    obtain ⟨k, v⟩ := p
    have := len_dumpPairsCTail b'
    simp [dumpPairsC]
    omega

theorem len_dumpBundleC (b : Bundle) : b.length + 1 ≤ (dumpBundleC b).length := by
  have := len_dumpPairsC b
  simp [dumpBundleC]
  omega

theorem len_dumpCatTailC (cat : Catalog) : catCost cat ≤ (dumpCatTailC cat).length := by
  induction cat with
  | nil => simp [catCost, dumpCatTailC]
  | cons p cat' ih =>
    obtain ⟨loc, b⟩ := p
    have := len_dumpBundleC b
    simp [catCost, dumpCatTailC]
    omega

theorem len_dumpCatEntriesC (cat : Catalog) : catCost cat ≤ (dumpCatEntriesC cat).length := by
  cases cat with
  | nil => simp [catCost, dumpCatEntriesC]
  | cons p cat' =>
    obtain ⟨loc, b⟩ := p
    have h1 := len_dumpBundleC b
    have h2 := len_dumpCatTailC cat'
    simp [catCost, dumpCatEntriesC]
    omega

/-- Round-trip of the compact serialization through the literal-eval model:
this is the core of the reverse converter's correctness on files generated by
`crowdin.py`. -/
theorem literalEval_dumpCompact (cat : Catalog) :
    literalEvalCatalog (jsonDumpsCompact cat) = some cat := by
  cases hc : cat with
  | nil => rfl
  | cons p cat' =>
    obtain ⟨loc, b⟩ := p
    have hfuel : catCost ((loc, b) :: cat') ≤ (jsonDumpsCompact ((loc, b) :: cat')).length + 1 := by
      have := len_dumpCatEntriesC ((loc, b) :: cat')
      simp [jsonDumpsCompact]
      omega
    have htext : jsonDumpsCompact ((loc, b) :: cat')
        = '{' :: (dumpCatEntriesC ((loc, b) :: cat') ++ '}' :: []) := by
      simp [jsonDumpsCompact]
    rw [literalEvalCatalog, parseCatalogTop, htext]
    rw [skipWs_not_ws '{' _ (by decide)]
    dsimp only
    rw [if_pos rfl]
    rw [show skipWs (dumpCatEntriesC ((loc, b) :: cat') ++ '}' :: [])
        = dumpCatEntriesC ((loc, b) :: cat') ++ '}' :: [] from by
      simp only [dumpCatEntriesC, List.append_assoc, List.cons_append]
      exact skipWs_qstr loc _]
    rw [show dumpCatEntriesC ((loc, b) :: cat') ++ '}' :: []
        = '"' :: (escapeJson loc ++ '"' ::
            (':' :: ' ' :: (dumpBundleC b ++ (dumpCatTailC cat' ++ '}' :: [])))) from by
      simp [dumpCatEntriesC, qstr]]
    dsimp only
    rw [if_neg (by decide)]
    rw [show ('"' :: (escapeJson loc ++ '"' ::
          (':' :: ' ' :: (dumpBundleC b ++ (dumpCatTailC cat' ++ '}' :: [])))))
        = dumpCatEntriesC ((loc, b) :: cat') ++ '}' :: [] from by
      simp [dumpCatEntriesC, qstr]]
    rw [RT_catC ((loc, b) :: cat') _ [] (by simp) (by rw [← htext]; exact hfuel)]
    simp [skipWs]

/-! ## Association-list lemmas -/

theorem alookup_append_of_none (k : LStr) (d e : List (LStr × α))
    (h : alookup k d = none) : alookup k (d ++ e) = alookup k e := by
  induction d with
  | nil => rfl
  | cons p rest ih =>
    obtain ⟨k', v⟩ := p
    by_cases hk : k' = k
    · simp [alookup, hk] at h
    · simp only [alookup, if_neg hk, List.cons_append] at h ⊢
      exact ih h

theorem alookup_append_left (k : LStr) (d e : List (LStr × α)) (x : α)
    (h : alookup k d = some x) : alookup k (d ++ e) = some x := by
  induction d with
  | nil => simp [alookup] at h
  | cons p rest ih =>
    obtain ⟨k', v⟩ := p
    by_cases hk : k' = k
    · simp only [alookup, if_pos hk, List.cons_append] at h ⊢
      exact h
    · simp only [alookup, if_neg hk, List.cons_append] at h ⊢
      exact ih h

theorem alookup_map_replace (k : LStr) (v : α) (d : List (LStr × α)) :
    alookup k (d.map (fun kv => if kv.1 = k then (k, v) else kv))
      = if (alookup k d).isSome then some v else none := by
  induction d with
  | nil => rfl
  | cons p rest ih =>
    obtain ⟨k', v'⟩ := p
    by_cases hk : k' = k
    · subst hk
      simp only [List.map_cons, if_pos rfl]
      simp [alookup]
    · simp only [List.map_cons]
      rw [if_neg hk]
      simp only [alookup, if_neg hk, ih]

theorem alookup_map_replace_other (k k' : LStr) (hk : k' ≠ k) (v : α)
    (d : List (LStr × α)) :
    alookup k' (d.map (fun kv => if kv.1 = k then (k, v) else kv)) = alookup k' d := by
  induction d with
  | nil => rfl
  | cons p rest ih =>
    obtain ⟨k0, v0⟩ := p
    by_cases h0 : k0 = k
    · subst h0
      simp only [List.map_cons, if_pos rfl, if_true]
      have hne : ¬ (k0 = k') := fun h => hk h.symm
      simp [alookup, hne, ih]
    · simp only [List.map_cons]
      rw [if_neg h0]
      by_cases h2 : k0 = k'
      · simp [alookup, h2]
      · simp only [alookup, if_neg h2, ih]

theorem dictInsert_alookup_self (d : List (LStr × α)) (k : LStr) (v : α) :
    alookup k (dictInsert d k v) = some v := by
  unfold dictInsert
  by_cases hp : (alookup k d).isSome
  · rw [if_pos hp, alookup_map_replace, if_pos hp]
  · rw [if_neg hp]
    rw [alookup_append_of_none k d _ (by cases h : alookup k d with
      | none => rfl
      | some x => rw [h] at hp; simp at hp)]
    simp [alookup]

theorem dictInsert_alookup_other (d : List (LStr × α)) (k k' : LStr) (v : α)
    (hk : k' ≠ k) : alookup k' (dictInsert d k v) = alookup k' d := by
  unfold dictInsert
  by_cases hp : (alookup k d).isSome
  · rw [if_pos hp]
    exact alookup_map_replace_other k k' hk v d
  · rw [if_neg hp]
    cases hx : alookup k' d with
    | none =>
      rw [alookup_append_of_none k' d _ hx]
      simp [alookup, hk, Ne.symm hk]
    | some x => exact alookup_append_left k' d _ x hx

theorem alookup_mem_values (k : LStr) (tbl : List (LStr × LStr)) (a : LStr)
    (h : alookup k tbl = some a) : a ∈ tbl.map Prod.snd := by
  induction tbl with
  | nil => simp [alookup] at h
  | cons p rest ih =>
    obtain ⟨k', v⟩ := p
    by_cases hk : k' = k
    · simp [alookup, hk] at h
      simp [h]
    · simp only [alookup, if_neg hk] at h
      simp [ih h]

/-- Distinct keys hit distinct values when the table's values are distinct. -/
theorem alookup_inj (tbl : List (LStr × LStr)) (hv : (tbl.map Prod.snd).Nodup)
    (l1 l2 a : LStr) (h1 : alookup l1 tbl = some a) (h2 : alookup l2 tbl = some a) :
    l1 = l2 := by
  induction tbl with
  | nil => simp [alookup] at h1
  | cons p rest ih =>
    obtain ⟨k, v⟩ := p
    simp only [List.map_cons, List.nodup_cons] at hv
    by_cases hk1 : k = l1 <;> by_cases hk2 : k = l2
    · rw [← hk1, ← hk2]
    · simp only [alookup, if_pos hk1, if_neg hk2] at h1 h2
      injection h1 with h1
      exact absurd (h1 ▸ alookup_mem_values l2 rest a h2) hv.1
    · simp only [alookup, if_neg hk1, if_pos hk2] at h1 h2
      injection h2 with h2
      exact absurd (h2 ▸ alookup_mem_values l1 rest a h1) hv.1
    · simp only [alookup, if_neg hk1, if_neg hk2] at h1 h2
      exact ih hv.2 h1 h2

/-! ## Claim C4: the two mapping tables -/

/-- C4 counterexample: the two `lang_crowdin` tables are not equal as
mappings — they disagree on the vendor code `nl` (`crowdin.py` maps it to
`nl-NL`, `crowdin_to_dart.py` to `nl-nl`). -/
theorem c4_counterexample :
    alookup "nl".data lang_crowdin ≠ alookup "nl".data lang_crowdin_ctd := by
  decide

/-- C4 amended: the two tables have the same key set, agree on every vendor
code other than `nl`, `sl` and `zh-CN`, and on those three they produce
app codes differing only in letter case (`nl-NL`/`nl-nl`, `sl-SL`/`sl-sl`,
`zh-CN`/`zh-cn`). -/
theorem c4_amended :
    (lang_crowdin.map Prod.fst).Perm (lang_crowdin_ctd.map Prod.fst) ∧
    (∀ k ∈ lang_crowdin.map Prod.fst,
      k ≠ "nl".data → k ≠ "sl".data → k ≠ "zh-CN".data →
      alookup k lang_crowdin = alookup k lang_crowdin_ctd) ∧
    alookup "nl".data lang_crowdin = some "nl-NL".data ∧
    alookup "nl".data lang_crowdin_ctd = some "nl-nl".data ∧
    alookup "sl".data lang_crowdin = some "sl-SL".data ∧
    alookup "sl".data lang_crowdin_ctd = some "sl-sl".data ∧
    alookup "zh-CN".data lang_crowdin = some "zh-CN".data ∧
    alookup "zh-CN".data lang_crowdin_ctd = some "zh-cn".data := by
  decide

/-! ## Claim C2: unmapped locales -/

/-- Once the `crowdin.py` loop has raised, it stays failed. -/
theorem crowdinFold_none (l : Archive) :
    l.foldl (fun acc e =>
      acc.bind (fun out =>
        if containsSub saturnName e.1.data then
          match alookup (vendorLang e.1) lang_crowdin with
          | some app => some (dictInsert out app e.2)
          | none => none
        else some out)) none = none := by
  induction l with
  | nil => rfl
  | cons e rest ih => simpa using ih

/-- `crowdin.py` aborts with a `KeyError` whenever a selected entry's vendor
locale is absent from its mapping table. -/
theorem crowdinAggregate_unmapped_none (archive : Archive) (name : String) (b : Bundle)
    (hmem : (name, b) ∈ archive) (hsel : containsSub saturnName name.data = true)
    (hno : alookup (vendorLang name) lang_crowdin = none) :
    crowdinAggregate archive = none := by
  unfold crowdinAggregate
  suffices h : ∀ (l : Archive) (acc : Option Catalog), ((name, b) ∈ l) →
      l.foldl (fun acc e =>
        acc.bind (fun out =>
          if containsSub saturnName e.1.data then
            match alookup (vendorLang e.1) lang_crowdin with
            | some app => some (dictInsert out app e.2)
            | none => none
          else some out)) acc = none by
    exact h archive (some []) hmem
  intro l
  induction l with
  | nil => intro acc h; simp at h
  | cons e rest ih =>
    intro acc hm
    rcases List.mem_cons.mp hm with he | hrest
    · subst he
      cases acc with
      | none => simpa using crowdinFold_none rest
      | some out =>
        simp only [List.foldl_cons, Option.bind_eq_bind, Option.some_bind, hsel, if_true, hno]
        exact crowdinFold_none rest
    · exact ih _ hrest

/-- A successful archive lookup is a membership. -/
theorem archLookup_mem (name : String) (a : Archive) (b : Bundle)
    (h : archLookup name a = some b) : (name, b) ∈ a := by
  induction a with
  | nil => simp [archLookup] at h
  | cons e rest ih =>
    obtain ⟨n0, b0⟩ := e
    by_cases h0 : n0 = name
    · simp only [archLookup, if_pos h0] at h
      injection h with h
      simp [h0, h]
    · simp only [archLookup, if_neg h0] at h
      exact List.mem_cons_of_mem _ (ih h)

/-- Keys after a dict insertion: an old key or the inserted one. -/
theorem dictInsert_keys (d : List (LStr × α)) (k : LStr) (v : α) :
    ∀ K ∈ (dictInsert d k v).map Prod.fst, K ∈ d.map Prod.fst ∨ K = k := by
  intro K hK
  unfold dictInsert at hK
  by_cases hp : (alookup k d).isSome
  · rw [if_pos hp] at hK
    simp only [List.map_map] at hK
    rcases List.mem_map.mp hK with ⟨kv, hkv, hkveq⟩
    by_cases hkk : kv.1 = k
    · right
      rw [← hkveq]
      simp [hkk]
    · left
      rw [← hkveq]
      simp only [Function.comp_apply, if_neg hkk]
      exact List.mem_map.mpr ⟨kv, hkv, rfl⟩
  · rw [if_neg hp] at hK
    simp only [List.map_append, List.map_cons, List.map_nil] at hK
    rcases List.mem_append.mp hK with h | h
    · exact Or.inl h
    · simp at h
      exact Or.inr h

/-- Every key of the `crowdin_to_dart.py` aggregate originates from a
selected archive entry whose vendor locale is present in the mapping table. -/
theorem ctd_keys_from_table (archive : Archive) :
    ∀ K ∈ (ctdAggregate archive).map Prod.fst,
      ∃ (name : String) (b : Bundle) (app : LStr),
        (name, b) ∈ archive ∧ containsSub saturnName name.data = true ∧
        alookup (vendorLang name) lang_crowdin_ctd = some app ∧ K = app := by
  unfold ctdAggregate
  suffices h : ∀ (names : List String) (acc : Catalog),
      (∀ K ∈ acc.map Prod.fst,
        ∃ name b app, (name, b) ∈ archive ∧ containsSub saturnName name.data = true ∧
          alookup (vendorLang name) lang_crowdin_ctd = some app ∧ K = app) →
      ∀ K ∈ (names.foldl (fun out name =>
          if containsSub saturnName name.data then
            match archLookup name archive with
            | some bundle =>
              match alookup (vendorLang name) lang_crowdin_ctd with
              | some app => dictInsert out app bundle
              | none => out
            | none => out
          else out) acc).map Prod.fst,
        ∃ name b app, (name, b) ∈ archive ∧ containsSub saturnName name.data = true ∧
          alookup (vendorLang name) lang_crowdin_ctd = some app ∧ K = app by
    exact h _ [] (by simp)
  intro names
  induction names with
  | nil => intro acc hacc; simpa using hacc
  | cons n rest ih =>
    intro acc hacc
    simp only [List.foldl_cons]
    apply ih
    by_cases hsel : containsSub saturnName n.data = true
    · rw [if_pos hsel]
      cases hb : archLookup n archive with
      | none => exact hacc
      | some bundle =>
        cases hap : alookup (vendorLang n) lang_crowdin_ctd with
        | none => exact hacc
        | some app =>
          intro K hK
          rcases dictInsert_keys acc app bundle K hK with hold | hnew
          · exact hacc K hold
          · exact ⟨n, bundle, app, archLookup_mem n archive bundle hb, hsel, hap, hnew⟩
    · rw [if_neg (by simpa using hsel)]
      exact hacc

/-- C2 counterexample: for `crowdin.py`, a vendor locale absent from the
mapping table is not silently dropped — the run fails (`KeyError`), so the
claim that both forward scripts silently drop such data is false at this
concrete archive. -/
theorem c2_counterexample :
    crowdinAggregate [("xx/saturn.json", [("k".data, "v".data)])] = none := by
  decide

/-- C2 amended: `crowdin_to_dart.py` silently drops data of unmapped vendor
locales (the aggregate only contains entries derived from mapped, selected
archive entries, and the conversion is total), while `crowdin.py` aborts with
a lookup failure whenever a selected entry's locale is unmapped. -/
theorem c2_amended :
    (∀ (archive : Archive), ∀ K ∈ (ctdAggregate archive).map Prod.fst,
      ∃ (name : String) (b : Bundle) (app : LStr),
        (name, b) ∈ archive ∧ containsSub saturnName name.data = true ∧
        alookup (vendorLang name) lang_crowdin_ctd = some app ∧ K = app) ∧
    (∀ (archive : Archive) (name : String) (b : Bundle),
      (name, b) ∈ archive → containsSub saturnName name.data = true →
      alookup (vendorLang name) lang_crowdin = none →
      crowdinAggregate archive = none) :=
  ⟨ctd_keys_from_table, fun archive name b hm hs hn =>
    crowdinAggregate_unmapped_none archive name b hm hs hn⟩

/-! ## Claims C8 and C10: reverse-converter failure behavior -/

theorem strIndex_none_of_not_contains (pat s : LStr)
    (h : containsSub pat s = false) : strIndex pat s = none := by
  induction s with
  | nil =>
    simp only [containsSub] at h
    simp [strIndex, h]
  | cons c t ih =>
    simp only [containsSub, Bool.or_eq_false_iff] at h
    simp only [strIndex, h.1, if_false, Bool.false_eq_true]
    rw [ih h.2]
    rfl

theorem lhead_matches_drop_false (pat s : LStr) (h : containsSub pat s = false) :
    ∀ j, lhead_matches pat (s.drop j) = false := by
  induction s with
  | nil =>
    intro j
    simp only [containsSub] at h
    simpa [List.drop_nil] using h
  | cons c t ih =>
    intro j
    simp only [containsSub, Bool.or_eq_false_iff] at h
    cases j with
    | zero => exact h.1
    | succ j' => exact ih h.2 j'

theorem rfindAux_none_of_not_contains (pat s : LStr)
    (h : containsSub pat s = false) : ∀ i, rfindAux pat s i = none := by
  intro i
  induction i with
  | zero =>
    have := lhead_matches_drop_false pat s h 0
    simp only [List.drop_zero] at this
    simp [rfindAux, this]
  | succ i' ih =>
    have := lhead_matches_drop_false pat s h (i' + 1)
    simp [rfindAux, this, ih]

theorem strRIndex_none_of_not_contains (pat s : LStr)
    (h : containsSub pat s = false) : strRIndex pat s = none :=
  rfindAux_none_of_not_contains pat s h _

/-- C8: the reverse converter fails — aborting with an exception, modelled by
the `none` result — whenever the start marker `const crowdin = ` is absent,
whenever the end marker `};` is absent, and whenever the extracted,
sigil-unescaped text between the markers does not parse as a literal. -/
theorem c8_reverse_fails (content : LStr) :
    (containsSub startMarker content = false → process_dart_file content = ([], none)) ∧
    (containsSub endMarker content = false → process_dart_file content = ([], none)) ∧
    (∀ start e, strIndex startMarker content = some start →
      strRIndex endMarker content = some e →
      literalEvalCatalog (repDS (pySlice content (start + startMarker.length) (e + 1))) = none →
      process_dart_file content = ([], none)) := by
  refine ⟨?_, ?_, ?_⟩
  · intro h
    unfold process_dart_file
    rw [strIndex_none_of_not_contains _ _ h]
  · intro h
    unfold process_dart_file
    cases strIndex startMarker content with
    | none => rfl
    | some start =>
      rw [strRIndex_none_of_not_contains _ _ h]
  · intro start e h1 h2 h3
    unfold process_dart_file
    rw [h1]
    dsimp only
    rw [h2]
    dsimp only
    rw [h3]

/-- C10: parse-stage atomicity — whenever the reverse converter aborts (the
marker search or the literal parse fails), its filesystem-effect trace is
empty: no directory is created, no file is written, no archive is made and
nothing is deleted, because every filesystem effect in `process_dart_file`
is sequenced after `ast.literal_eval` succeeds. -/
theorem c10_parse_atomicity (content : LStr) :
    (process_dart_file content).2 = none → (process_dart_file content).1 = [] := by
  unfold process_dart_file
  cases strIndex startMarker content with
  | none => intro; rfl
  | some start =>
    dsimp only
    cases strRIndex endMarker content with
    | none => intro; rfl
    | some e =>
      dsimp only
      cases literalEvalCatalog (repDS (pySlice content (start + startMarker.length) (e + 1))) with
      | none => intro; rfl
      | some cat => intro h; simp at h

/-! ## Claim C7: reverse-converter output -/

theorem catEffects_mem (cat : Catalog) (loc : LStr) (tr : Bundle)
    (h : (loc, tr) ∈ cat) :
    FsEffect.makedirs ("./saturn/".data ++ loc) ∈ catEffects cat ∧
    FsEffect.write ("./saturn/".data ++ loc ++ "/saturn.json".data)
      (jsonDumpsBundleTop tr) ∈ catEffects cat := by
  induction cat with
  | nil => simp at h
  | cons p rest ih =>
    rcases List.mem_cons.mp h with he | hr
    · subst he
      constructor <;> simp [catEffects, localeEffects]
    · obtain ⟨h1, h2⟩ := ih hr
      obtain ⟨l0, t0⟩ := p
      constructor <;> simp [catEffects, localeEffects] <;> right <;> assumption

theorem catEffects_shape (cat : Catalog) :
    ∀ e ∈ catEffects cat,
      (∃ p, e = FsEffect.makedirs p) ∨ ∃ p c, e = FsEffect.write p c := by
  induction cat with
  | nil => simp [catEffects]
  | cons p rest ih =>
    obtain ⟨l0, t0⟩ := p
    intro e he
    simp only [catEffects, localeEffects, List.cons_append, List.nil_append,
      List.mem_cons] at he
    rcases he with h | h | h
    · exact Or.inl ⟨_, h⟩
    · exact Or.inr ⟨_, _, h⟩
    · exact ih e h

/-- C7: on every successfully parsed generated file, the reverse converter
produces, for each top-level locale, a directory creation and a write of
`./saturn/(locale)/saturn.json` holding that locale's bundle serialized with
two-space indentation and non-ASCII left unescaped (`jsonDumpsBundleTop`);
the effect trace is exactly those per-locale effects (in catalog order)
followed by zipping the output root and deleting the tree. -/
theorem c7_reverse_output (content : LStr) (cat : Catalog) (fx : List FsEffect)
    (h : process_dart_file content = (fx, some cat)) :
    fx = catEffects cat ++ finalEffects ∧
    (∀ loc tr, (loc, tr) ∈ cat →
      FsEffect.makedirs ("./saturn/".data ++ loc) ∈ fx ∧
      FsEffect.write ("./saturn/".data ++ loc ++ "/saturn.json".data)
        (jsonDumpsBundleTop tr) ∈ fx) ∧
    (∀ e ∈ catEffects cat,
      (∃ p, e = FsEffect.makedirs p) ∨ ∃ p c, e = FsEffect.write p c) := by
  have hfx : fx = catEffects cat ++ finalEffects := by
    unfold process_dart_file at h
    cases hS : strIndex startMarker content with
    | none =>
      rw [hS] at h
      have h2 : (([], none) : List FsEffect × Option Catalog) = (fx, some cat) := h
      simp at h2
    | some start =>
      rw [hS] at h
      cases hR : strRIndex endMarker content with
      | none =>
        rw [hR] at h
        have h2 : (([], none) : List FsEffect × Option Catalog) = (fx, some cat) := h
        simp at h2
      | some e =>
        rw [hR] at h
        have h2 : (match literalEvalCatalog
              (repDS (pySlice content (start + startMarker.length) (e + 1))) with
            | none => (([] : List FsEffect), (none : Option Catalog))
            | some cat2 => (catEffects cat2 ++ finalEffects, some cat2)) = (fx, some cat) := h
        cases hL : literalEvalCatalog
            (repDS (pySlice content (start + startMarker.length) (e + 1))) with
        | none =>
          rw [hL] at h2
          have h3 : (([], none) : List FsEffect × Option Catalog) = (fx, some cat) := h2
          simp at h3
        | some cat2 =>
          rw [hL] at h2
          have h3 : ((catEffects cat2 ++ finalEffects, some cat2)
              : List FsEffect × Option Catalog) = (fx, some cat) := h2
          injection h3 with h4 h5
          injection h5 with h5
          rw [← h4, h5]
  refine ⟨hfx, ?_, catEffects_shape cat⟩
  intro loc tr hm
  obtain ⟨h1, h2⟩ := catEffects_mem cat loc tr hm
  subst hfx
  exact ⟨List.mem_append.mpr (Or.inl h1), List.mem_append.mpr (Or.inl h2)⟩

/-! ## Claim C9: determinism of the sorting forward converter -/

/-- With distinct entry names, reading an entry by name does not depend on
the order in which the archive stores its entries. -/
theorem archLookup_perm (a1 a2 : Archive) (hperm : a1.Perm a2)
    (hnd : (a1.map Prod.fst).Nodup) :
    ∀ name, archLookup name a1 = archLookup name a2 := by
  induction hperm with
  | nil => intro name; rfl
  | cons x l1 ih =>
    intro name
    obtain ⟨n0, b0⟩ := x
    simp only [archLookup]
    by_cases h0 : n0 = name
    · rw [if_pos h0, if_pos h0]
    · rw [if_neg h0, if_neg h0]
      exact ih (by simpa using (List.nodup_cons.mp (by simpa using hnd)).2) name
  | swap x y l =>
    intro name
    obtain ⟨nx, bx⟩ := x
    obtain ⟨ny, by_⟩ := y
    have hxy : ny ≠ nx := by
      simp only [List.map_cons, List.nodup_cons, List.mem_cons] at hnd
      exact fun h => hnd.1 (Or.inl h)
    simp only [archLookup]
    by_cases hy : ny = name <;> by_cases hx : nx = name
    · exact absurd (hy.trans hx.symm) hxy
    · rw [if_pos hy, if_neg hx, if_pos hy]
    · rw [if_neg hy, if_pos hx, if_pos hx]
    · rw [if_neg hy, if_neg hx, if_neg hx, if_neg hy]
  | trans p1 p2 ih1 ih2 =>
    intro name
    rw [ih1 hnd name]
    exact ih2 ((p1.map Prod.fst).nodup_iff.mp hnd) name

theorem foldl_step_congr {β : Type} (step1 step2 : Catalog → β → Catalog)
    (hstep : ∀ out x, step1 out x = step2 out x) :
    ∀ (l : List β) (acc : Catalog), l.foldl step1 acc = l.foldl step2 acc := by
  intro l
  induction l with
  | nil => intro acc; rfl
  | cons x rest ih =>
    intro acc
    simp only [List.foldl_cons, hstep]
    exact ih _

/-- C9: the `crowdin_to_dart.py` forward converter sorts the entry names
before filtering, so its output file content is byte-identical across runs on
archives holding the same entries in any storage order (entry names assumed
distinct, as in a well-formed zip). -/
theorem c9_determinism (a1 a2 : Archive) (hperm : a1.Perm a2)
    (hnd : (a1.map Prod.fst).Nodup) :
    ctdContent a1 = ctdContent a2 := by
  have hnames : List.insertionSort (· ≤ ·) (a1.map Prod.fst)
      = List.insertionSort (· ≤ ·) (a2.map Prod.fst) := by
    exact @List.eq_of_perm_of_sorted String (· ≤ ·) _ _ _
      (((List.perm_insertionSort _ _).trans (hperm.map Prod.fst)).trans
        (List.perm_insertionSort _ _).symm)
      (List.sorted_insertionSort _ _) (List.sorted_insertionSort _ _)
  have hagg : ctdAggregate a1 = ctdAggregate a2 := by
    unfold ctdAggregate
    rw [hnames]
    apply foldl_step_congr
    intro out name
    rw [archLookup_perm a1 a2 hperm hnd name]
  unfold ctdContent
  rw [hagg]

/-! ## Marker location on generated content -/

theorem lhead_matches_append_self (pat x : LStr) :
    lhead_matches pat (pat ++ x) = true := by
  induction pat with
  | nil => rfl
  | cons c t ih => simp [lhead_matches, ih]

theorem strIndex_self_append (pat x : LStr) (hpat : pat ≠ []) :
    strIndex pat (pat ++ x) = some 0 := by
  cases pat with
  | nil => exact absurd rfl hpat
  | cons c t =>
    cases x with
    | nil =>
      simp only [strIndex]
      rw [if_pos (by simpa using lhead_matches_append_self (c :: t) [])]
    | cons d u =>
      simp only [List.cons_append, strIndex]
      rw [if_pos (by simpa using lhead_matches_append_self (c :: t) (d :: u))]

theorem lhead_matches_end2_nil : lhead_matches ['}', ';'] ([] : LStr) = false := rfl

theorem lhead_matches_end2_semi : lhead_matches ['}', ';'] ([';'] : LStr) = false := by
  show (('}' : Char) = ';' && lhead_matches [';'] []) = false
  rw [show (('}' : Char) = ';' : Bool) = false from by decide]
  rfl

theorem strRIndex_append_end (A : LStr) :
    strRIndex ['}', ';'] (A ++ ['}', ';']) = some A.length := by
  unfold strRIndex
  have hlen : (A ++ ['}', ';']).length = A.length + 2 := by simp
  rw [hlen]
  have h2 : lhead_matches ['}', ';'] ((A ++ ['}', ';']).drop (A.length + 2)) = false := by
    rw [show A.length + 2 = A.length + 2 from rfl, List.drop_append 2]
    exact lhead_matches_end2_nil
  have h1 : lhead_matches ['}', ';'] ((A ++ ['}', ';']).drop (A.length + 1)) = false := by
    rw [show A.length + 1 = A.length + 1 from rfl, List.drop_append 1]
    exact lhead_matches_end2_semi
  have h0 : lhead_matches ['}', ';'] ((A ++ ['}', ';']).drop A.length) = true := by
    rw [List.drop_left]
    rfl
  rw [rfindAux, if_neg (by simp [h2, lhead_matches_end2_nil, lhead_matches_end2_semi])]
  rw [rfindAux, if_neg (by simp [h1, lhead_matches_end2_nil, lhead_matches_end2_semi])]
  cases hA : A.length with
  | zero =>
    have hAnil : A = [] := List.length_eq_zero.mp hA
    subst hAnil
    rw [rfindAux]
    rw [if_pos (by rw [List.nil_append]; decide)]
  | succ n =>
    rw [rfindAux]
    rw [if_pos (by rw [← hA]; exact h0)]

/-- Processing the file generated by `crowdin.py` from aggregate `out`
recovers exactly `out` and produces the per-locale writes followed by
zip-then-delete. -/
theorem process_crowdinContent (out : Catalog) :
    process_dart_file (crowdinContent out) = (catEffects out ++ finalEffects, some out) := by
  have hdump : repD (jsonDumpsCompact out) = '{' :: (repD (dumpCatEntriesC out) ++ ['}']) := by
    show repD ('{' :: (dumpCatEntriesC out ++ ['}'])) = _
    rw [show ('{' :: (dumpCatEntriesC out ++ ['}'])) = ['{'] ++ (dumpCatEntriesC out ++ ['}'])
      from rfl]
    rw [repD_append, repD_append]
    rfl
  have hcontent : crowdinContent out
      = (startMarker ++ '{' :: repD (dumpCatEntriesC out)) ++ ['}', ';'] := by
    unfold crowdinContent
    rw [hdump]
    simp
  have hidx : strIndex startMarker (crowdinContent out) = some 0 := by
    unfold crowdinContent
    rw [List.append_assoc]
    exact strIndex_self_append _ _ (by decide)
  have hridx : strRIndex endMarker (crowdinContent out)
      = some ((startMarker ++ '{' :: repD (dumpCatEntriesC out)).length) := by
    rw [hcontent]
    exact strRIndex_append_end _
  have hslice : pySlice (crowdinContent out) (0 + startMarker.length)
      ((startMarker ++ '{' :: repD (dumpCatEntriesC out)).length + 1)
      = repD (jsonDumpsCompact out) := by
    unfold pySlice
    rw [Nat.zero_add]
    rw [show crowdinContent out = startMarker ++ (repD (jsonDumpsCompact out) ++ [';']) from by
      unfold crowdinContent; simp]
    rw [List.drop_left]
    rw [show (startMarker ++ '{' :: repD (dumpCatEntriesC out)).length + 1 - startMarker.length
        = (repD (jsonDumpsCompact out)).length from by
      rw [hdump]
      simp
      omega]
    exact List.take_left _ _
  unfold process_dart_file
  rw [hidx]
  dsimp only
  rw [hridx]
  dsimp only
  rw [hslice, repDS_repD, literalEval_dumpCompact]

theorem lang_crowdin_values_nodup : (lang_crowdin.map Prod.snd).Nodup := by decide

/-- Later loop iterations do not disturb a key that none of them writes. -/
theorem crowdinFold_preserve (l : Archive) : ∀ (acc out : Catalog) (app0 : LStr),
    l.foldl (fun acc e =>
      acc.bind (fun out =>
        if containsSub saturnName e.1.data then
          match alookup (vendorLang e.1) lang_crowdin with
          | some app => some (dictInsert out app e.2)
          | none => none
        else some out)) (some acc) = some out →
    (∀ name b, (name, b) ∈ l → containsSub saturnName name.data = true →
      ∀ app, alookup (vendorLang name) lang_crowdin = some app → app ≠ app0) →
    alookup app0 out = alookup app0 acc := by
  induction l with
  | nil =>
    intro acc out app0 h _
    simp only [List.foldl_nil] at h
    injection h with h
    rw [h]
  | cons e rest ih =>
    intro acc out app0 h hothers
    obtain ⟨name, b⟩ := e
    by_cases hsel : containsSub saturnName name.data = true
    · simp only [List.foldl_cons, Option.bind_eq_bind, Option.some_bind, hsel, if_true] at h
      cases hap : alookup (vendorLang name) lang_crowdin with
      | none =>
        rw [hap] at h
        rw [crowdinFold_none rest] at h
        cases h
      | some app =>
        rw [hap] at h
        have hne : app ≠ app0 :=
          hothers name b (List.mem_cons_self _ _) hsel app hap
        have := ih _ out app0 h
          (fun n' b' hm hs a ha => hothers n' b' (List.mem_cons_of_mem _ hm) hs a ha)
        rw [this, dictInsert_alookup_other _ _ _ _ (fun hh => hne hh.symm)]
    · simp only [List.foldl_cons, Option.bind_eq_bind, Option.some_bind] at h
      rw [if_neg hsel] at h
      exact ih _ out app0 h
        (fun n' b' hm hs a ha => hothers n' b' (List.mem_cons_of_mem _ hm) hs a ha)

/-- Each selected, mapped archive entry ends up under its mapped app code in
the final aggregate, provided the selected vendor locales are distinct. -/
theorem crowdinFold_lookup (l : Archive) : ∀ (acc out : Catalog),
    l.foldl (fun acc e =>
      acc.bind (fun out =>
        if containsSub saturnName e.1.data then
          match alookup (vendorLang e.1) lang_crowdin with
          | some app => some (dictInsert out app e.2)
          | none => none
        else some out)) (some acc) = some out →
    (selLangs l).Nodup →
    ∀ name b app, (name, b) ∈ l → containsSub saturnName name.data = true →
      alookup (vendorLang name) lang_crowdin = some app →
      alookup app out = some b := by
  induction l with
  | nil => intro acc out _ _ name b app hm; simp at hm
  | cons e rest ih =>
    intro acc out h hnd name b app hm hsel hap
    obtain ⟨n0, b0⟩ := e
    rcases List.mem_cons.mp hm with he | hrest
    · injection he with he1 he2
      subst he1
      subst he2
      simp only [List.foldl_cons, Option.bind_eq_bind, Option.some_bind, hsel, if_true,
        hap] at h
      have hndh : vendorLang name ∉ selLangs rest := by
        unfold selLangs at hnd ⊢
        rw [List.filter_cons, if_pos (by simpa using hsel)] at hnd
        simp only [List.map_cons, List.nodup_cons] at hnd
        exact hnd.1
      have hpres := crowdinFold_preserve rest _ out app h
        (fun n' b' hm' hs' a' ha' => by
          intro heq
          apply hndh
          have hvl : vendorLang n' = vendorLang name :=
            alookup_inj lang_crowdin lang_crowdin_values_nodup _ _ app (heq ▸ ha') hap
          have hmem : vendorLang n' ∈ selLangs rest :=
            List.mem_map.mpr ⟨(n', b'), List.mem_filter.mpr ⟨hm', by simpa using hs'⟩, rfl⟩
          rw [← hvl]
          exact hmem)
      rw [hpres, dictInsert_alookup_self]
    · simp only [List.foldl_cons, Option.bind_eq_bind, Option.some_bind] at h
      by_cases hsel0 : containsSub saturnName n0.data = true
      · rw [if_pos hsel0] at h
        cases hap0 : alookup (vendorLang n0) lang_crowdin with
        | none =>
          rw [hap0, crowdinFold_none rest] at h
          cases h
        | some app0 =>
          rw [hap0] at h
          apply ih _ out h _ name b app hrest hsel hap
          unfold selLangs at hnd ⊢
          rw [List.filter_cons, if_pos (by simpa using hsel0)] at hnd
          simp only [List.map_cons, List.nodup_cons] at hnd
          exact hnd.2
      · rw [if_neg hsel0] at h
        apply ih _ out h _ name b app hrest hsel hap
        unfold selLangs at hnd ⊢
        rw [List.filter_cons, if_neg (by simpa using hsel0)] at hnd
        exact hnd

/-- C1: Round-trip law. For every input archive whose locale entries are flat
string-to-string objects and whose selected vendor locales all appear in the
mapping table (so the forward pass succeeds, producing aggregate `out`; the
selected locales are assumed distinct as in a real export), running the
Reverse Converter on the file generated by the Forward Converter
(`crowdin.py`) reparses exactly `out`; hence for every archive entry the
original bundle — every key and value, including values containing the sigil
`$`, which is escaped to `\$` forward and unescaped back — is recovered
exactly under its mapped locale. -/
theorem c1_round_trip (archive : Archive) (out : Catalog)
    (hgen : crowdinAggregate archive = some out)
    (hnd : (selLangs archive).Nodup) :
    process_dart_file (crowdinContent out) = (catEffects out ++ finalEffects, some out) ∧
    (∀ name b app, (name, b) ∈ archive → containsSub saturnName name.data = true →
      alookup (vendorLang name) lang_crowdin = some app →
      alookup app out = some b) := by
  refine ⟨process_crowdinContent out, ?_⟩
  intro name b app hm hsel hap
  unfold crowdinAggregate at hgen
  exact crowdinFold_lookup archive [] out hgen hnd name b app hm hsel hap

/-- C1 witness: a concrete two-locale archive with a `$`-carrying value and an
apostrophe-carrying value round-trips exactly. -/
theorem c1_round_trip_witness :
    process_dart_file (crowdinContent
        [("de-de".data, [("hello".data, "Ha$llo".data)]),
         ("fr-fr".data, [("a".data, "c'est".data)])])
      = (catEffects
          [("de-de".data, [("hello".data, "Ha$llo".data)]),
           ("fr-fr".data, [("a".data, "c'est".data)])] ++ finalEffects,
         some [("de-de".data, [("hello".data, "Ha$llo".data)]),
               ("fr-fr".data, [("a".data, "c'est".data)])]) ∧
    alookup "de-de".data
        [("de-de".data, [("hello".data, "Ha$llo".data)]),
         ("fr-fr".data, [("a".data, "c'est".data)])]
      = some [("hello".data, "Ha$llo".data)] :=
  ⟨(c1_round_trip
      [("de/saturn.json", [("hello".data, "Ha$llo".data)]),
       ("fr/saturn.json", [("a".data, "c'est".data)])]
      [("de-de".data, [("hello".data, "Ha$llo".data)]),
       ("fr-fr".data, [("a".data, "c'est".data)])]
      (by decide) (by decide)).1,
   (c1_round_trip
      [("de/saturn.json", [("hello".data, "Ha$llo".data)]),
       ("fr/saturn.json", [("a".data, "c'est".data)])]
      [("de-de".data, [("hello".data, "Ha$llo".data)]),
       ("fr-fr".data, [("a".data, "c'est".data)])]
      (by decide) (by decide)).2
     "de/saturn.json" [("hello".data, "Ha$llo".data)] "de-de".data
     (by decide) (by decide) (by decide)⟩

theorem plainKeyC_cases (c : Char) (h : plainKeyC c = true) :
    (48 ≤ c.toNat ∧ c.toNat ≤ 57) ∨ (65 ≤ c.toNat ∧ c.toNat ≤ 90) ∨
    (97 ≤ c.toNat ∧ c.toNat ≤ 122) ∨ c = ' ' ∨ c = '-' ∨ c = '_' := by
  simp [plainKeyC] at h
  rcases h with ((((h | h) | h) | h) | h) | h
  · left; exact h
  · right; left; exact h
  · right; right; left; exact h
  · right; right; right; left; exact h
  · right; right; right; right; left; exact h
  · right; right; right; right; right; exact h

theorem plainKeyC_toNat (c : Char) (h : plainKeyC c = true) :
    (48 ≤ c.toNat ∧ c.toNat ≤ 57) ∨ (65 ≤ c.toNat ∧ c.toNat ≤ 90) ∨
    (97 ≤ c.toNat ∧ c.toNat ≤ 122) ∨ c.toNat = 32 ∨ c.toNat = 45 ∨ c.toNat = 95 := by
  rcases plainKeyC_cases c h with h | h | h | h | h | h
  · left; exact h
  · right; left; exact h
  · right; right; left; exact h
  · subst h; right; right; right; left; rfl
  · subst h; right; right; right; right; left; rfl
  · subst h; right; right; right; right; right; rfl

theorem plainLocC_toNat (c : Char) (h : plainLocC c = true) :
    (48 ≤ c.toNat ∧ c.toNat ≤ 57) ∨ (65 ≤ c.toNat ∧ c.toNat ≤ 90) ∨
    (97 ≤ c.toNat ∧ c.toNat ≤ 122) ∨ c.toNat = 45 := by
  simp [plainLocC] at h
  rcases h with ((h | h) | h) | h
  · left; exact h
  · right; left; exact h
  · right; right; left; exact h
  · subst h; right; right; right; rfl

theorem char_ne_of_toNat_ne (c d : Char) (h : c.toNat ≠ d.toNat) : c ≠ d :=
  fun he => h (he ▸ rfl)

theorem plainKeyC_ne (c : Char) (h : plainKeyC c = true) :
    c ≠ '"' ∧ c ≠ '\\' ∧ c ≠ '$' ∧ c ≠ '\'' ∧ c ≠ ':' ∧ 32 ≤ c.toNat := by
  have hn := plainKeyC_toNat c h
  refine ⟨char_ne_of_toNat_ne c '"' ?_, char_ne_of_toNat_ne c '\\' ?_,
    char_ne_of_toNat_ne c '$' ?_, char_ne_of_toNat_ne c '\'' ?_,
    char_ne_of_toNat_ne c ':' ?_, ?_⟩
  · rw [show ('"' : Char).toNat = 34 from by decide]
    omega
  · rw [show ('\\' : Char).toNat = 92 from by decide]
    omega
  · rw [show ('$' : Char).toNat = 36 from by decide]
    omega
  · rw [show ('\'' : Char).toNat = 39 from by decide]
    omega
  · rw [show (':' : Char).toNat = 58 from by decide]
    omega
  · omega

theorem plainLocC_ne (c : Char) (h : plainLocC c = true) :
    c ≠ '"' ∧ c ≠ '\\' ∧ c ≠ '$' ∧ c ≠ '\'' ∧ c ≠ ':' ∧ 32 ≤ c.toNat := by
  have hn := plainLocC_toNat c h
  have : plainKeyC c = true := by
    simp [plainKeyC]
    simp [plainLocC] at h
    rcases h with ((h | h) | h) | h
    · left; left; left; left; left; exact h
    · left; left; left; left; right; exact h
    · left; left; left; right; exact h
    · left; right; exact h
  exact plainKeyC_ne c this

/-- A plain character serializes to itself: it needs neither JSON escaping
nor dollar escaping. -/
theorem escChar_plain (c : Char) (h1 : c ≠ '"') (h2 : c ≠ '\\') (h3 : 32 ≤ c.toNat) :
    escChar c = [c] := by
  have hne : ∀ n : Nat, n < 32 → c.toNat ≠ n → True := fun _ _ _ => trivial
  unfold escChar
  rw [if_neg h1, if_neg h2]
  rw [if_neg (char_ne_of_toNat_ne c (Char.ofNat 10) (by
    rw [show (Char.ofNat 10).toNat = 10 from rfl]; omega))]
  rw [if_neg (char_ne_of_toNat_ne c (Char.ofNat 13) (by
    rw [show (Char.ofNat 13).toNat = 13 from rfl]; omega))]
  rw [if_neg (char_ne_of_toNat_ne c (Char.ofNat 9) (by
    rw [show (Char.ofNat 9).toNat = 9 from rfl]; omega))]
  rw [if_neg (char_ne_of_toNat_ne c (Char.ofNat 8) (by
    rw [show (Char.ofNat 8).toNat = 8 from rfl]; omega))]
  rw [if_neg (char_ne_of_toNat_ne c (Char.ofNat 12) (by
    rw [show (Char.ofNat 12).toNat = 12 from rfl]; omega))]
  rw [if_neg (by omega)]

theorem escapeJson_plain (s : LStr) (h : ∀ c ∈ s, c ≠ '"' ∧ c ≠ '\\' ∧ 32 ≤ c.toNat) :
    escapeJson s = s := by
  induction s with
  | nil => rfl
  | cons c t ih =>
    obtain ⟨h1, h2, h3⟩ := h c (List.mem_cons_self c t)
    simp only [escapeJson, escChar_plain c h1 h2 h3, List.singleton_append]
    rw [ih (fun d hd => h d (List.mem_cons_of_mem c hd))]

theorem repD_plain (s : LStr) (h : ∀ c ∈ s, c ≠ '$') : repD s = s := by
  induction s with
  | nil => rfl
  | cons c t ih =>
    simp only [repD, if_neg (h c (List.mem_cons_self c t)), List.singleton_append]
    rw [ih (fun d hd => h d (List.mem_cons_of_mem c hd))]

/-! ## Fuel framework for the `re.sub` scan -/

theorem skipWs_length (s : LStr) : (skipWs s).length ≤ s.length := by
  induction s with
  | nil => simp [skipWs]
  | cons c t ih =>
    simp only [skipWs]
    by_cases h : isWsC c = true
    · rw [if_pos h]
      exact le_trans ih (by simp)
    · rw [if_neg h]

theorem matchStrBody_length : ∀ (s : LStr), ∀ b r, matchStrBody s = some (b, r) →
    r.length < s.length := by
  intro s
  induction s using matchStrBody.induct with
  | case1 =>
    intro b r h
    rw [matchStrBody.eq_def] at h
    cases h
  | case2 t =>
    intro b r h
    rw [matchStrBody.eq_def] at h
    simp at h
    simp [h.2]
  | case3 hne =>
    intro b r h
    rw [matchStrBody.eq_def] at h
    simp at h
  | case4 r2 hne =>
    intro b r h
    rw [matchStrBody.eq_def] at h
    simp at h
  | case5 e r2 hen hne ih =>
    intro b r h
    rw [matchStrBody.eq_def] at h
    simp only [if_neg (show ¬ ('\\' : Char) = '"' from by decide), if_pos rfl] at h
    rw [if_neg hen] at h
    cases hm : matchStrBody r2 with
    | none => rw [hm] at h; cases h
    | some p =>
      rw [hm] at h
      obtain ⟨b2, r2'⟩ := p
      simp at h
      obtain ⟨hb, hr⟩ := h
      subst hr
      have := ih b2 r2' hm
      simp only [List.length_cons]
      omega
  | case6 c t h1 h2 ih =>
    intro b r h
    rw [matchStrBody.eq_def] at h
    simp only [if_neg h1, if_neg h2] at h
    cases hm : matchStrBody t with
    | none => rw [hm] at h; cases h
    | some p =>
      rw [hm] at h
      obtain ⟨b2, r2'⟩ := p
      simp at h
      obtain ⟨hb, hr⟩ := h
      subst hr
      have := ih b2 r2' hm
      simp only [List.length_cons]
      omega

theorem trySub1At_length (s rep r : LStr) (h : trySub1At s = some (rep, r)) :
    r.length < s.length := by
  unfold trySub1At at h
  split at h
  next => exact Option.noConfusion h
  next c r0 =>
    by_cases hc : c = '"'
    case neg => rw [if_neg hc] at h; exact Option.noConfusion h
    case pos =>
      rw [if_pos hc] at h
      split at h
      next => exact Option.noConfusion h
      next k r1 hm1 =>
        split at h
        next => exact Option.noConfusion h
        next c1 r2 =>
          by_cases hc1 : c1 = ':'
          case neg => rw [if_neg hc1] at h; exact Option.noConfusion h
          case pos =>
            rw [if_pos hc1] at h
            split at h
            next => exact Option.noConfusion h
            next c2 r3 hsw =>
              by_cases hc2 : c2 = '"'
              case neg => rw [if_neg hc2] at h; exact Option.noConfusion h
              case pos =>
                rw [if_pos hc2] at h
                split at h
                next => exact Option.noConfusion h
                next v r4 hm2 =>
                  injection h with h'
                  injection h' with hb hr
                  subst hr
                  have l1 := matchStrBody_length r0 k (c1 :: r2) hm1
                  have l2 := matchStrBody_length r3 v r4 hm2
                  have l3 : r3.length < r2.length + 1 := by
                    have h4 := skipWs_length r2
                    rw [hsw] at h4
                    simp at h4
                    omega
                  simp only [List.length_cons] at l1 ⊢
                  omega

theorem dropWhile_length_le (p : Char → Bool) (l : List Char) :
    (l.dropWhile p).length ≤ l.length := by
  induction l with
  | nil => simp [List.dropWhile]
  | cons c t ih =>
    cases h : p c with
    | true => simp [List.dropWhile, h]; omega
    | false => simp [List.dropWhile, h]

theorem trySub2At_length (s rep r : LStr) (h : trySub2At s = some (rep, r)) :
    r.length < s.length := by
  unfold trySub2At at h
  split at h
  next => exact Option.noConfusion h
  next c r0 =>
    by_cases hc : c = '"'
    case neg => rw [if_neg hc] at h; exact Option.noConfusion h
    case pos =>
      rw [if_pos hc] at h
      split at h
      next => exact Option.noConfusion h
      next c1 r1 hdw =>
        by_cases hcm : c1 = '"' ∧ midUnderscore (r0.takeWhile isWordC) = true
        case neg => rw [if_neg hcm] at h; exact Option.noConfusion h
        case pos =>
          rw [if_pos hcm] at h
          split at h
          next => exact Option.noConfusion h
          next c2 r2 =>
            by_cases hc2 : c2 = ':'
            case neg => rw [if_neg hc2] at h; exact Option.noConfusion h
            case pos =>
              rw [if_pos hc2] at h
              split at h
              next => exact Option.noConfusion h
              next c3 r3 hsw =>
                by_cases hc3 : c3 = '{'
                case neg => rw [if_neg hc3] at h; exact Option.noConfusion h
                case pos =>
                  rw [if_pos hc3] at h
                  injection h with h'
                  injection h' with hb hr
                  subst hr
                  have h4 := dropWhile_length_le isWordC r0
                  rw [hdw] at h4
                  simp only [List.length_cons] at h4
                  have h5 := skipWs_length r2
                  rw [hsw] at h5
                  simp only [List.length_cons] at h5
                  simp only [List.length_cons]
                  omega

theorem reSubF_mono (tryAt : LStr → Option (LStr × LStr))
    (hcons : ∀ s rep r, tryAt s = some (rep, r) → r.length < s.length) :
    ∀ (fuel1 : Nat) (s : LStr) (fuel2 : Nat), s.length ≤ fuel1 → s.length ≤ fuel2 →
    reSubF tryAt fuel1 s = reSubF tryAt fuel2 s := by
  intro fuel1
  induction fuel1 with
  | zero =>
    intro s fuel2 h1 _
    have : s = [] := List.length_eq_zero.mp (Nat.le_zero.mp h1)
    subst this
    cases fuel2 <;> rfl
  | succ f ih =>
    intro s fuel2 h1 h2
    cases s with
    | nil => cases fuel2 <;> rfl
    | cons c rest =>
      cases fuel2 with
      | zero => simp at h2
      | succ g =>
        simp only [List.length_cons] at h1 h2
        simp only [reSubF]
        cases ht : tryAt (c :: rest) with
        | none =>
          dsimp only
          rw [ih rest g (by omega) (by omega)]
        | some p =>
          obtain ⟨rep, restAfter⟩ := p
          have hlen := hcons _ _ _ ht
          simp only [List.length_cons] at hlen
          dsimp only
          rw [ih restAfter g (by omega) (by omega)]

theorem convert_eq_RS (s : LStr) :
    convert_to_single_quotes s = RS trySub2At (RS trySub1At s) := rfl

theorem RS_nil (tryAt : LStr → Option (LStr × LStr)) : RS tryAt [] = [] := rfl

theorem RS_cons_nomatch (tryAt : LStr → Option (LStr × LStr))
    (_hcons : ∀ s rep r, tryAt s = some (rep, r) → r.length < s.length)
    (c : Char) (z : LStr) (h : tryAt (c :: z) = none) :
    RS tryAt (c :: z) = c :: RS tryAt z := by
  unfold RS
  simp only [List.length_cons, reSubF, h]

theorem RS_cons_match (tryAt : LStr → Option (LStr × LStr))
    (hcons : ∀ s rep r, tryAt s = some (rep, r) → r.length < s.length)
    (c : Char) (z rep r : LStr) (h : tryAt (c :: z) = some (rep, r)) :
    RS tryAt (c :: z) = rep ++ RS tryAt r := by
  unfold RS
  simp only [List.length_cons, reSubF, h]
  have := hcons _ _ _ h
  simp only [List.length_cons] at this
  rw [reSubF_mono tryAt hcons z.length r r.length (by omega) (le_refl _)]

theorem RS_copy (tryAt : LStr → Option (LStr × LStr))
    (hcons : ∀ s rep r, tryAt s = some (rep, r) → r.length < s.length)
    (hq : ∀ (c : Char) (z : LStr), c ≠ '"' → tryAt (c :: z) = none) :
    ∀ (x y : LStr), (∀ c ∈ x, c ≠ '"') → RS tryAt (x ++ y) = x ++ RS tryAt y := by
  intro x
  induction x with
  | nil => intro y _; rfl
  | cons c t ih =>
    intro y hx
    rw [List.cons_append,
      RS_cons_nomatch tryAt hcons c (t ++ y) (hq c _ (hx c (List.mem_cons_self c t)))]
    rw [ih y (fun d hd => hx d (List.mem_cons_of_mem c hd))]
    rfl

theorem trySub1At_nonquote (c : Char) (z : LStr) (h : c ≠ '"') :
    trySub1At (c :: z) = none := by
  unfold trySub1At
  split
  next heq => exact absurd heq (by simp)
  next c' r' heq =>
    injection heq with h1 h2
    subst h1
    rw [if_neg h]

theorem trySub2At_nonquote (c : Char) (z : LStr) (h : c ≠ '"') :
    trySub2At (c :: z) = none := by
  unfold trySub2At
  split
  next heq => exact absurd heq (by simp)
  next c' r' heq =>
    injection heq with h1 h2
    subst h1
    rw [if_neg h]

/-! ## Serialized-body lemmas -/

theorem bodyOf_cons (c : Char) (v : LStr) :
    bodyOf (c :: v) = repD (escChar c) ++ bodyOf v := by
  unfold bodyOf
  rw [show escapeJson (c :: v) = escChar c ++ escapeJson v from rfl, repD_append]

theorem hexDig_ne (m : Nat) (h : m < 16) :
    hexDig m ≠ '"' ∧ hexDig m ≠ '\\' ∧ hexDig m ≠ '$' ∧ hexDig m ≠ '\'' := by
  interval_cases m <;> refine ⟨by decide, by decide, by decide, by decide⟩

theorem matchStrBody_close (t : LStr) : matchStrBody ('"' :: t) = some ([], t) := by
  unfold matchStrBody
  rw [if_pos rfl]

theorem matchStrBody_plain_step (c : Char) (h1 : c ≠ '"') (h2 : c ≠ '\\') (t : LStr) :
    matchStrBody (c :: t) = (matchStrBody t).map (fun p => (c :: p.1, p.2)) := by
  conv_lhs => rw [matchStrBody.eq_def]
  split
  next heq => exact absurd heq (by simp)
  next c' rest' heq =>
    injection heq with hc hr
    subst hc
    subst hr
    rw [if_neg h1, if_neg h2]

theorem matchStrBody_esc_step (e : Char) (he : e ≠ '\n') (t : LStr) :
    matchStrBody ('\\' :: e :: t)
      = (matchStrBody t).map (fun p => ('\\' :: e :: p.1, p.2)) := by
  conv_lhs => rw [matchStrBody.eq_def]
  split
  next heq => exact absurd heq (by simp)
  next c' rest' heq =>
    injection heq with hc hr
    subst hc
    subst hr
    rw [if_neg (show ('\\' : Char) ≠ '"' from by decide), if_pos rfl]
    dsimp only
    rw [if_neg he]

/-- The regex content group `(?:[^"\\]|\\.)*` consumes a serialized body
exactly, stopping at the closing quote. -/
theorem matchStrBody_bodyOf (v : LStr) : ∀ (rest : LStr),
    matchStrBody (bodyOf v ++ '"' :: rest) = some (bodyOf v, rest) := by
  induction v with
  | nil =>
    intro rest
    exact matchStrBody_close rest
  | cons c v' ih =>
    intro rest
    rw [bodyOf_cons, List.append_assoc]
    by_cases h1 : c = '"'
    · subst h1
      rw [show repD (escChar '"') = ['\\', '"'] from by decide]
      rw [show (['\\', '"'] : LStr) ++ (bodyOf v' ++ '"' :: rest)
          = '\\' :: '"' :: (bodyOf v' ++ '"' :: rest) from rfl]
      rw [matchStrBody_esc_step '"' (by decide), ih rest]
      rfl
    · by_cases h2 : c = '\\'
      · subst h2
        rw [show repD (escChar '\\') = ['\\', '\\'] from by decide]
        rw [show (['\\', '\\'] : LStr) ++ (bodyOf v' ++ '"' :: rest)
            = '\\' :: '\\' :: (bodyOf v' ++ '"' :: rest) from rfl]
        rw [matchStrBody_esc_step '\\' (by decide), ih rest]
        rfl
      · by_cases h3 : c = Char.ofNat 10
        · subst h3
          rw [show repD (escChar (Char.ofNat 10)) = ['\\', 'n'] from by decide]
          rw [show (['\\', 'n'] : LStr) ++ (bodyOf v' ++ '"' :: rest)
              = '\\' :: 'n' :: (bodyOf v' ++ '"' :: rest) from rfl]
          rw [matchStrBody_esc_step 'n' (by decide), ih rest]
          rfl
        · by_cases h4 : c = Char.ofNat 13
          · subst h4
            rw [show repD (escChar (Char.ofNat 13)) = ['\\', 'r'] from by decide]
            rw [show (['\\', 'r'] : LStr) ++ (bodyOf v' ++ '"' :: rest)
                = '\\' :: 'r' :: (bodyOf v' ++ '"' :: rest) from rfl]
            rw [matchStrBody_esc_step 'r' (by decide), ih rest]
            rfl
          · by_cases h5 : c = Char.ofNat 9
            · subst h5
              rw [show repD (escChar (Char.ofNat 9)) = ['\\', 't'] from by decide]
              rw [show (['\\', 't'] : LStr) ++ (bodyOf v' ++ '"' :: rest)
                  = '\\' :: 't' :: (bodyOf v' ++ '"' :: rest) from rfl]
              rw [matchStrBody_esc_step 't' (by decide), ih rest]
              rfl
            · by_cases h6 : c = Char.ofNat 8
              · subst h6
                rw [show repD (escChar (Char.ofNat 8)) = ['\\', 'b'] from by decide]
                rw [show (['\\', 'b'] : LStr) ++ (bodyOf v' ++ '"' :: rest)
                    = '\\' :: 'b' :: (bodyOf v' ++ '"' :: rest) from rfl]
                rw [matchStrBody_esc_step 'b' (by decide), ih rest]
                rfl
              · by_cases h7 : c = Char.ofNat 12
                · subst h7
                  rw [show repD (escChar (Char.ofNat 12)) = ['\\', 'f'] from by decide]
                  rw [show (['\\', 'f'] : LStr) ++ (bodyOf v' ++ '"' :: rest)
                      = '\\' :: 'f' :: (bodyOf v' ++ '"' :: rest) from rfl]
                  rw [matchStrBody_esc_step 'f' (by decide), ih rest]
                  rfl
                · by_cases h8 : c.toNat < 32
                  · have hdiv : c.toNat / 16 < 16 := by omega
                    have hmod : c.toNat % 16 < 16 := Nat.mod_lt _ (by norm_num)
                    have hd1 := hexDig_ne _ hdiv
                    have hd2 := hexDig_ne _ hmod
                    rw [show escChar c
                        = ['\\', 'u', '0', '0', hexDig (c.toNat / 16), hexDig (c.toNat % 16)]
                      from by
                        simp only [escChar, if_neg h1, if_neg h2, if_neg h3, if_neg h4,
                          if_neg h5, if_neg h6, if_neg h7, if_pos h8]]
                    rw [repD_plain ['\\', 'u', '0', '0', hexDig (c.toNat / 16),
                        hexDig (c.toNat % 16)] (by
                      intro d hd
                      simp only [List.mem_cons, List.not_mem_nil, or_false] at hd
                      rcases hd with rfl | rfl | rfl | rfl | rfl | rfl
                      · decide
                      · decide
                      · decide
                      · decide
                      · exact hd1.2.2.1
                      · exact hd2.2.2.1)]
                    rw [show (['\\', 'u', '0', '0', hexDig (c.toNat / 16),
                          hexDig (c.toNat % 16)] : LStr) ++ (bodyOf v' ++ '"' :: rest)
                        = '\\' :: 'u' :: '0' :: '0' :: hexDig (c.toNat / 16)
                          :: hexDig (c.toNat % 16) :: (bodyOf v' ++ '"' :: rest) from rfl]
                    rw [matchStrBody_esc_step 'u' (by decide)]
                    rw [matchStrBody_plain_step '0' (by decide) (by decide)]
                    rw [matchStrBody_plain_step '0' (by decide) (by decide)]
                    rw [matchStrBody_plain_step _ hd1.1 hd1.2.1]
                    rw [matchStrBody_plain_step _ hd2.1 hd2.2.1]
                    rw [ih rest]
                    rfl
                  · by_cases h9 : c = '$'
                    · subst h9
                      rw [show repD (escChar '$') = ['\\', '$'] from by decide]
                      rw [show (['\\', '$'] : LStr) ++ (bodyOf v' ++ '"' :: rest)
                          = '\\' :: '$' :: (bodyOf v' ++ '"' :: rest) from rfl]
                      rw [matchStrBody_esc_step '$' (by decide), ih rest]
                      rfl
                    · rw [escChar_plain c h1 h2 (by omega)]
                      rw [repD_plain [c] (by
                        intro d hd
                        simp only [List.mem_cons, List.not_mem_nil, or_false] at hd
                        subst hd
                        exact h9)]
                      rw [List.singleton_append]
                      rw [matchStrBody_plain_step c h1 h2, ih rest]
                      rfl

theorem dropWhile_cons_neg (p : Char → Bool) (c : Char) (t : LStr) (h : p c = false) :
    (c :: t).dropWhile p = c :: t := by
  simp [List.dropWhile, h]

theorem dropWhile_cons_pos (p : Char → Bool) (c : Char) (t : LStr) (h : p c = true) :
    (c :: t).dropWhile p = t.dropWhile p := by
  simp [List.dropWhile, h]

theorem apos_mem_seg (c : Char) : '\'' ∈ repD (escChar c) ↔ c = '\'' := by
  by_cases h1 : c = '"'
  · subst h1; simp [show repD (escChar '"') = ['\\', '"'] from by decide]
  · by_cases h2 : c = '\\'
    · subst h2; simp [show repD (escChar '\\') = ['\\', '\\'] from by decide]
    · by_cases h3 : c = Char.ofNat 10
      · subst h3
        simp [show repD (escChar (Char.ofNat 10)) = ['\\', 'n'] from by decide]
      · by_cases h4 : c = Char.ofNat 13
        · subst h4
          simp [show repD (escChar (Char.ofNat 13)) = ['\\', 'r'] from by decide]
        · by_cases h5 : c = Char.ofNat 9
          · subst h5
            simp [show repD (escChar (Char.ofNat 9)) = ['\\', 't'] from by decide]
          · by_cases h6 : c = Char.ofNat 8
            · subst h6
              simp [show repD (escChar (Char.ofNat 8)) = ['\\', 'b'] from by decide]
            · by_cases h7 : c = Char.ofNat 12
              · subst h7
                simp [show repD (escChar (Char.ofNat 12)) = ['\\', 'f'] from by decide]
              · by_cases h8 : c.toNat < 32
                · have hdiv : c.toNat / 16 < 16 := by omega
                  have hmod : c.toNat % 16 < 16 := Nat.mod_lt _ (by norm_num)
                  have hd1 := hexDig_ne _ hdiv
                  have hd2 := hexDig_ne _ hmod
                  have hcne : c ≠ '\'' := char_ne_of_toNat_ne c '\'' (by
                    rw [show ('\'' : Char).toNat = 39 from by decide]
                    omega)
                  rw [show escChar c
                      = ['\\', 'u', '0', '0', hexDig (c.toNat / 16), hexDig (c.toNat % 16)]
                    from by
                      simp only [escChar, if_neg h1, if_neg h2, if_neg h3, if_neg h4,
                        if_neg h5, if_neg h6, if_neg h7, if_pos h8]]
                  rw [repD_plain _ (by
                    intro d hd
                    simp only [List.mem_cons, List.not_mem_nil, or_false] at hd
                    rcases hd with rfl | rfl | rfl | rfl | rfl | rfl
                    · decide
                    · decide
                    · decide
                    · decide
                    · exact hd1.2.2.1
                    · exact hd2.2.2.1)]
                  simp only [List.mem_cons, List.not_mem_nil, or_false]
                  constructor
                  · rintro (h | h | h | h | h | h)
                    · exact absurd h.symm (by decide)
                    · exact absurd h.symm (by decide)
                    · exact absurd h.symm (by decide)
                    · exact absurd h.symm (by decide)
                    · exact absurd h.symm hd1.2.2.2
                    · exact absurd h.symm hd2.2.2.2
                  · intro h; exact absurd h hcne
                · by_cases h9 : c = '$'
                  · subst h9; simp [show repD (escChar '$') = ['\\', '$'] from by decide]
                  · rw [escChar_plain c h1 h2 (by omega)]
                    rw [repD_plain [c] (by
                      intro d hd
                      simp only [List.mem_cons, List.not_mem_nil, or_false] at hd
                      subst hd
                      exact h9)]
                    constructor
                    · intro h
                      simp at h
                      exact h.symm
                    · intro h
                      simp [h]

theorem apos_mem_bodyOf (v : LStr) : '\'' ∈ bodyOf v ↔ '\'' ∈ v := by
  induction v with
  | nil => simp [bodyOf, escapeJson, repD]
  | cons c v' ih =>
    rw [bodyOf_cons]
    simp only [List.mem_append, List.mem_cons]
    rw [apos_mem_seg, ih]
    constructor
    · rintro (h | h)
      · exact Or.inl h.symm
      · exact Or.inr h
    · rintro (h | h)
      · exact Or.inl h.symm
      · exact Or.inr h

/-- The first non-word character reachable inside a serialized body is never
a bare quote (every `"` inside a body is preceded by a backslash). -/
theorem fnw_bodyOf (v : LStr) : ∀ (r : LStr),
    (∀ c ∈ bodyOf v, isWordC c = true) ∨
    ∃ c t, (bodyOf v ++ r).dropWhile isWordC = c :: t ∧ c ≠ '"' := by
  induction v with
  | nil =>
    intro r
    left
    simp [bodyOf, escapeJson, repD]
  | cons c v' ih =>
    intro r
    rw [bodyOf_cons, List.append_assoc]
    by_cases hbs : ∃ x, repD (escChar c) = '\\' :: x
    · obtain ⟨x, hx⟩ := hbs
      right
      rw [hx, List.cons_append]
      refine ⟨'\\', x ++ (bodyOf v' ++ r), ?_, by decide⟩
      exact dropWhile_cons_neg _ _ _ (by decide)
    · have hplain : repD (escChar c) = [c] ∧ c ≠ '"' ∧ c ≠ '\\' := by
        by_cases h1 : c = '"'
        · exact absurd ⟨['"'], by subst h1; decide⟩ hbs
        · by_cases h2 : c = '\\'
          · exact absurd ⟨['\\'], by subst h2; decide⟩ hbs
          · by_cases h3 : c = Char.ofNat 10
            · exact absurd ⟨['n'], by subst h3; decide⟩ hbs
            · by_cases h4 : c = Char.ofNat 13
              · exact absurd ⟨['r'], by subst h4; decide⟩ hbs
              · by_cases h5 : c = Char.ofNat 9
                · exact absurd ⟨['t'], by subst h5; decide⟩ hbs
                · by_cases h6 : c = Char.ofNat 8
                  · exact absurd ⟨['b'], by subst h6; decide⟩ hbs
                  · by_cases h7 : c = Char.ofNat 12
                    · exact absurd ⟨['f'], by subst h7; decide⟩ hbs
                    · by_cases h8 : c.toNat < 32
                      · exfalso
                        apply hbs
                        refine ⟨['u', '0', '0', hexDig (c.toNat / 16),
                          hexDig (c.toNat % 16)], ?_⟩
                        rw [show escChar c = ['\\', 'u', '0', '0', hexDig (c.toNat / 16),
                            hexDig (c.toNat % 16)] from by
                          simp only [escChar, if_neg h1, if_neg h2, if_neg h3, if_neg h4,
                            if_neg h5, if_neg h6, if_neg h7, if_pos h8]]
                        apply repD_plain
                        intro d hd
                        have hdiv : c.toNat / 16 < 16 := by omega
                        have hmod : c.toNat % 16 < 16 := Nat.mod_lt _ (by norm_num)
                        simp only [List.mem_cons, List.not_mem_nil, or_false] at hd
                        rcases hd with rfl | rfl | rfl | rfl | rfl | rfl
                        · decide
                        · decide
                        · decide
                        · decide
                        · exact (hexDig_ne _ hdiv).2.2.1
                        · exact (hexDig_ne _ hmod).2.2.1
                      · by_cases h9 : c = '$'
                        · exact absurd ⟨['$'], by subst h9; decide⟩ hbs
                        · refine ⟨?_, h1, h2⟩
                          rw [escChar_plain c h1 h2 (by omega)]
                          apply repD_plain
                          intro d hd
                          simp only [List.mem_cons, List.not_mem_nil, or_false] at hd
                          subst hd
                          exact h9
      obtain ⟨hseg, hq, _⟩ := hplain
      rw [hseg]
      simp only [List.singleton_append]
      by_cases hw : isWordC c = true
      · rcases ih r with hall | ⟨c', t, heq, hne⟩
        · left
          intro d hd
          rcases List.mem_cons.mp hd with h | h
          · subst h; exact hw
          · exact hall d h
        · right
          refine ⟨c', t, ?_, hne⟩
          rw [dropWhile_cons_pos _ _ _ hw]
          exact heq
      · right
        exact ⟨c, bodyOf v' ++ r, dropWhile_cons_neg _ _ _ (by simpa using hw), hq⟩

theorem takeWhile_append_all (p : Char → Bool) (a b : List Char)
    (h : ∀ c ∈ a, p c = true) : (a ++ b).takeWhile p = a ++ b.takeWhile p := by
  induction a with
  | nil => rfl
  | cons c t ih =>
    rw [List.cons_append, List.takeWhile_cons_of_pos (h c (List.mem_cons_self c t)),
      ih (fun d hd => h d (List.mem_cons_of_mem c hd)), List.cons_append]

theorem dropWhile_append_all (p : Char → Bool) (a b : List Char)
    (h : ∀ c ∈ a, p c = true) : (a ++ b).dropWhile p = b.dropWhile p := by
  induction a with
  | nil => rfl
  | cons c t ih =>
    rw [List.cons_append, List.dropWhile_cons_of_pos (h c (List.mem_cons_self c t))]
    exact ih (fun d hd => h d (List.mem_cons_of_mem c hd))

theorem exists_split_of_not_all (p : Char → Bool) (l : List Char)
    (h : ¬ ∀ c ∈ l, p c = true) :
    ∃ a c t, l = a ++ c :: t ∧ (∀ d ∈ a, p d = true) ∧ p c = false := by
  induction l with
  | nil => exact absurd (by simp) h
  | cons c t ih =>
    by_cases hc : p c = true
    · have : ¬ ∀ d ∈ t, p d = true := fun hall => h (by
        intro d hd
        rcases List.mem_cons.mp hd with rfl | hd
        · exact hc
        · exact hall d hd)
      obtain ⟨a, c1, t1, heq, ha, hc1⟩ := ih this
      exact ⟨c :: a, c1, t1, by rw [heq, List.cons_append], by
        intro d hd
        rcases List.mem_cons.mp hd with rfl | hd
        · exact hc
        · exact ha d hd, hc1⟩
    · exact ⟨[], c, t, rfl, by simp, by simpa using hc⟩

theorem contains_false_of_not_mem (l : LStr) (c : Char) (h : c ∉ l) :
    l.contains c = false := by
  simpa using h

theorem mem_of_contains_true (l : LStr) (c : Char) (h : l.contains c = true) :
    c ∈ l := by
  simpa using h

theorem midUS_false_of_no_us (l : LStr) (h : '_' ∉ l) : midUS l = false := by
  induction l with
  | nil => rfl
  | cons c t ih =>
    cases t with
    | nil => rfl
    | cons d t2 =>
      rw [midUS, if_neg (by
        intro hc
        exact h (hc ▸ List.mem_cons_self c _))]
      exact ih (fun hm => h (List.mem_cons_of_mem c hm))

theorem midUnderscore_false_of_no_us (l : LStr) (h : '_' ∉ l) :
    midUnderscore l = false := by
  cases l with
  | nil => rfl
  | cons c t =>
    rw [midUnderscore]
    exact midUS_false_of_no_us t (fun hm => h (List.mem_cons_of_mem c hm))

/-- Classification of the dollar-escaped single-character segments of a
serialized body: a plain character, a two-character escape, or a six-character
`\u00XX` escape whose hex digits are not quotes. -/
theorem seg_cases (c : Char) :
    (repD (escChar c) = [c] ∧ c ≠ '"' ∧ c ≠ '\\' ∧ c ≠ '$') ∨
    (∃ e, repD (escChar c) = ['\\', e]) ∨
    (∃ d1 d2, repD (escChar c) = ['\\', 'u', '0', '0', d1, d2] ∧ d1 ≠ '"' ∧ d2 ≠ '"') := by
  by_cases h1 : c = '"'
  · exact Or.inr (Or.inl ⟨'"', by subst h1; decide⟩)
  · by_cases h2 : c = '\\'
    · exact Or.inr (Or.inl ⟨'\\', by subst h2; decide⟩)
    · by_cases h3 : c = Char.ofNat 10
      · exact Or.inr (Or.inl ⟨'n', by subst h3; decide⟩)
      · by_cases h4 : c = Char.ofNat 13
        · exact Or.inr (Or.inl ⟨'r', by subst h4; decide⟩)
        · by_cases h5 : c = Char.ofNat 9
          · exact Or.inr (Or.inl ⟨'t', by subst h5; decide⟩)
          · by_cases h6 : c = Char.ofNat 8
            · exact Or.inr (Or.inl ⟨'b', by subst h6; decide⟩)
            · by_cases h7 : c = Char.ofNat 12
              · exact Or.inr (Or.inl ⟨'f', by subst h7; decide⟩)
              · by_cases h8 : c.toNat < 32
                · refine Or.inr (Or.inr ⟨hexDig (c.toNat / 16), hexDig (c.toNat % 16), ?_,
                    (hexDig_ne _ (by omega)).1, (hexDig_ne _ (Nat.mod_lt _ (by norm_num))).1⟩)
                  rw [show escChar c = ['\\', 'u', '0', '0', hexDig (c.toNat / 16),
                      hexDig (c.toNat % 16)] from by
                    simp only [escChar, if_neg h1, if_neg h2, if_neg h3, if_neg h4,
                      if_neg h5, if_neg h6, if_neg h7, if_pos h8]]
                  apply repD_plain
                  intro d hd
                  simp only [List.mem_cons, List.not_mem_nil, or_false] at hd
                  rcases hd with rfl | rfl | rfl | rfl | rfl | rfl
                  · decide
                  · decide
                  · decide
                  · decide
                  · exact (hexDig_ne _ (by omega)).2.2.1
                  · exact (hexDig_ne _ (Nat.mod_lt _ (by norm_num))).2.2.1
                · by_cases h9 : c = '$'
                  · exact Or.inr (Or.inl ⟨'$', by subst h9; decide⟩)
                  · refine Or.inl ⟨?_, h1, h2, h9⟩
                    rw [escChar_plain c h1 h2 (by omega)]
                    apply repD_plain
                    intro d hd
                    simp only [List.mem_cons, List.not_mem_nil, or_false] at hd
                    subst hd
                    exact h9

/-- Every quote inside a serialized body closes an escape pair: what follows
it is itself the serialized body of some string. -/
theorem bodyOf_quote_split (v : LStr) : ∀ a b, bodyOf v = a ++ '"' :: b →
    ∃ v2, b = bodyOf v2 := by
  induction v with
  | nil =>
    intro a b h
    simp [bodyOf, escapeJson, repD] at h
  | cons c v' ih =>
    intro a b h
    rw [bodyOf_cons] at h
    rcases seg_cases c with ⟨hseg, hq, _, _⟩ | ⟨e, hseg⟩ | ⟨d1, d2, hseg, hd1, hd2⟩
    · rw [hseg, List.singleton_append] at h
      cases a with
      | nil =>
        simp only [List.nil_append] at h
        injection h with h1 h2
        exact absurd h1 hq
      | cons a0 a' =>
        rw [List.cons_append] at h
        injection h with h1 h2
        exact ih a' b h2
    · rw [hseg] at h
      rcases a with _ | ⟨a0, _ | ⟨a1, a'⟩⟩
      · simp only [List.nil_append, List.cons_append] at h
        injection h with h1 _
        exact absurd h1 (by decide)
      · simp only [List.cons_append, List.nil_append] at h
        injection h with h1 h2
        injection h2 with h3 h4
        exact ⟨v', h4.symm⟩
      · simp only [List.cons_append] at h
        injection h with h1 h2
        injection h2 with h3 h4
        exact ih a' b h4
    · rw [hseg] at h
      rcases a with _ | ⟨a0, _ | ⟨a1, _ | ⟨a2, _ | ⟨a3, _ | ⟨a4, _ | ⟨a5, a'⟩⟩⟩⟩⟩⟩
      · simp only [List.nil_append, List.cons_append] at h
        injection h with h1 _
        exact absurd h1 (by decide)
      · simp only [List.cons_append, List.nil_append] at h
        injection h with _ h2
        injection h2 with h3 _
        exact absurd h3 (by decide)
      · simp only [List.cons_append, List.nil_append] at h
        injection h with _ h2
        injection h2 with _ h3
        injection h3 with h4 _
        exact absurd h4 (by decide)
      · simp only [List.cons_append, List.nil_append] at h
        injection h with _ h2
        injection h2 with _ h3
        injection h3 with _ h4
        injection h4 with h5 _
        exact absurd h5 (by decide)
      · simp only [List.cons_append, List.nil_append] at h
        injection h with _ h2
        injection h2 with _ h3
        injection h3 with _ h4
        injection h4 with _ h5
        injection h5 with h6 _
        exact absurd h6 hd1
      · simp only [List.cons_append, List.nil_append] at h
        injection h with _ h2
        injection h2 with _ h3
        injection h3 with _ h4
        injection h4 with _ h5
        injection h5 with _ h6
        injection h6 with h7 _
        exact absurd h7 hd2
      · simp only [List.cons_append] at h
        injection h with _ h2
        injection h2 with _ h3
        injection h3 with _ h4
        injection h4 with _ h5
        injection h5 with _ h6
        injection h6 with _ h7
        exact ih a' b h7

/-- The locale pattern fails at a quote directly followed by a non-word,
non-quote character. -/
theorem trySub2At_after (c0 : Char) (z0 : LStr) (hw : isWordC c0 = false)
    (hq : c0 ≠ '"') : trySub2At ('"' :: c0 :: z0) = none := by
  unfold trySub2At
  split
  next heq => exact absurd heq (by simp)
  next c' r' heq =>
    injection heq with h1 h2
    subst h1
    subst h2
    rw [if_pos rfl]
    split
    next hnil => rw [dropWhile_cons_neg _ _ _ hw] at hnil
    next c1 r1 hcons =>
      rw [dropWhile_cons_neg _ _ _ hw] at hcons
      injection hcons with hc1 hr1
      subst hc1
      rw [if_neg (fun hand => hq hand.1)]

/-- The locale pattern fails at the opening quote of any serialized body whose
continuation is safe: either a non-word, non-quote character, or the closing
quote followed by something other than a colon. -/
theorem trySub2At_open (v y : LStr)
    (hsafe : (∃ c0 z0, y = c0 :: z0 ∧ isWordC c0 = false ∧ c0 ≠ '"') ∨
             (∃ c0 z0, y = '"' :: c0 :: z0 ∧ c0 ≠ ':')) :
    trySub2At ('"' :: (bodyOf v ++ y)) = none := by
  unfold trySub2At
  split
  next heq => exact absurd heq (by simp)
  next c' r' heq =>
    injection heq with h1 h2
    subst h1
    subst h2
    rw [if_pos rfl]
    rcases fnw_bodyOf v y with hall | ⟨c, t, hstop, hne⟩
    · rw [dropWhile_append_all _ _ _ hall]
      rcases hsafe with ⟨c0, z0, hy, hw, hq⟩ | ⟨c0, z0, hy, hc⟩
      · subst hy
        split
        next hnil => rw [dropWhile_cons_neg _ _ _ hw] at hnil
        next c1 r1 hcons =>
          rw [dropWhile_cons_neg _ _ _ hw] at hcons
          injection hcons with hc1 hr1
          subst hc1
          rw [if_neg (fun hand => hq hand.1)]
      · subst hy
        split
        next hnil =>
          rw [dropWhile_cons_neg _ _ _ (by decide)] at hnil
        next c1 r1 hcons =>
          rw [dropWhile_cons_neg _ _ _ (by decide)] at hcons
          injection hcons with hc1 hr1
          subst hc1
          subst hr1
          by_cases hmu : midUnderscore ((bodyOf v ++ '"' :: c0 :: z0).takeWhile isWordC) = true
          · rw [if_pos ⟨rfl, hmu⟩]
            split
            next hnil2 => exact absurd hnil2 (by simp)
            next c2 r2 hcons2 =>
              injection hcons2 with hc2 hr2
              subst hc2
              rw [if_neg hc]
          · rw [if_neg (fun hand => hmu hand.2)]
    · split
      next hnil => rw [hstop] at hnil
      next c1 r1 hcons =>
        rw [hstop] at hcons
        injection hcons with hc1 hr1
        subst hc1
        rw [if_neg (fun hand => hne hand.1)]

/-- The locale pattern fails at the opening quote of a plain locale key: a
hyphenated locale stops the word run early, an unbroken one has no
underscore. -/
theorem trySub2At_locale (loc : LStr) (hloc : ∀ c ∈ loc, plainLocC c = true)
    (z : LStr) : trySub2At ('"' :: (loc ++ '"' :: ':' :: z)) = none := by
  unfold trySub2At
  split
  next heq => exact absurd heq (by simp)
  next c' r' heq =>
    injection heq with h1 h2
    subst h1
    subst h2
    rw [if_pos rfl]
    by_cases hall : ∀ c ∈ loc, isWordC c = true
    · rw [dropWhile_append_all _ _ _ hall]
      split
      next hnil =>
        rw [dropWhile_cons_neg _ _ _ (by decide)] at hnil
      next c1 r1 hcons =>
        rw [dropWhile_cons_neg _ _ _ (by decide)] at hcons
        injection hcons with hc1 hr1
        subst hc1
        have hmid : midUnderscore ((loc ++ '"' :: ':' :: z).takeWhile isWordC) = false := by
          rw [takeWhile_append_all _ _ _ hall,
            List.takeWhile_cons_of_neg (by decide), List.append_nil]
          exact midUnderscore_false_of_no_us loc (fun hm => by
            have := hloc '_' hm
            exact absurd this (by decide))
        rw [if_neg (fun hand => by rw [hmid] at hand; exact Bool.false_ne_true hand.2)]
    · obtain ⟨a, d, t, hsplit, ha, hd⟩ := exists_split_of_not_all isWordC loc hall
      have hdq : d ≠ '"' := (plainLocC_ne d (hloc d (by rw [hsplit]; simp))).1
      rw [hsplit, List.append_assoc, List.cons_append]
      rw [dropWhile_append_all _ _ _ ha, dropWhile_cons_neg _ _ _ hd]
      split
      next hnil => exact absurd hnil (by simp)
      next c1 r1 hcons =>
        injection hcons with hc1 hr1
        subst hc1
        rw [if_neg (fun hand => hdq hand.1)]

/-- If the pattern fails at every position inside a prefix, the scan copies
the prefix verbatim and continues on the remainder. -/
theorem RS_all_fail (tryAt : LStr → Option (LStr × LStr))
    (hcons : ∀ s rep r, tryAt s = some (rep, r) → r.length < s.length) :
    ∀ (x y : LStr), (∀ a c b, x = a ++ c :: b → tryAt (c :: (b ++ y)) = none) →
    RS tryAt (x ++ y) = x ++ RS tryAt y := by
  intro x
  induction x with
  | nil => intro y _; simp
  | cons c t ih =>
    intro y hfail
    rw [List.cons_append, RS_cons_nomatch tryAt hcons c (t ++ y) (hfail [] c t rfl)]
    rw [ih y (fun a c2 b hab => hfail (c :: a) c2 b (by rw [hab, List.cons_append]))]
    rfl

/-- Scanning over one whole quoted serialized body fails at every position:
at the opening delimiter, at every escaped quote inside, and at plain
characters. -/
theorem RS2_seg (Q : Char) (v y : LStr)
    (hsafe : (∃ c0 z0, y = c0 :: z0 ∧ isWordC c0 = false ∧ c0 ≠ '"') ∨
             (∃ c0 z0, y = '"' :: c0 :: z0 ∧ c0 ≠ ':')) :
    RS trySub2At ((Q :: bodyOf v) ++ y) = (Q :: bodyOf v) ++ RS trySub2At y := by
  apply RS_all_fail _ trySub2At_length
  intro a c b hab
  by_cases hc : c = '"'
  · subst hc
    rcases a with _ | ⟨a0, a'⟩
    · simp only [List.nil_append] at hab
      injection hab with h1 h2
      rw [← h2]
      exact trySub2At_open v y hsafe
    · rw [List.cons_append] at hab
      injection hab with h1 h2
      obtain ⟨v2, rfl⟩ := bodyOf_quote_split v a' b h2
      exact trySub2At_open v2 y hsafe
  · exact trySub2At_nonquote c _ hc

theorem plainLocC_imp_plainKeyC (c : Char) (h : plainLocC c = true) :
    plainKeyC c = true := by
  simp [plainLocC] at h
  simp [plainKeyC]
  rcases h with ((h | h) | h) | h
  · left; left; left; left; left; exact h
  · left; left; left; left; right; exact h
  · left; left; left; right; exact h
  · left; right; exact h

theorem bodyOf_plain (s : LStr) (h : ∀ c ∈ s, plainKeyC c = true) : bodyOf s = s := by
  unfold bodyOf
  rw [escapeJson_plain s (fun c hc => ⟨(plainKeyC_ne c (h c hc)).1,
    (plainKeyC_ne c (h c hc)).2.1, (plainKeyC_ne c (h c hc)).2.2.2.2.2⟩)]
  exact repD_plain s (fun c hc => (plainKeyC_ne c (h c hc)).2.2.1)

theorem replacePair_plain (k v : LStr) (hk : ∀ c ∈ k, plainKeyC c = true) :
    replacePair k (bodyOf v) = pairR k v := by
  unfold replacePair pairR valR
  rw [contains_false_of_not_mem k '\''
    (fun hm => absurd rfl (plainKeyC_ne '\'' (hk '\'' hm)).2.2.2.1)]
  rw [if_neg (by decide)]
  simp

/-- The pair pattern fires at a serialized `"key": "value"` pair, consuming it
whole and producing the requoted replacement. -/
theorem trySub1At_pair (k v z : LStr) :
    trySub1At ('"' :: (bodyOf k ++ '"' :: ':' :: ' ' :: '"' :: (bodyOf v ++ '"' :: z)))
      = some (replacePair (bodyOf k) (bodyOf v), z) := by
  unfold trySub1At
  split
  next heq => exact absurd heq (by simp)
  next c' r' heq =>
    injection heq with h1 h2
    subst h1
    subst h2
    rw [if_pos rfl]
    split
    next hnone => rw [matchStrBody_bodyOf] at hnone; exact Option.noConfusion hnone
    next k1 r1 hsome =>
      rw [matchStrBody_bodyOf] at hsome
      injection hsome with hp
      injection hp with hk1 hr1
      subst hk1
      subst hr1
      split
      next hnil => exact absurd hnil (by simp)
      next c1 r2 hcons =>
        injection hcons with hc1 hr2
        subst hc1
        subst hr2
        rw [if_pos rfl]
        rw [skipWs_sp, skipWs_not_ws '"' _ (by decide)]
        split
        next hnil2 => exact absurd hnil2 (by simp)
        next c2 r3 hcons2 =>
          injection hcons2 with hc2 hr3
          subst hc2
          subst hr3
          rw [if_pos rfl]
          split
          next hnone => rw [matchStrBody_bodyOf] at hnone; exact Option.noConfusion hnone
          next v1 r4 hsome2 =>
            rw [matchStrBody_bodyOf] at hsome2
            injection hsome2 with hp2
            injection hp2 with hv1 hr4
            subst hv1
            subst hr4
            rfl

/-- The pair pattern fails at the opening quote of a locale key: the value
position holds a brace, not a string. -/
theorem trySub1At_locale_open (loc z : LStr) :
    trySub1At ('"' :: (bodyOf loc ++ '"' :: ':' :: ' ' :: '{' :: z)) = none := by
  unfold trySub1At
  split
  next heq => exact absurd heq (by simp)
  next c' r' heq =>
    injection heq with h1 h2
    subst h1
    subst h2
    rw [if_pos rfl]
    split
    next hnone => rw [matchStrBody_bodyOf] at hnone
    next k1 r1 hsome =>
      rw [matchStrBody_bodyOf] at hsome
      injection hsome with hp
      injection hp with hk1 hr1
      subst hk1
      subst hr1
      split
      next hnil => exact absurd hnil (by simp)
      next c1 r2 hcons =>
        injection hcons with hc1 hr2
        subst hc1
        subst hr2
        rw [if_pos rfl]
        rw [skipWs_sp, skipWs_not_ws '{' _ (by decide)]
        split
        next hnil2 => exact absurd hnil2 (by simp)
        next c2 r3 hcons2 =>
          injection hcons2 with hc2 hr3
          subst hc2
          rw [if_neg (by decide)]

/-- The pair pattern fails at the closing quote of a locale key: the scan for
a key group runs to the first key quote of the nested bundle, and the
character after that quote is not a colon. -/
theorem trySub1At_locale_close (c1 : Char) (hc1 : c1 ≠ ':') (z : LStr) :
    trySub1At ('"' :: ':' :: ' ' :: '{' :: '\n' :: ' ' :: ' ' :: ' ' :: ' ' :: '"' :: c1 :: z)
      = none := by
  have hm : matchStrBody (':' :: ' ' :: '{' :: '\n' :: ' ' :: ' ' :: ' ' :: ' ' :: '"' :: c1 :: z)
      = some ([':', ' ', '{', '\n', ' ', ' ', ' ', ' '], c1 :: z) := by
    rw [matchStrBody_plain_step ':' (by decide) (by decide),
      matchStrBody_plain_step ' ' (by decide) (by decide),
      matchStrBody_plain_step '{' (by decide) (by decide),
      matchStrBody_plain_step '\n' (by decide) (by decide),
      matchStrBody_plain_step ' ' (by decide) (by decide),
      matchStrBody_plain_step ' ' (by decide) (by decide),
      matchStrBody_plain_step ' ' (by decide) (by decide),
      matchStrBody_plain_step ' ' (by decide) (by decide),
      matchStrBody_close]
    rfl
  unfold trySub1At
  split
  next heq => exact absurd heq (by simp)
  next c' r' heq =>
    injection heq with h1 h2
    subst h1
    subst h2
    rw [if_pos rfl]
    split
    next hnone => rw [hm] at hnone
    next k1 r1 hsome =>
      rw [hm] at hsome
      injection hsome with hp
      injection hp with hk1 hr1
      subst hk1
      subst hr1
      split
      next hnil => exact absurd hnil (by simp)
      next c2 r2 hcons =>
        injection hcons with hc2 hr2
        subst hc2
        rw [if_neg hc1]

/-- Pass 2 copies a rewritten value (either quote style) verbatim when the
following character is not a colon, quote, or word character. -/
theorem RS2_valR (v : LStr) (c0 : Char) (z0 : LStr)
    (hw : isWordC c0 = false) (hq : c0 ≠ '"') (hc : c0 ≠ ':') :
    RS trySub2At (valR v ++ c0 :: z0) = valR v ++ RS trySub2At (c0 :: z0) := by
  unfold valR
  by_cases hap : (bodyOf v).contains '\'' = true
  · rw [if_pos hap]
    have e1 : ('"' :: bodyOf v ++ ['"']) ++ c0 :: z0
        = ('"' :: bodyOf v) ++ ('"' :: c0 :: z0) := by simp
    rw [e1, RS2_seg '"' v _ (Or.inr ⟨c0, z0, rfl, hc⟩)]
    rw [RS_cons_nomatch _ trySub2At_length _ _ (trySub2At_after c0 z0 hw hq)]
    simp
  · rw [if_neg hap]
    have e1 : ('\'' :: bodyOf v ++ ['\'']) ++ c0 :: z0
        = ('\'' :: bodyOf v) ++ ('\'' :: c0 :: z0) := by simp
    rw [e1, RS2_seg '\'' v _ (Or.inl ⟨'\'', c0 :: z0, rfl, by decide, by decide⟩)]
    rw [RS_cons_nomatch _ trySub2At_length _ _ (trySub2At_nonquote '\'' _ (by decide))]
    simp

theorem key_head (k : LStr) (hk : ∀ c ∈ k, plainKeyC c = true) (t : LStr) :
    ∃ c1 z1, k ++ '"' :: t = c1 :: z1 ∧ c1 ≠ ':' := by
  cases k with
  | nil => exact ⟨'"', t, rfl, by decide⟩
  | cons c k2 =>
    exact ⟨c, k2 ++ '"' :: t, rfl,
      (plainKeyC_ne c (hk c (List.mem_cons_self c k2))).2.2.2.2.1⟩

theorem RS1_peel (c : Char) (hc : c ≠ '"') (z : LStr) :
    RS trySub1At (c :: z) = c :: RS trySub1At z :=
  RS_cons_nomatch _ trySub1At_length c z (trySub1At_nonquote c z hc)

theorem RS2_peel (c : Char) (hc : c ≠ '"') (z : LStr) :
    RS trySub2At (c :: z) = c :: RS trySub2At z :=
  RS_cons_nomatch _ trySub2At_length c z (trySub2At_nonquote c z hc)

theorem RS1_pairsTail (b : Bundle) (hb : ∀ p ∈ b, ∀ c ∈ p.1, plainKeyC c = true) :
    ∀ z, RS trySub1At (edPairsTail b ++ z) = m1PairsTail b ++ RS trySub1At z := by
  induction b with
  | nil => intro z; simp [edPairsTail, m1PairsTail]
  | cons p rest ih =>
    obtain ⟨k, v⟩ := p
    intro z
    have hk : ∀ c ∈ k, plainKeyC c = true := hb (k, v) (List.mem_cons_self _ _)
    have e1 : edPairsTail ((k, v) :: rest) ++ z
        = ',' :: '\n' :: ' ' :: ' ' :: ' ' :: ' ' ::
          '"' :: (k ++ '"' :: ':' :: ' ' :: '"' :: (bodyOf v ++ '"' :: (edPairsTail rest ++ z))) := by
      simp [edPairsTail]
    have hpair := trySub1At_pair k v (edPairsTail rest ++ z)
    rw [bodyOf_plain k hk] at hpair
    rw [e1, RS1_peel ',' (by decide), RS1_peel '\n' (by decide),
      RS1_peel ' ' (by decide), RS1_peel ' ' (by decide),
      RS1_peel ' ' (by decide), RS1_peel ' ' (by decide),
      RS_cons_match _ trySub1At_length _ _ _ _ hpair,
      ih (fun p hp => hb p (List.mem_cons_of_mem _ hp)) z,
      replacePair_plain k v hk]
    simp [m1PairsTail]

theorem RS1_pairs (b : Bundle) (hb : ∀ p ∈ b, ∀ c ∈ p.1, plainKeyC c = true) :
    ∀ z, RS trySub1At (edPairs b ++ z) = m1Pairs b ++ RS trySub1At z := by
  cases b with
  | nil => intro z; simp [edPairs, m1Pairs]
  | cons p rest =>
    obtain ⟨k, v⟩ := p
    intro z
    have hk : ∀ c ∈ k, plainKeyC c = true := hb (k, v) (List.mem_cons_self _ _)
    have e1 : edPairs ((k, v) :: rest) ++ z
        = ' ' :: ' ' :: ' ' :: ' ' ::
          '"' :: (k ++ '"' :: ':' :: ' ' :: '"' :: (bodyOf v ++ '"' :: (edPairsTail rest ++ z))) := by
      simp [edPairs]
    have hpair := trySub1At_pair k v (edPairsTail rest ++ z)
    rw [bodyOf_plain k hk] at hpair
    rw [e1, RS1_peel ' ' (by decide), RS1_peel ' ' (by decide),
      RS1_peel ' ' (by decide), RS1_peel ' ' (by decide),
      RS_cons_match _ trySub1At_length _ _ _ _ hpair,
      RS1_pairsTail rest (fun p hp => hb p (List.mem_cons_of_mem _ hp)) z,
      replacePair_plain k v hk]
    simp [m1Pairs]

theorem RS1_catTail (cat : Catalog) (hcat : ∀ e ∈ cat, (∀ c ∈ e.1, plainLocC c = true) ∧
    e.2 ≠ [] ∧ ∀ p ∈ e.2, ∀ c ∈ p.1, plainKeyC c = true) :
    ∀ z, RS trySub1At (edCatTail cat ++ z) = m1CatTail cat ++ RS trySub1At z := by
  induction cat with
  | nil => intro z; simp [edCatTail, m1CatTail]
  | cons e rest ih =>
    obtain ⟨loc, b⟩ := e
    intro z
    obtain ⟨hloc, hbne, hkeys⟩ := hcat (loc, b) (List.mem_cons_self _ _)
    cases b with
    | nil => exact absurd rfl hbne
    | cons p b2 =>
      obtain ⟨k0, v0⟩ := p
      have hk0 : ∀ c ∈ k0, plainKeyC c = true := hkeys (k0, v0) (List.mem_cons_self _ _)
      have hlocK : ∀ c ∈ loc, plainKeyC c = true :=
        fun c hc => plainLocC_imp_plainKeyC c (hloc c hc)
      have hlq : ∀ c ∈ loc, c ≠ '"' := fun c hc => (plainLocC_ne c (hloc c hc)).1
      have e1 : edCatTail ((loc, (k0, v0) :: b2) :: rest) ++ z
          = ',' :: '\n' :: ' ' :: ' ' ::
            '"' :: (loc ++ '"' :: ':' :: ' ' :: '{' ::
              '\n' :: ' ' :: ' ' :: ' ' :: ' ' ::
              '"' :: (k0 ++ '"' :: ':' :: ' ' :: '"' :: (bodyOf v0 ++ '"' ::
                (edPairsTail b2 ++
                  '\n' :: ' ' :: ' ' :: '}' :: (edCatTail rest ++ z))))) := by
        simp [edCatTail, edBundleNE, edPairs]
      have hopen := trySub1At_locale_open loc
        ('\n' :: ' ' :: ' ' :: ' ' :: ' ' ::
          '"' :: (k0 ++ '"' :: ':' :: ' ' :: '"' :: (bodyOf v0 ++ '"' ::
            (edPairsTail b2 ++ '\n' :: ' ' :: ' ' :: '}' :: (edCatTail rest ++ z)))))
      rw [bodyOf_plain loc hlocK] at hopen
      obtain ⟨c1, z1, hkey, hc1⟩ := key_head k0 hk0
        (':' :: ' ' :: '"' :: (bodyOf v0 ++ '"' ::
          (edPairsTail b2 ++ '\n' :: ' ' :: ' ' :: '}' :: (edCatTail rest ++ z))))
      have hpair := trySub1At_pair k0 v0
        (edPairsTail b2 ++ '\n' :: ' ' :: ' ' :: '}' :: (edCatTail rest ++ z))
      rw [bodyOf_plain k0 hk0] at hpair
      rw [e1, RS1_peel ',' (by decide), RS1_peel '\n' (by decide),
        RS1_peel ' ' (by decide), RS1_peel ' ' (by decide),
        RS_cons_nomatch _ trySub1At_length _ _ hopen,
        RS_copy _ trySub1At_length trySub1At_nonquote loc _ hlq,
        hkey,
        RS_cons_nomatch _ trySub1At_length _ _ (trySub1At_locale_close c1 hc1 z1),
        ← hkey,
        RS1_peel ':' (by decide), RS1_peel ' ' (by decide),
        RS1_peel '{' (by decide), RS1_peel '\n' (by decide),
        RS1_peel ' ' (by decide), RS1_peel ' ' (by decide),
        RS1_peel ' ' (by decide), RS1_peel ' ' (by decide),
        RS_cons_match _ trySub1At_length _ _ _ _ hpair,
        RS1_pairsTail b2 (fun p hp => hkeys p (List.mem_cons_of_mem _ hp)),
        RS1_peel '\n' (by decide), RS1_peel ' ' (by decide),
        RS1_peel ' ' (by decide), RS1_peel '}' (by decide),
        ih (fun e he => hcat e (List.mem_cons_of_mem _ he)) z,
        replacePair_plain k0 v0 hk0]
      simp [m1CatTail, m1BundleNE, m1Pairs]

theorem RS1_catEntries (cat : Catalog) (hcat : ∀ e ∈ cat, (∀ c ∈ e.1, plainLocC c = true) ∧
    e.2 ≠ [] ∧ ∀ p ∈ e.2, ∀ c ∈ p.1, plainKeyC c = true) :
    ∀ z, RS trySub1At (edCatEntries cat ++ z) = m1CatEntries cat ++ RS trySub1At z := by
  cases cat with
  | nil => intro z; simp [edCatEntries, m1CatEntries]
  | cons e rest =>
    obtain ⟨loc, b⟩ := e
    intro z
    obtain ⟨hloc, hbne, hkeys⟩ := hcat (loc, b) (List.mem_cons_self _ _)
    cases b with
    | nil => exact absurd rfl hbne
    | cons p b2 =>
      obtain ⟨k0, v0⟩ := p
      have hk0 : ∀ c ∈ k0, plainKeyC c = true := hkeys (k0, v0) (List.mem_cons_self _ _)
      have hlocK : ∀ c ∈ loc, plainKeyC c = true :=
        fun c hc => plainLocC_imp_plainKeyC c (hloc c hc)
      have hlq : ∀ c ∈ loc, c ≠ '"' := fun c hc => (plainLocC_ne c (hloc c hc)).1
      have e1 : edCatEntries ((loc, (k0, v0) :: b2) :: rest) ++ z
          = ' ' :: ' ' ::
            '"' :: (loc ++ '"' :: ':' :: ' ' :: '{' ::
              '\n' :: ' ' :: ' ' :: ' ' :: ' ' ::
              '"' :: (k0 ++ '"' :: ':' :: ' ' :: '"' :: (bodyOf v0 ++ '"' ::
                (edPairsTail b2 ++
                  '\n' :: ' ' :: ' ' :: '}' :: (edCatTail rest ++ z))))) := by
        simp [edCatEntries, edBundleNE, edPairs]
      have hopen := trySub1At_locale_open loc
        ('\n' :: ' ' :: ' ' :: ' ' :: ' ' ::
          '"' :: (k0 ++ '"' :: ':' :: ' ' :: '"' :: (bodyOf v0 ++ '"' ::
            (edPairsTail b2 ++ '\n' :: ' ' :: ' ' :: '}' :: (edCatTail rest ++ z)))))
      rw [bodyOf_plain loc hlocK] at hopen
      obtain ⟨c1, z1, hkey, hc1⟩ := key_head k0 hk0
        (':' :: ' ' :: '"' :: (bodyOf v0 ++ '"' ::
          (edPairsTail b2 ++ '\n' :: ' ' :: ' ' :: '}' :: (edCatTail rest ++ z))))
      have hpair := trySub1At_pair k0 v0
        (edPairsTail b2 ++ '\n' :: ' ' :: ' ' :: '}' :: (edCatTail rest ++ z))
      rw [bodyOf_plain k0 hk0] at hpair
      rw [e1, RS1_peel ' ' (by decide), RS1_peel ' ' (by decide),
        RS_cons_nomatch _ trySub1At_length _ _ hopen,
        RS_copy _ trySub1At_length trySub1At_nonquote loc _ hlq,
        hkey,
        RS_cons_nomatch _ trySub1At_length _ _ (trySub1At_locale_close c1 hc1 z1),
        ← hkey,
        RS1_peel ':' (by decide), RS1_peel ' ' (by decide),
        RS1_peel '{' (by decide), RS1_peel '\n' (by decide),
        RS1_peel ' ' (by decide), RS1_peel ' ' (by decide),
        RS1_peel ' ' (by decide), RS1_peel ' ' (by decide),
        RS_cons_match _ trySub1At_length _ _ _ _ hpair,
        RS1_pairsTail b2 (fun p hp => hkeys p (List.mem_cons_of_mem _ hp)),
        RS1_peel '\n' (by decide), RS1_peel ' ' (by decide),
        RS1_peel ' ' (by decide), RS1_peel '}' (by decide),
        RS1_catTail rest (fun e he => hcat e (List.mem_cons_of_mem _ he)) z,
        replacePair_plain k0 v0 hk0]
      simp [m1CatEntries, m1BundleNE, m1Pairs]

/-- Pass 1 of the quote rewriter on the escaped serialization of a plain
catalog: every `"key": "value"` pair is rewritten, locale keys stay
double-quoted. -/
theorem RS1_render (cat : Catalog) (hcat : plainCat cat) :
    RS trySub1At (edRender cat) = m1Render cat := by
  unfold edRender m1Render
  have e1 : ('{' :: '\n' :: edCatEntries cat ++ '\n' :: ['}'] : LStr)
      = '{' :: '\n' :: (edCatEntries cat ++ '\n' :: ['}']) := by simp
  rw [e1, RS1_peel '{' (by decide), RS1_peel '\n' (by decide),
    RS1_catEntries cat hcat ('\n' :: ['}']),
    RS1_peel '\n' (by decide), RS1_peel '}' (by decide)]
  simp [RS, reSubF]

theorem RS2_pairsTail (b : Bundle) (hb : ∀ p ∈ b, ∀ c ∈ p.1, plainKeyC c = true) :
    ∀ (z2 z : LStr), z = '\n' :: z2 →
    RS trySub2At (m1PairsTail b ++ z) = m1PairsTail b ++ RS trySub2At z := by
  induction b with
  | nil => intro z2 z _; simp [m1PairsTail]
  | cons p rest ih =>
    obtain ⟨k, v⟩ := p
    intro z2 z hz
    have hk : ∀ c ∈ k, plainKeyC c = true := hb (k, v) (List.mem_cons_self _ _)
    have hkq : ∀ c ∈ k, c ≠ '"' := fun c hc => (plainKeyC_ne c (hk c hc)).1
    have e1 : m1PairsTail ((k, v) :: rest) ++ z
        = ',' :: '\n' :: ' ' :: ' ' :: ' ' :: ' ' ::
          '\'' :: (k ++ '\'' :: ':' :: ' ' :: (valR v ++ (m1PairsTail rest ++ z))) := by
      simp [m1PairsTail, pairR]
    have hY : ∃ c0 z0, m1PairsTail rest ++ z = c0 :: z0 ∧
        isWordC c0 = false ∧ c0 ≠ '"' ∧ c0 ≠ ':' := by
      cases rest with
      | nil => exact ⟨'\n', z2, by simp [m1PairsTail, hz], by decide, by decide, by decide⟩
      | cons q r2 =>
        obtain ⟨k2, v2⟩ := q
        exact ⟨',', '\n' :: ' ' :: ' ' :: ' ' :: ' ' :: pairR k2 v2 ++ m1PairsTail r2 ++ z,
          by simp [m1PairsTail], by decide, by decide, by decide⟩
    obtain ⟨c0, z0, hYeq, hw0, hq0, hc0⟩ := hY
    rw [e1, RS2_peel ',' (by decide), RS2_peel '\n' (by decide),
      RS2_peel ' ' (by decide), RS2_peel ' ' (by decide),
      RS2_peel ' ' (by decide), RS2_peel ' ' (by decide),
      RS2_peel '\'' (by decide),
      RS_copy _ trySub2At_length trySub2At_nonquote k _ hkq,
      RS2_peel '\'' (by decide), RS2_peel ':' (by decide), RS2_peel ' ' (by decide),
      hYeq, RS2_valR v c0 z0 hw0 hq0 hc0, ← hYeq,
      ih (fun p hp => hb p (List.mem_cons_of_mem _ hp)) z2 z hz]
    simp [m1PairsTail, pairR]

theorem RS2_pairs (b : Bundle) (hb : ∀ p ∈ b, ∀ c ∈ p.1, plainKeyC c = true) :
    ∀ (z2 z : LStr), z = '\n' :: z2 →
    RS trySub2At (m1Pairs b ++ z) = m1Pairs b ++ RS trySub2At z := by
  cases b with
  | nil => intro z2 z _; simp [m1Pairs]
  | cons p rest =>
    obtain ⟨k, v⟩ := p
    intro z2 z hz
    have hk : ∀ c ∈ k, plainKeyC c = true := hb (k, v) (List.mem_cons_self _ _)
    have hkq : ∀ c ∈ k, c ≠ '"' := fun c hc => (plainKeyC_ne c (hk c hc)).1
    have e1 : m1Pairs ((k, v) :: rest) ++ z
        = ' ' :: ' ' :: ' ' :: ' ' ::
          '\'' :: (k ++ '\'' :: ':' :: ' ' :: (valR v ++ (m1PairsTail rest ++ z))) := by
      simp [m1Pairs, pairR]
    have hY : ∃ c0 z0, m1PairsTail rest ++ z = c0 :: z0 ∧
        isWordC c0 = false ∧ c0 ≠ '"' ∧ c0 ≠ ':' := by
      cases rest with
      | nil => exact ⟨'\n', z2, by simp [m1PairsTail, hz], by decide, by decide, by decide⟩
      | cons q r2 =>
        obtain ⟨k2, v2⟩ := q
        exact ⟨',', '\n' :: ' ' :: ' ' :: ' ' :: ' ' :: pairR k2 v2 ++ m1PairsTail r2 ++ z,
          by simp [m1PairsTail], by decide, by decide, by decide⟩
    obtain ⟨c0, z0, hYeq, hw0, hq0, hc0⟩ := hY
    rw [e1, RS2_peel ' ' (by decide), RS2_peel ' ' (by decide),
      RS2_peel ' ' (by decide), RS2_peel ' ' (by decide),
      RS2_peel '\'' (by decide),
      RS_copy _ trySub2At_length trySub2At_nonquote k _ hkq,
      RS2_peel '\'' (by decide), RS2_peel ':' (by decide), RS2_peel ' ' (by decide),
      hYeq, RS2_valR v c0 z0 hw0 hq0 hc0, ← hYeq,
      RS2_pairsTail rest (fun p hp => hb p (List.mem_cons_of_mem _ hp)) z2 z hz]
    simp [m1Pairs, pairR]

theorem RS2_catTail (cat : Catalog) (hcat : ∀ e ∈ cat, (∀ c ∈ e.1, plainLocC c = true) ∧
    e.2 ≠ [] ∧ ∀ p ∈ e.2, ∀ c ∈ p.1, plainKeyC c = true) :
    ∀ z, RS trySub2At (m1CatTail cat ++ z) = m1CatTail cat ++ RS trySub2At z := by
  induction cat with
  | nil => intro z; simp [m1CatTail]
  | cons e rest ih =>
    obtain ⟨loc, b⟩ := e
    intro z
    obtain ⟨hloc, hbne, hkeys⟩ := hcat (loc, b) (List.mem_cons_self _ _)
    have hlq : ∀ c ∈ loc, c ≠ '"' := fun c hc => (plainLocC_ne c (hloc c hc)).1
    have e1 : m1CatTail ((loc, b) :: rest) ++ z
        = ',' :: '\n' :: ' ' :: ' ' ::
          '"' :: (loc ++ '"' :: ':' ::
            (' ' :: '{' :: '\n' :: (m1Pairs b ++
              ('\n' :: ' ' :: ' ' :: '}' :: (m1CatTail rest ++ z))))) := by
      simp [m1CatTail, m1BundleNE]
    have hopen := trySub2At_locale loc hloc
      (' ' :: '{' :: '\n' :: (m1Pairs b ++
        ('\n' :: ' ' :: ' ' :: '}' :: (m1CatTail rest ++ z))))
    rw [e1, RS2_peel ',' (by decide), RS2_peel '\n' (by decide),
      RS2_peel ' ' (by decide), RS2_peel ' ' (by decide),
      RS_cons_nomatch _ trySub2At_length _ _ hopen,
      RS_copy _ trySub2At_length trySub2At_nonquote loc _ hlq,
      RS_cons_nomatch _ trySub2At_length _ _ (trySub2At_after ':' _ (by decide) (by decide)),
      RS2_peel ':' (by decide), RS2_peel ' ' (by decide),
      RS2_peel '{' (by decide), RS2_peel '\n' (by decide),
      RS2_pairs b hkeys (' ' :: ' ' :: '}' :: (m1CatTail rest ++ z)) _ rfl,
      RS2_peel '\n' (by decide), RS2_peel ' ' (by decide),
      RS2_peel ' ' (by decide), RS2_peel '}' (by decide),
      ih (fun e he => hcat e (List.mem_cons_of_mem _ he)) z]
    simp [m1CatTail, m1BundleNE]

theorem RS2_catEntries (cat : Catalog) (hcat : ∀ e ∈ cat, (∀ c ∈ e.1, plainLocC c = true) ∧
    e.2 ≠ [] ∧ ∀ p ∈ e.2, ∀ c ∈ p.1, plainKeyC c = true) :
    ∀ z, RS trySub2At (m1CatEntries cat ++ z) = m1CatEntries cat ++ RS trySub2At z := by
  cases cat with
  | nil => intro z; simp [m1CatEntries]
  | cons e rest =>
    obtain ⟨loc, b⟩ := e
    intro z
    obtain ⟨hloc, hbne, hkeys⟩ := hcat (loc, b) (List.mem_cons_self _ _)
    have hlq : ∀ c ∈ loc, c ≠ '"' := fun c hc => (plainLocC_ne c (hloc c hc)).1
    have e1 : m1CatEntries ((loc, b) :: rest) ++ z
        = ' ' :: ' ' ::
          '"' :: (loc ++ '"' :: ':' ::
            (' ' :: '{' :: '\n' :: (m1Pairs b ++
              ('\n' :: ' ' :: ' ' :: '}' :: (m1CatTail rest ++ z))))) := by
      simp [m1CatEntries, m1BundleNE]
    have hopen := trySub2At_locale loc hloc
      (' ' :: '{' :: '\n' :: (m1Pairs b ++
        ('\n' :: ' ' :: ' ' :: '}' :: (m1CatTail rest ++ z))))
    rw [e1, RS2_peel ' ' (by decide), RS2_peel ' ' (by decide),
      RS_cons_nomatch _ trySub2At_length _ _ hopen,
      RS_copy _ trySub2At_length trySub2At_nonquote loc _ hlq,
      RS_cons_nomatch _ trySub2At_length _ _ (trySub2At_after ':' _ (by decide) (by decide)),
      RS2_peel ':' (by decide), RS2_peel ' ' (by decide),
      RS2_peel '{' (by decide), RS2_peel '\n' (by decide),
      RS2_pairs b hkeys (' ' :: ' ' :: '}' :: (m1CatTail rest ++ z)) _ rfl,
      RS2_peel '\n' (by decide), RS2_peel ' ' (by decide),
      RS2_peel ' ' (by decide), RS2_peel '}' (by decide),
      RS2_catTail rest (fun e he => hcat e (List.mem_cons_of_mem _ he)) z]
    simp [m1CatEntries, m1BundleNE]

/-- Pass 2 of the quote rewriter leaves the pass-1 image of a plain catalog
unchanged: hyphenated locales stop the word run, unbroken ones have no
underscore, and rewritten values never expose an unescaped quote before a
colon. -/
theorem RS2_render (cat : Catalog) (hcat : plainCat cat) :
    RS trySub2At (m1Render cat) = m1Render cat := by
  unfold m1Render
  have e1 : ('{' :: '\n' :: m1CatEntries cat ++ '\n' :: ['}'] : LStr)
      = '{' :: '\n' :: (m1CatEntries cat ++ '\n' :: ['}']) := by simp
  rw [e1, RS2_peel '{' (by decide), RS2_peel '\n' (by decide),
    RS2_catEntries cat hcat ('\n' :: ['}']),
    RS2_peel '\n' (by decide), RS2_peel '}' (by decide)]
  simp [RS, reSubF]

/-- `convert_to_single_quotes` on the escaped serialization of a plain
catalog: pairs single-quoted per the apostrophe rule, locale keys untouched. -/
theorem convert_render (cat : Catalog) (hcat : plainCat cat) :
    convert_to_single_quotes (edRender cat) = m1Render cat := by
  rw [convert_eq_RS, RS1_render cat hcat, RS2_render cat hcat]

theorem repD_cons_plain (c : Char) (s : LStr) (h : c ≠ '$') :
    repD (c :: s) = c :: repD s := by
  simp [repD, if_neg h]

theorem repD_qstr (s : LStr) : repD (qstr s) = '"' :: bodyOf s ++ ['"'] := by
  unfold qstr bodyOf
  rw [show ('"' :: escapeJson s ++ ['"'] : LStr) = '"' :: (escapeJson s ++ ['"']) from by simp,
    repD_cons_plain '"' _ (by decide), repD_append]
  simp [repD]

theorem repD_edPairsTail (b : Bundle) (hb : ∀ p ∈ b, ∀ c ∈ p.1, plainKeyC c = true) :
    repD (dumpPairsITail b) = edPairsTail b := by
  induction b with
  | nil => rfl
  | cons p rest ih =>
    obtain ⟨k, v⟩ := p
    have hk : ∀ c ∈ k, plainKeyC c = true := hb (k, v) (List.mem_cons_self _ _)
    have e : dumpPairsITail ((k, v) :: rest)
        = [',', '\n', ' ', ' ', ' ', ' '] ++ (qstr k ++ ([':', ' '] ++ (qstr v ++ dumpPairsITail rest))) := by
      simp [dumpPairsITail, sp4]
    rw [e]
    simp only [repD_append]
    rw [repD_qstr, repD_qstr,
      ih (fun p hp => hb p (List.mem_cons_of_mem _ hp)), bodyOf_plain k hk]
    simp [edPairsTail, repD]

theorem repD_edPairs (b : Bundle) (hb : ∀ p ∈ b, ∀ c ∈ p.1, plainKeyC c = true) :
    repD (dumpPairsI b) = edPairs b := by
  cases b with
  | nil => rfl
  | cons p rest =>
    obtain ⟨k, v⟩ := p
    have hk : ∀ c ∈ k, plainKeyC c = true := hb (k, v) (List.mem_cons_self _ _)
    have e : dumpPairsI ((k, v) :: rest)
        = [' ', ' ', ' ', ' '] ++ (qstr k ++ ([':', ' '] ++ (qstr v ++ dumpPairsITail rest))) := by
      simp [dumpPairsI, sp4]
    rw [e]
    simp only [repD_append]
    rw [repD_qstr, repD_qstr,
      repD_edPairsTail rest (fun p hp => hb p (List.mem_cons_of_mem _ hp)), bodyOf_plain k hk]
    simp [edPairs, repD]

theorem repD_edBundle (b : Bundle) (hbne : b ≠ [])
    (hb : ∀ p ∈ b, ∀ c ∈ p.1, plainKeyC c = true) :
    repD (dumpBundleI b) = edBundleNE b := by
  cases b with
  | nil => exact absurd rfl hbne
  | cons p rest =>
    have e : dumpBundleI (p :: rest)
        = ['{', '\n'] ++ (dumpPairsI (p :: rest) ++ ['\n', ' ', ' ', '}']) := by
      simp [dumpBundleI, sp2]
    rw [e]
    simp only [repD_append]
    rw [repD_edPairs _ hb]
    simp [edBundleNE, repD]

theorem repD_edCatTail (cat : Catalog) (hcat : ∀ e ∈ cat, (∀ c ∈ e.1, plainLocC c = true) ∧
    e.2 ≠ [] ∧ ∀ p ∈ e.2, ∀ c ∈ p.1, plainKeyC c = true) :
    repD (dumpCatTailI cat) = edCatTail cat := by
  induction cat with
  | nil => rfl
  | cons e rest ih =>
    obtain ⟨loc, b⟩ := e
    obtain ⟨hloc, hbne, hkeys⟩ := hcat (loc, b) (List.mem_cons_self _ _)
    have hlocK : ∀ c ∈ loc, plainKeyC c = true :=
      fun c hc => plainLocC_imp_plainKeyC c (hloc c hc)
    have e1 : dumpCatTailI ((loc, b) :: rest)
        = [',', '\n', ' ', ' '] ++ (qstr loc ++ ([':', ' '] ++ (dumpBundleI b ++ dumpCatTailI rest))) := by
      simp [dumpCatTailI, sp2]
    rw [e1]
    simp only [repD_append]
    rw [repD_qstr,
      repD_edBundle b hbne hkeys, ih (fun e he => hcat e (List.mem_cons_of_mem _ he)),
      bodyOf_plain loc hlocK]
    simp [edCatTail, repD]

theorem repD_edCatEntries (cat : Catalog) (hcat : ∀ e ∈ cat, (∀ c ∈ e.1, plainLocC c = true) ∧
    e.2 ≠ [] ∧ ∀ p ∈ e.2, ∀ c ∈ p.1, plainKeyC c = true) :
    repD (dumpCatEntriesI cat) = edCatEntries cat := by
  cases cat with
  | nil => rfl
  | cons e rest =>
    obtain ⟨loc, b⟩ := e
    obtain ⟨hloc, hbne, hkeys⟩ := hcat (loc, b) (List.mem_cons_self _ _)
    have hlocK : ∀ c ∈ loc, plainKeyC c = true :=
      fun c hc => plainLocC_imp_plainKeyC c (hloc c hc)
    have e1 : dumpCatEntriesI ((loc, b) :: rest)
        = [' ', ' '] ++ (qstr loc ++ ([':', ' '] ++ (dumpBundleI b ++ dumpCatTailI rest))) := by
      simp [dumpCatEntriesI, sp2]
    rw [e1]
    simp only [repD_append]
    rw [repD_qstr,
      repD_edBundle b hbne hkeys,
      repD_edCatTail rest (fun e he => hcat e (List.mem_cons_of_mem _ he)),
      bodyOf_plain loc hlocK]
    simp [edCatEntries, repD]

/-- The dollar-escaped `indent=2` serialization of a plain nonempty catalog,
written out segment by segment. -/
theorem repD_dump_ed (cat : Catalog) (hcat : plainCat cat) (hne : cat ≠ []) :
    repD (jsonDumpsIndent cat) = edRender cat := by
  cases cat with
  | nil => exact absurd rfl hne
  | cons e rest =>
    have e1 : jsonDumpsIndent (e :: rest)
        = ['{', '\n'] ++ (dumpCatEntriesI (e :: rest) ++ ['\n', '}']) := by
      simp [jsonDumpsIndent]
    rw [e1]
    simp only [repD_append]
    rw [repD_edCatEntries _ hcat]
    simp [edRender, repD]

/-- Full quote rewriter on the escaped serialization of a plain catalog. -/
theorem convert_plain (cat : Catalog) (hcat : plainCat cat) (hne : cat ≠ []) :
    convert_to_single_quotes (repD (jsonDumpsIndent cat)) = m1Render cat := by
  rw [repD_dump_ed cat hcat hne, convert_render cat hcat]

theorem repD_uvalR (v : LStr) : repD (uvalR v) = valR v := by
  unfold uvalR valR
  by_cases hap : (bodyOf v).contains '\'' = true
  · rw [if_pos hap, if_pos hap]
    exact repD_qstr v
  · rw [if_neg hap, if_neg hap]
    rw [show ('\'' :: escapeJson v ++ ['\''] : LStr) = '\'' :: (escapeJson v ++ ['\'']) from by simp,
      repD_cons_plain '\'' _ (by decide), repD_append]
    simp [repD, bodyOf]

theorem repD_upairR (k v : LStr) (hk : ∀ c ∈ k, plainKeyC c = true) :
    repD (upairR k v) = pairR k v := by
  unfold upairR pairR
  rw [show ('\'' :: k ++ '\'' :: ':' :: ' ' :: uvalR v : LStr)
      = '\'' :: (k ++ ([('\'' : Char), ':', ' '] ++ uvalR v)) from by simp,
    repD_cons_plain '\'' _ (by decide), repD_append, repD_append,
    repD_plain k (fun c hc => (plainKeyC_ne c (hk c hc)).2.2.1),
    repD_uvalR]
  simp [repD]

theorem repD_u1PairsTail (b : Bundle) (hb : ∀ p ∈ b, ∀ c ∈ p.1, plainKeyC c = true) :
    repD (u1PairsTail b) = m1PairsTail b := by
  induction b with
  | nil => rfl
  | cons p rest ih =>
    obtain ⟨k, v⟩ := p
    have hk : ∀ c ∈ k, plainKeyC c = true := hb (k, v) (List.mem_cons_self _ _)
    have e : u1PairsTail ((k, v) :: rest)
        = [',', '\n', ' ', ' ', ' ', ' '] ++ (upairR k v ++ u1PairsTail rest) := by
      simp [u1PairsTail]
    rw [e]
    simp only [repD_append]
    rw [repD_upairR k v hk, ih (fun p hp => hb p (List.mem_cons_of_mem _ hp))]
    simp [m1PairsTail, repD]

theorem repD_u1Pairs (b : Bundle) (hb : ∀ p ∈ b, ∀ c ∈ p.1, plainKeyC c = true) :
    repD (u1Pairs b) = m1Pairs b := by
  cases b with
  | nil => rfl
  | cons p rest =>
    obtain ⟨k, v⟩ := p
    have hk : ∀ c ∈ k, plainKeyC c = true := hb (k, v) (List.mem_cons_self _ _)
    have e : u1Pairs ((k, v) :: rest)
        = [' ', ' ', ' ', ' '] ++ (upairR k v ++ u1PairsTail rest) := by
      simp [u1Pairs]
    rw [e]
    simp only [repD_append]
    rw [repD_upairR k v hk, repD_u1PairsTail rest (fun p hp => hb p (List.mem_cons_of_mem _ hp))]
    simp [m1Pairs, repD]

theorem repD_u1Bundle (b : Bundle) (hb : ∀ p ∈ b, ∀ c ∈ p.1, plainKeyC c = true) :
    repD (u1BundleNE b) = m1BundleNE b := by
  have e : u1BundleNE b = ['{', '\n'] ++ (u1Pairs b ++ ['\n', ' ', ' ', '}']) := by
    simp [u1BundleNE]
  rw [e]
  simp only [repD_append]
  rw [repD_u1Pairs b hb]
  simp [m1BundleNE, repD]

theorem repD_u1CatTail (cat : Catalog) (hcat : ∀ e ∈ cat, (∀ c ∈ e.1, plainLocC c = true) ∧
    e.2 ≠ [] ∧ ∀ p ∈ e.2, ∀ c ∈ p.1, plainKeyC c = true) :
    repD (u1CatTail cat) = m1CatTail cat := by
  induction cat with
  | nil => rfl
  | cons e rest ih =>
    obtain ⟨loc, b⟩ := e
    obtain ⟨hloc, hbne, hkeys⟩ := hcat (loc, b) (List.mem_cons_self _ _)
    have e1 : u1CatTail ((loc, b) :: rest)
        = [',', '\n', ' ', ' ', '"'] ++ (loc ++ ([('"' : Char), ':', ' ']
            ++ (u1BundleNE b ++ u1CatTail rest))) := by
      simp [u1CatTail]
    rw [e1]
    simp only [repD_append]
    rw [repD_plain loc (fun c hc => (plainLocC_ne c (hloc c hc)).2.2.1),
      repD_u1Bundle b hkeys, ih (fun e he => hcat e (List.mem_cons_of_mem _ he))]
    simp [m1CatTail, repD]

theorem repD_u1CatEntries (cat : Catalog) (hcat : ∀ e ∈ cat, (∀ c ∈ e.1, plainLocC c = true) ∧
    e.2 ≠ [] ∧ ∀ p ∈ e.2, ∀ c ∈ p.1, plainKeyC c = true) :
    repD (u1CatEntries cat) = m1CatEntries cat := by
  cases cat with
  | nil => rfl
  | cons e rest =>
    obtain ⟨loc, b⟩ := e
    obtain ⟨hloc, hbne, hkeys⟩ := hcat (loc, b) (List.mem_cons_self _ _)
    have e1 : u1CatEntries ((loc, b) :: rest)
        = [' ', ' ', '"'] ++ (loc ++ ([('"' : Char), ':', ' ']
            ++ (u1BundleNE b ++ u1CatTail rest))) := by
      simp [u1CatEntries]
    rw [e1]
    simp only [repD_append]
    rw [repD_plain loc (fun c hc => (plainLocC_ne c (hloc c hc)).2.2.1),
      repD_u1Bundle b hkeys, repD_u1CatTail rest (fun e he => hcat e (List.mem_cons_of_mem _ he))]
    simp [m1CatEntries, repD]

/-- The converted text is the dollar-escaped image of the single-quoted
rendering: undoing the sigil escape recovers it exactly. -/
theorem repD_u1Render (cat : Catalog) (hcat : plainCat cat) :
    repD (u1Render cat) = m1Render cat := by
  have e1 : u1Render cat = ['{', '\n'] ++ (u1CatEntries cat ++ ['\n', '}']) := by
    simp [u1Render]
  rw [e1]
  simp only [repD_append]
  rw [repD_u1CatEntries cat hcat]
  simp [m1Render, repD]

theorem skipWs_nl (t : LStr) : skipWs ('\n' :: t) = skipWs t := by
  simp only [skipWs]
  exact if_pos (by decide)

theorem parseStrLit_sq (v rest : LStr) (hv : '\'' ∉ v) :
    parseStrLit ('\'' :: (escapeJson v ++ '\'' :: rest)) = some (v, rest) := by
  simp [parseStrLit, strBody_sq_escape v rest hv]

theorem parseStrLit_key (k : LStr) (hk : ∀ c ∈ k, plainKeyC c = true) (rest : LStr) :
    parseStrLit ('\'' :: (k ++ '\'' :: rest)) = some (k, rest) := by
  have h1 : escapeJson k = k := escapeJson_plain k (fun c hc =>
    ⟨(plainKeyC_ne c (hk c hc)).1, (plainKeyC_ne c (hk c hc)).2.1,
      (plainKeyC_ne c (hk c hc)).2.2.2.2.2⟩)
  have h2 := parseStrLit_sq k rest (fun hm => (plainKeyC_ne '\'' (hk _ hm)).2.2.2.1 rfl)
  rw [h1] at h2
  exact h2

theorem parseStrLit_dqplain (l : LStr) (hl : ∀ c ∈ l, plainKeyC c = true) (rest : LStr) :
    parseStrLit ('"' :: (l ++ '"' :: rest)) = some (l, rest) := by
  have h1 : escapeJson l = l := escapeJson_plain l (fun c hc =>
    ⟨(plainKeyC_ne c (hl c hc)).1, (plainKeyC_ne c (hl c hc)).2.1,
      (plainKeyC_ne c (hl c hc)).2.2.2.2.2⟩)
  have h2 := strBody_dq_escape l rest
  rw [h1] at h2
  simp [parseStrLit, h2]

theorem parseStrLit_uval (v X : LStr) : parseStrLit (uvalR v ++ X) = some (v, X) := by
  unfold uvalR
  by_cases hap : (bodyOf v).contains '\'' = true
  · rw [if_pos hap,
      show ('"' :: escapeJson v ++ ['"']) ++ X = '"' :: (escapeJson v ++ '"' :: X) from by simp]
    simp [parseStrLit, strBody_dq_escape]
  · rw [if_neg hap,
      show ('\'' :: escapeJson v ++ ['\'']) ++ X = '\'' :: (escapeJson v ++ '\'' :: X) from by simp]
    exact parseStrLit_sq v X (fun hm => hap (by
      have hb : '\'' ∈ bodyOf v := (apos_mem_bodyOf v).mpr hm
      simpa using hb))

theorem skipWs_uvalR (v X : LStr) : skipWs (uvalR v ++ X) = uvalR v ++ X := by
  unfold uvalR
  by_cases hap : (bodyOf v).contains '\'' = true
  · rw [if_pos hap,
      show ('"' :: escapeJson v ++ ['"']) ++ X = '"' :: (escapeJson v ++ '"' :: X) from by simp]
    exact skipWs_not_ws _ _ (by decide)
  · rw [if_neg hap,
      show ('\'' :: escapeJson v ++ ['\'']) ++ X = '\'' :: (escapeJson v ++ '\'' :: X) from by simp]
    exact skipWs_not_ws _ _ (by decide)

theorem skipWs_upairR (k v X : LStr) : skipWs (upairR k v ++ X) = upairR k v ++ X := by
  rw [show upairR k v ++ X = '\'' :: (k ++ '\'' :: ':' :: ' ' :: uvalR v ++ X) from by simp [upairR]]
  exact skipWs_not_ws _ _ (by decide)

theorem RT_u1pairs (b2 : Bundle) : ∀ (k v : LStr) (fuel : Nat) (rest : LStr),
    (∀ c ∈ k, plainKeyC c = true) → (∀ p ∈ b2, ∀ c ∈ p.1, plainKeyC c = true) →
    b2.length + 1 ≤ fuel →
    parseInnerPairs fuel (upairR k v ++ (u1PairsTail b2 ++ '\n' :: ' ' :: ' ' :: '}' :: rest))
      = some ((k, v) :: b2, rest) := by
  induction b2 with
  | nil =>
    intro k v fuel rest hk _ hlen
    cases fuel with
    | zero => omega
    | succ f =>
      have e : upairR k v ++ (u1PairsTail [] ++ '\n' :: ' ' :: ' ' :: '}' :: rest)
          = '\'' :: (k ++ '\'' :: (':' :: ' ' ::
              (uvalR v ++ ('\n' :: ' ' :: ' ' :: '}' :: rest)))) := by
        simp [upairR, u1PairsTail]
      rw [e]
      simp only [parseInnerPairs, Option.bind_eq_bind]
      rw [parseStrLit_key k hk _]
      simp only [Option.some_bind]
      rw [skipWs_not_ws ':' _ (by decide), expectC_self]
      simp only [Option.some_bind]
      rw [skipWs_sp, skipWs_uvalR, parseStrLit_uval]
      simp only [Option.some_bind]
      rw [skipWs_nl, skipWs_sp, skipWs_sp, skipWs_not_ws '}' _ (by decide)]
      simp
  | cons q b3 ih =>
    intro k v fuel rest hk hb hlen
    obtain ⟨k2, v2⟩ := q
    cases fuel with
    | zero => omega
    | succ f =>
      have e : upairR k v ++ (u1PairsTail ((k2, v2) :: b3) ++ '\n' :: ' ' :: ' ' :: '}' :: rest)
          = '\'' :: (k ++ '\'' :: (':' :: ' ' ::
              (uvalR v ++ (',' :: '\n' :: ' ' :: ' ' :: ' ' :: ' ' ::
                (upairR k2 v2 ++ (u1PairsTail b3 ++ '\n' :: ' ' :: ' ' :: '}' :: rest)))))) := by
        simp [upairR, u1PairsTail]
      rw [e]
      simp only [parseInnerPairs, Option.bind_eq_bind]
      rw [parseStrLit_key k hk _]
      simp only [Option.some_bind]
      rw [skipWs_not_ws ':' _ (by decide), expectC_self]
      simp only [Option.some_bind]
      rw [skipWs_sp, skipWs_uvalR, parseStrLit_uval]
      simp only [Option.some_bind]
      rw [skipWs_not_ws ',' _ (by decide)]
      simp only [show ((',' : Char) = '}') = False from by simp,
        show ((',' : Char) = ',') = True from by simp, if_false, if_true]
      rw [skipWs_nl, skipWs_sp, skipWs_sp, skipWs_sp, skipWs_sp, skipWs_upairR,
        ih k2 v2 f rest (hb (k2, v2) (List.mem_cons_self _ _))
          (fun p hp => hb p (List.mem_cons_of_mem _ hp))
          (by simp only [List.length_cons] at hlen; omega)]
      simp

theorem RT_u1dict (b : Bundle) (hbne : b ≠ [])
    (hb : ∀ p ∈ b, ∀ c ∈ p.1, plainKeyC c = true) (fuel : Nat) (rest : LStr)
    (hlen : b.length ≤ fuel) :
    parseDict fuel (u1BundleNE b ++ rest) = some (b, rest) := by
  cases b with
  | nil => exact absurd rfl hbne
  | cons p b2 =>
    obtain ⟨k, v⟩ := p
    have hk : ∀ c ∈ k, plainKeyC c = true := hb (k, v) (List.mem_cons_self _ _)
    have e : u1BundleNE ((k, v) :: b2) ++ rest
        = '{' :: ('\n' :: (' ' :: ' ' :: ' ' :: ' ' ::
            (upairR k v ++ (u1PairsTail b2 ++ '\n' :: ' ' :: ' ' :: '}' :: rest)))) := by
      simp [u1BundleNE, u1Pairs]
    have e2 : upairR k v ++ (u1PairsTail b2 ++ '\n' :: ' ' :: ' ' :: '}' :: rest)
        = '\'' :: (k ++ '\'' :: ':' :: ' ' ::
            (uvalR v ++ (u1PairsTail b2 ++ '\n' :: ' ' :: ' ' :: '}' :: rest))) := by
      simp [upairR]
    rw [e]
    simp only [parseDict]
    rw [skipWs_not_ws '{' _ (by decide)]
    dsimp only
    rw [if_pos rfl]
    rw [skipWs_nl, skipWs_sp, skipWs_sp, skipWs_sp, skipWs_sp, skipWs_upairR, e2]
    dsimp only
    rw [if_neg (by decide)]
    rw [← e2]
    exact RT_u1pairs b2 k v fuel rest hk
      (fun p hp => hb p (List.mem_cons_of_mem _ hp))
      (by simp only [List.length_cons] at hlen; omega)

theorem RT_u1catPairs (cat : Catalog) : ∀ (loc : LStr) (b : Bundle) (fuel : Nat) (rest : LStr),
    (∀ c ∈ loc, plainLocC c = true) → b ≠ [] →
    (∀ p ∈ b, ∀ c ∈ p.1, plainKeyC c = true) →
    (∀ e ∈ cat, (∀ c ∈ e.1, plainLocC c = true) ∧ e.2 ≠ [] ∧
      ∀ p ∈ e.2, ∀ c ∈ p.1, plainKeyC c = true) →
    catCost cat + b.length + 1 ≤ fuel →
    parseCatPairs fuel ('"' :: (loc ++ '"' :: ':' :: ' ' ::
        (u1BundleNE b ++ (u1CatTail cat ++ '\n' :: '}' :: rest))))
      = some ((loc, b) :: cat, rest) := by
  induction cat with
  | nil =>
    intro loc b fuel rest hloc hbne hb _ hlen
    cases fuel with
    | zero => omega
    | succ f =>
      have hlocK : ∀ c ∈ loc, plainKeyC c = true :=
        fun c hc => plainLocC_imp_plainKeyC c (hloc c hc)
      simp only [parseCatPairs, Option.bind_eq_bind]
      rw [parseStrLit_dqplain loc hlocK _]
      simp only [Option.some_bind]
      rw [skipWs_not_ws ':' _ (by decide), expectC_self]
      simp only [Option.some_bind]
      rw [skipWs_sp,
        show skipWs (u1BundleNE b ++ (u1CatTail [] ++ '\n' :: '}' :: rest))
            = u1BundleNE b ++ (u1CatTail [] ++ '\n' :: '}' :: rest) from by
          rw [show u1BundleNE b ++ (u1CatTail [] ++ '\n' :: '}' :: rest)
              = '{' :: ('\n' :: u1Pairs b ++ '\n' :: ' ' :: ' ' :: '}' ::
                  (u1CatTail [] ++ '\n' :: '}' :: rest)) from by simp [u1BundleNE]]
          exact skipWs_not_ws '{' _ (by decide),
        RT_u1dict b hbne hb f _ (by omega)]
      simp only [Option.some_bind]
      have e3 : u1CatTail [] ++ '\n' :: '}' :: rest = '\n' :: '}' :: rest := by
        simp [u1CatTail]
      rw [e3, skipWs_nl, skipWs_not_ws '}' _ (by decide)]
      simp
  | cons e2 cat2 ih =>
    intro loc b fuel rest hloc hbne hb hcat hlen
    obtain ⟨loc2, b2⟩ := e2
    obtain ⟨hloc2, hbne2, hb2⟩ := hcat (loc2, b2) (List.mem_cons_self _ _)
    cases fuel with
    | zero => omega
    | succ f =>
      have hlocK : ∀ c ∈ loc, plainKeyC c = true :=
        fun c hc => plainLocC_imp_plainKeyC c (hloc c hc)
      have hcost : catCost ((loc2, b2) :: cat2) = b2.length + 1 + catCost cat2 := rfl
      simp only [parseCatPairs, Option.bind_eq_bind]
      rw [parseStrLit_dqplain loc hlocK _]
      simp only [Option.some_bind]
      rw [skipWs_not_ws ':' _ (by decide), expectC_self]
      simp only [Option.some_bind]
      rw [skipWs_sp,
        show skipWs (u1BundleNE b ++ (u1CatTail ((loc2, b2) :: cat2) ++ '\n' :: '}' :: rest))
            = u1BundleNE b ++ (u1CatTail ((loc2, b2) :: cat2) ++ '\n' :: '}' :: rest) from by
          rw [show u1BundleNE b ++ (u1CatTail ((loc2, b2) :: cat2) ++ '\n' :: '}' :: rest)
              = '{' :: ('\n' :: u1Pairs b ++ '\n' :: ' ' :: ' ' :: '}' ::
                  (u1CatTail ((loc2, b2) :: cat2) ++ '\n' :: '}' :: rest)) from by
            simp [u1BundleNE]]
          exact skipWs_not_ws '{' _ (by decide),
        RT_u1dict b hbne hb f _ (by rw [hcost] at hlen; omega)]
      simp only [Option.some_bind]
      have e3 : u1CatTail ((loc2, b2) :: cat2) ++ '\n' :: '}' :: rest
          = ',' :: '\n' :: ' ' :: ' ' ::
              ('"' :: (loc2 ++ '"' :: ':' :: ' ' ::
                (u1BundleNE b2 ++ (u1CatTail cat2 ++ '\n' :: '}' :: rest)))) := by
        simp [u1CatTail]
      rw [e3, skipWs_not_ws ',' _ (by decide)]
      simp only [show ((',' : Char) = '}') = False from by simp,
        show ((',' : Char) = ',') = True from by simp, if_false, if_true]
      rw [skipWs_nl, skipWs_sp, skipWs_sp, skipWs_not_ws '"' _ (by decide),
        ih loc2 b2 f rest hloc2 hbne2 hb2
          (fun e he => hcat e (List.mem_cons_of_mem _ he))
          (by rw [hcost] at hlen; omega)]
      simp

theorem len_u1PairsTail (b : Bundle) : b.length ≤ (u1PairsTail b).length := by
  induction b with
  | nil => simp [u1PairsTail]
  | cons p rest ih =>
    obtain ⟨k, v⟩ := p
    simp only [u1PairsTail, List.length_cons, List.length_append]
    omega

theorem len_u1Pairs (b : Bundle) : b.length ≤ (u1Pairs b).length := by
  cases b with
  | nil => simp [u1Pairs]
  | cons p rest =>
    obtain ⟨k, v⟩ := p
    have := len_u1PairsTail rest
    simp only [u1Pairs, List.length_cons, List.length_append]
    omega

theorem len_u1Bundle (b : Bundle) : b.length + 1 ≤ (u1BundleNE b).length := by
  have := len_u1Pairs b
  simp only [u1BundleNE, List.length_cons, List.length_append]
  omega

theorem len_u1CatTail (cat : Catalog) : catCost cat ≤ (u1CatTail cat).length := by
  induction cat with
  | nil => simp [u1CatTail, catCost]
  | cons e rest ih =>
    obtain ⟨loc, b⟩ := e
    have := len_u1Bundle b
    simp only [u1CatTail, catCost, List.length_cons, List.length_append]
    omega

theorem len_u1CatEntries (cat : Catalog) : catCost cat ≤ (u1CatEntries cat).length := by
  cases cat with
  | nil => simp [u1CatEntries, catCost]
  | cons e rest =>
    obtain ⟨loc, b⟩ := e
    have h1 := len_u1Bundle b
    have h2 := len_u1CatTail rest
    simp only [u1CatEntries, catCost, List.length_cons, List.length_append]
    omega

/-- The single-quoted rendering of a plain nonempty catalog is valid literal
syntax and evaluates back to the catalog. -/
theorem literalEval_u1 (cat : Catalog) (hcat : plainCat cat) (hne : cat ≠ []) :
    literalEvalCatalog (u1Render cat) = some cat := by
  cases cat with
  | nil => exact absurd rfl hne
  | cons e cat2 =>
    obtain ⟨loc, b⟩ := e
    obtain ⟨hloc, hbne, hb⟩ := hcat (loc, b) (List.mem_cons_self _ _)
    have e1 : u1Render ((loc, b) :: cat2)
        = '{' :: ('\n' :: (' ' :: ' ' ::
            ('"' :: (loc ++ '"' :: ':' :: ' ' ::
              (u1BundleNE b ++ (u1CatTail cat2 ++ '\n' :: '}' :: ([] : LStr))))))) := by
      simp [u1Render, u1CatEntries]
    have hfuel : catCost ((loc, b) :: cat2) ≤ (u1Render ((loc, b) :: cat2)).length + 1 := by
      have h1 := len_u1CatEntries ((loc, b) :: cat2)
      simp only [u1Render, List.length_cons, List.length_append] at h1 ⊢
      omega
    have hcost : catCost ((loc, b) :: cat2) = b.length + 1 + catCost cat2 := rfl
    unfold literalEvalCatalog
    simp only [parseCatalogTop]
    rw [e1, skipWs_not_ws '{' _ (by decide)]
    dsimp only
    rw [if_pos rfl]
    rw [skipWs_nl, skipWs_sp, skipWs_sp, skipWs_not_ws '"' _ (by decide)]
    dsimp only
    rw [if_neg (by decide)]
    rw [RT_u1catPairs cat2 loc b _ [] hloc hbne hb
      (fun e he => hcat e (List.mem_cons_of_mem _ he))
      (by rw [← e1]; rw [hcost] at hfuel; omega)]
    simp [skipWs]

theorem containsSub_at (pat s : LStr) (h : lhead_matches pat s = true) :
    containsSub pat s = true := by
  cases s with
  | nil =>
    cases pat with
    | nil => rfl
    | cons p ps => simp [lhead_matches] at h
  | cons c t => simp [containsSub, h]

theorem containsSub_parts (pat x y : LStr) : containsSub pat (x ++ (pat ++ y)) = true := by
  induction x with
  | nil => simpa using containsSub_at pat (pat ++ y) (lhead_matches_append_self pat y)
  | cons c t ih => simp [containsSub, ih]

theorem containsSub_append_right (pat x y : LStr) (h : containsSub pat y = true) :
    containsSub pat (x ++ y) = true := by
  induction x with
  | nil => simpa using h
  | cons c t ih => simp [containsSub, ih]

theorem lhead_matches_extend (pat : LStr) : ∀ (s y : LStr),
    lhead_matches pat s = true → lhead_matches pat (s ++ y) = true := by
  induction pat with
  | nil => intro s y _; rfl
  | cons p ps ih =>
    intro s y h
    cases s with
    | nil => simp [lhead_matches] at h
    | cons c cs =>
      simp only [lhead_matches, Bool.and_eq_true] at h
      simp only [List.cons_append, lhead_matches, Bool.and_eq_true]
      exact ⟨h.1, ih cs y h.2⟩

theorem containsSub_append_left (pat : LStr) : ∀ (x y : LStr),
    containsSub pat x = true → containsSub pat (x ++ y) = true := by
  intro x
  induction x with
  | nil =>
    intro y h
    have hp : pat = [] := by
      cases pat with
      | nil => rfl
      | cons p ps => simp [containsSub, lhead_matches] at h
    subst hp
    cases y with
    | nil => rfl
    | cons c t => simp [containsSub, lhead_matches]
  | cons c t ih =>
    intro y h
    simp only [containsSub, Bool.or_eq_true] at h
    rcases h with h | h
    · rw [List.cons_append]
      exact containsSub_at pat _ (by
        have := lhead_matches_extend pat (c :: t) y h
        simpa using this)
    · rw [List.cons_append]
      simp only [containsSub, Bool.or_eq_true]
      exact Or.inr (ih y h)

theorem valR_in_m1PairsTail (b : Bundle) (k v : LStr) (h : (k, v) ∈ b) :
    containsSub (valR v) (m1PairsTail b) = true := by
  induction b with
  | nil => simp at h
  | cons p rest ih =>
    rcases List.mem_cons.mp h with heq | hmem
    · subst heq
      have e : m1PairsTail ((k, v) :: rest)
          = (',' :: '\n' :: ' ' :: ' ' :: ' ' :: ' ' :: '\'' :: k ++ ['\'', ':', ' '])
            ++ (valR v ++ m1PairsTail rest) := by
        simp [m1PairsTail, pairR]
      rw [e]
      exact containsSub_parts _ _ _
    · obtain ⟨k2, v2⟩ := p
      have e : m1PairsTail ((k2, v2) :: rest)
          = (',' :: '\n' :: ' ' :: ' ' :: ' ' :: ' ' :: pairR k2 v2) ++ m1PairsTail rest := by
        simp [m1PairsTail]
      rw [e]
      exact containsSub_append_right _ _ _ (ih hmem)

theorem valR_in_m1Pairs (b : Bundle) (k v : LStr) (h : (k, v) ∈ b) :
    containsSub (valR v) (m1Pairs b) = true := by
  cases b with
  | nil => simp at h
  | cons p rest =>
    rcases List.mem_cons.mp h with heq | hmem
    · subst heq
      have e : m1Pairs ((k, v) :: rest)
          = (' ' :: ' ' :: ' ' :: ' ' :: '\'' :: k ++ ['\'', ':', ' '])
            ++ (valR v ++ m1PairsTail rest) := by
        simp [m1Pairs, pairR]
      rw [e]
      exact containsSub_parts _ _ _
    · obtain ⟨k2, v2⟩ := p
      have e : m1Pairs ((k2, v2) :: rest)
          = (' ' :: ' ' :: ' ' :: ' ' :: pairR k2 v2) ++ m1PairsTail rest := by
        simp [m1Pairs]
      rw [e]
      exact containsSub_append_right _ _ _ (valR_in_m1PairsTail rest k v hmem)

theorem valR_in_m1CatTail (cat : Catalog) (loc : LStr) (b : Bundle) (k v : LStr)
    (hmem : (loc, b) ∈ cat) (hp : (k, v) ∈ b) :
    containsSub (valR v) (m1CatTail cat) = true := by
  induction cat with
  | nil => simp at hmem
  | cons e rest ih =>
    rcases List.mem_cons.mp hmem with heq | hmem2
    · subst heq
      have e1 : m1CatTail ((loc, b) :: rest)
          = (',' :: '\n' :: ' ' :: ' ' :: '"' :: loc ++ ['"', ':', ' ', '{', '\n'])
            ++ (m1Pairs b ++ ('\n' :: ' ' :: ' ' :: '}' :: m1CatTail rest)) := by
        simp [m1CatTail, m1BundleNE]
      rw [e1]
      exact containsSub_append_right _ _ _
        (containsSub_append_left _ _ _ (valR_in_m1Pairs b k v hp))
    · obtain ⟨loc2, b2⟩ := e
      have e1 : m1CatTail ((loc2, b2) :: rest)
          = (',' :: '\n' :: ' ' :: ' ' :: '"' :: loc2 ++ '"' :: ':' :: ' ' :: m1BundleNE b2)
            ++ m1CatTail rest := by
        simp [m1CatTail]
      rw [e1]
      exact containsSub_append_right _ _ _ (ih hmem2)

theorem valR_in_m1Render (cat : Catalog) (loc : LStr) (b : Bundle) (k v : LStr)
    (hmem : (loc, b) ∈ cat) (hp : (k, v) ∈ b) :
    containsSub (valR v) (m1Render cat) = true := by
  cases cat with
  | nil => simp at hmem
  | cons e rest =>
    rcases List.mem_cons.mp hmem with heq | hmem2
    · subst heq
      have e1 : m1Render ((loc, b) :: rest)
          = ('{' :: '\n' :: ' ' :: ' ' :: '"' :: loc ++ ['"', ':', ' ', '{', '\n'])
            ++ (m1Pairs b ++ ('\n' :: ' ' :: ' ' :: '}' :: (m1CatTail rest ++ ['\n', '}']))) := by
        simp [m1Render, m1CatEntries, m1BundleNE]
      rw [e1]
      exact containsSub_append_right _ _ _
        (containsSub_append_left _ _ _ (valR_in_m1Pairs b k v hp))
    · obtain ⟨loc2, b2⟩ := e
      have e1 : m1Render ((loc2, b2) :: rest)
          = ('{' :: '\n' :: ' ' :: ' ' :: '"' :: loc2 ++ '"' :: ':' :: ' ' :: m1BundleNE b2)
            ++ (m1CatTail rest ++ ['\n', '}']) := by
        simp [m1Render, m1CatEntries]
      rw [e1]
      exact containsSub_append_right _ _ _
        (containsSub_append_left _ _ _ (valR_in_m1CatTail rest loc b k v hmem2 hp))

/-- C3 counterexample: the quote rewrite does not replace every double-quoted
object key. The top-level locale key `"de-de"` contains no apostrophe, yet it
is still double-quoted in the converted output (and its single-quoted form is
absent): the locale pattern `"(\w+_\w+)":` requires an underscore, while app
locale codes are hyphenated, and the pair pattern requires a string value,
while a locale key opens a nested object. -/
theorem c3_counterexample :
    '\'' ∉ "de-de".data ∧
    containsSub ('"' :: "de-de".data ++ ['"'])
      (convert_to_single_quotes (repD (jsonDumpsIndent
        [("de-de".data, [("hello".data, "Hallo".data)])]))) = true ∧
    containsSub ('\'' :: "de-de".data ++ ['\''])
      (convert_to_single_quotes (repD (jsonDumpsIndent
        [("de-de".data, [("hello".data, "Hallo".data)])]))) = false := by
  refine ⟨by decide, by decide, by decide⟩

/-- C3 amended: on the escaped serialization of a plain catalog (locale codes
over letters, digits and hyphens; nonempty bundles; keys over letters, digits,
space, hyphen, underscore; arbitrary values) the quote rewriter rewrites
exactly the inner `"key": "value"` pairs — single quotes unless the serialized
value body contains an apostrophe, separator normalized to `: ` — and leaves
every top-level locale key double-quoted. -/
theorem c3_amended (cat : Catalog) (hcat : plainCat cat) (hne : cat ≠ []) :
    convert_to_single_quotes (repD (jsonDumpsIndent cat)) = m1Render cat :=
  convert_plain cat hcat hne

/-- C3 amended, witness: the concrete two-entry catalog evaluates as the
amended statement says. -/
theorem c3_amended_witness :
    plainCat [("de-de".data, [("hello".data, "Hallo".data)])] ∧
    [("de-de".data, [("hello".data, "Hallo".data)])] ≠ ([] : Catalog) ∧
    convert_to_single_quotes (repD (jsonDumpsIndent
        [("de-de".data, [("hello".data, "Hallo".data)])]))
      = m1Render [("de-de".data, [("hello".data, "Hallo".data)])] :=
  ⟨by unfold plainCat; decide, by decide,
    c3_amended _ (by unfold plainCat; decide) (by decide)⟩

/-- C5: quote-rewrite safety for apostrophe-carrying values, on plain
catalogs. A value containing an apostrophe keeps its double-quoted serialized
form in the converted output, and the converted output as a whole is valid
literal syntax that evaluates (after undoing the sigil escape, as the reverse
converter does) back to the original catalog — in particular that value
decodes to the original string unchanged. -/
theorem c5_quote_safety (cat : Catalog) (hcat : plainCat cat) (hne : cat ≠ [])
    (loc k v : LStr) (b : Bundle) (hmem : (loc, b) ∈ cat) (hp : (k, v) ∈ b)
    (hapos : '\'' ∈ v) :
    containsSub ('"' :: bodyOf v ++ ['"'])
      (convert_to_single_quotes (repD (jsonDumpsIndent cat))) = true ∧
    literalEvalCatalog (repDS (convert_to_single_quotes (repD (jsonDumpsIndent cat))))
      = some cat := by
  have hval : valR v = '"' :: bodyOf v ++ ['"'] := by
    unfold valR
    rw [if_pos (by simpa using (apos_mem_bodyOf v).mpr hapos)]
  constructor
  · rw [convert_plain cat hcat hne, ← hval]
    exact valR_in_m1Render cat loc b k v hmem hp
  · rw [convert_plain cat hcat hne, ← repD_u1Render cat hcat, repDS_repD]
    exact literalEval_u1 cat hcat hne

/-- C5 witness: a concrete catalog whose value carries an apostrophe. -/
theorem c5_quote_safety_witness :
    plainCat [("fr-fr".data, [("water".data, "l'eau".data)])] ∧
    [("fr-fr".data, [("water".data, "l'eau".data)])] ≠ ([] : Catalog) ∧
    ("fr-fr".data, [("water".data, "l'eau".data)])
      ∈ [("fr-fr".data, [("water".data, "l'eau".data)])] ∧
    ("water".data, "l'eau".data) ∈ [("water".data, "l'eau".data)] ∧
    '\'' ∈ "l'eau".data ∧
    (containsSub ('"' :: bodyOf "l'eau".data ++ ['"'])
      (convert_to_single_quotes (repD (jsonDumpsIndent
        [("fr-fr".data, [("water".data, "l'eau".data)])]))) = true ∧
    literalEvalCatalog (repDS (convert_to_single_quotes (repD (jsonDumpsIndent
        [("fr-fr".data, [("water".data, "l'eau".data)])]))))
      = some [("fr-fr".data, [("water".data, "l'eau".data)])]) :=
  ⟨by unfold plainCat; decide, by decide, by decide, by decide, by decide,
    c5_quote_safety _ (by unfold plainCat; decide) (by decide)
      "fr-fr".data "water".data "l'eau".data [("water".data, "l'eau".data)]
      (by decide) (by decide) (by decide)⟩

theorem matchStrBody_sound : ∀ (s : LStr), ∀ b r, matchStrBody s = some (b, r) →
    s = b ++ '"' :: r := by
  intro s
  induction s using matchStrBody.induct with
  | case1 =>
    intro b r h
    rw [matchStrBody.eq_def] at h
    cases h
  | case2 t =>
    intro b r h
    rw [matchStrBody.eq_def] at h
    simp at h
    simp [← h.1, ← h.2]
  | case3 hne =>
    intro b r h
    rw [matchStrBody.eq_def] at h
    simp at h
  | case4 r2 hne =>
    intro b r h
    rw [matchStrBody.eq_def] at h
    simp at h
  | case5 e r2 hen hne ih =>
    intro b r h
    rw [matchStrBody.eq_def] at h
    simp only [if_neg (show ¬ ('\\' : Char) = '"' from by decide), if_pos rfl] at h
    rw [if_neg hen] at h
    cases hm : matchStrBody r2 with
    | none => rw [hm] at h; cases h
    | some p =>
      rw [hm] at h
      obtain ⟨b2, r2'⟩ := p
      simp at h
      obtain ⟨hb, hr⟩ := h
      subst hr
      have h2 := ih b2 r2' hm
      rw [← hb]
      simp [h2]
  | case6 c t h1 h2 ih =>
    intro b r h
    rw [matchStrBody.eq_def] at h
    simp only [if_neg h1, if_neg h2] at h
    cases hm : matchStrBody t with
    | none => rw [hm] at h; cases h
    | some p =>
      rw [hm] at h
      obtain ⟨b2, r2'⟩ := p
      simp at h
      obtain ⟨hb, hr⟩ := h
      subst hr
      have h2 := ih b2 r2' hm
      rw [← hb]
      simp [h2]

theorem skipWs_sound (s : LStr) : ∃ w, s = w ++ skipWs s ∧ ∀ c ∈ w, isWsC c = true := by
  induction s with
  | nil => exact ⟨[], rfl, by simp⟩
  | cons c t ih =>
    by_cases h : isWsC c = true
    · obtain ⟨w, hw, hwall⟩ := ih
      refine ⟨c :: w, ?_, ?_⟩
      · rw [skipWs, if_pos h, List.cons_append, ← hw]
      · intro d hd
        rcases List.mem_cons.mp hd with rfl | hd
        · exact h
        · exact hwall d hd
    · refine ⟨[], ?_, by simp⟩
      simp [skipWs, h]

theorem trySub1At_sound (s rep r : LStr) (h : trySub1At s = some (rep, r)) :
    ∃ k w v, s = '"' :: (k ++ '"' :: ':' :: (w ++ '"' :: (v ++ '"' :: r))) ∧
      rep = replacePair k v ∧ (∀ c ∈ w, isWsC c = true) := by
  unfold trySub1At at h
  split at h
  next => exact Option.noConfusion h
  next c r0 =>
    by_cases hc : c = '"'
    case neg => rw [if_neg hc] at h; exact Option.noConfusion h
    case pos =>
      rw [if_pos hc] at h
      subst hc
      split at h
      next => exact Option.noConfusion h
      next k r1 hm1 =>
        split at h
        next => exact Option.noConfusion h
        next c1 r2 =>
          by_cases hc1 : c1 = ':'
          case neg => rw [if_neg hc1] at h; exact Option.noConfusion h
          case pos =>
            rw [if_pos hc1] at h
            subst hc1
            split at h
            next => exact Option.noConfusion h
            next c2 r3 hsw =>
              by_cases hc2 : c2 = '"'
              case neg => rw [if_neg hc2] at h; exact Option.noConfusion h
              case pos =>
                rw [if_pos hc2] at h
                subst hc2
                split at h
                next => exact Option.noConfusion h
                next v r4 hm2 =>
                  injection h with h'
                  injection h' with hb hr
                  subst hr
                  obtain ⟨w, hw, hwall⟩ := skipWs_sound r2
                  rw [hsw] at hw
                  refine ⟨k, w, v, ?_, hb.symm, hwall⟩
                  rw [matchStrBody_sound r0 k _ hm1, hw, matchStrBody_sound r3 v _ hm2]

theorem trySub2At_sound (s rep r : LStr) (h : trySub2At s = some (rep, r)) :
    ∃ loc w, s = '"' :: (loc ++ '"' :: ':' :: (w ++ '{' :: r)) ∧
      rep = '\'' :: loc ++ '\'' :: ':' :: ' ' :: ['{'] ∧
      (∀ c ∈ loc, isWordC c = true) ∧ (∀ c ∈ w, isWsC c = true) := by
  unfold trySub2At at h
  split at h
  next => exact Option.noConfusion h
  next c r0 =>
    by_cases hc : c = '"'
    case neg => rw [if_neg hc] at h; exact Option.noConfusion h
    case pos =>
      rw [if_pos hc] at h
      subst hc
      split at h
      next => exact Option.noConfusion h
      next c1 r1 hdw =>
        by_cases hcm : c1 = '"' ∧ midUnderscore (r0.takeWhile isWordC) = true
        case neg => rw [if_neg hcm] at h; exact Option.noConfusion h
        case pos =>
          rw [if_pos hcm] at h
          split at h
          next => exact Option.noConfusion h
          next c2 r2 =>
            by_cases hc2 : c2 = ':'
            case neg => rw [if_neg hc2] at h; exact Option.noConfusion h
            case pos =>
              rw [if_pos hc2] at h
              subst hc2
              split at h
              next => exact Option.noConfusion h
              next c3 r3 hsw =>
                by_cases hc3 : c3 = '{'
                case neg => rw [if_neg hc3] at h; exact Option.noConfusion h
                case pos =>
                  rw [if_pos hc3] at h
                  subst hc3
                  injection h with h'
                  injection h' with hb hr
                  subst hr
                  obtain ⟨w, hw, hwall⟩ := skipWs_sound r2
                  rw [hsw] at hw
                  have h0 : r0 = List.takeWhile isWordC r0 ++ '"' :: ':' :: (w ++ '{' :: r3) := by
                    have hsplit := (@List.takeWhile_append_dropWhile Char isWordC r0).symm
                    rw [hdw, hcm.1, hw] at hsplit
                    exact hsplit
                  refine ⟨r0.takeWhile isWordC, w, ?_, hb.symm, ?_, hwall⟩
                  · conv_lhs => rw [h0]
                  · intro d hd
                    exact List.mem_takeWhile_imp hd

theorem dE_of_dEx_false (s : LStr) (h : dEx false s) : dE s := by
  intro a b hab
  rcases h a b hab with ⟨_, hf⟩ | hr
  · exact Bool.noConfusion hf
  · exact hr

theorem dEx_of_dE (bs : Bool) (s : LStr) (h : dE s) : dEx bs s :=
  fun a b hab => Or.inr (h a b hab)

theorem dE_nil : dE [] := by
  intro a b h
  exact absurd h.symm (by simp)

theorem dE_single (c : Char) (hc : c ≠ '$') : dE [c] := by
  intro a b h
  cases a with
  | nil =>
    simp only [List.nil_append] at h
    injection h with h1 _
    exact absurd h1 hc
  | cons a0 a2 =>
    rw [List.cons_append] at h
    injection h with _ h2
    exact absurd h2.symm (by simp)

theorem dE_head_ne (c : Char) (t : LStr) (h : dE (c :: t)) : c ≠ '$' := by
  intro hc
  obtain ⟨a2, ha⟩ := h [] t (by rw [hc]; rfl)
  exact absurd ha.symm (by simp)

theorem dE_prefix (x y : LStr) (h : dE (x ++ y)) : dE x := by
  intro a b hx
  obtain ⟨a2, ha⟩ := h a (b ++ y) (by rw [hx]; simp)
  exact ⟨a2, ha⟩

theorem dE_append (x y : LStr) (hx : dE x) (hy : dE y) (hhead : ∀ t, y ≠ '$' :: t) :
    dE (x ++ y) := by
  intro a b hab
  rcases List.append_eq_append_iff.mp hab with ⟨a', ha, hy'⟩ | ⟨c', hx', hd⟩
  · cases a' with
    | nil => exact absurd (by simpa using hy') (hhead b)
    | cons a0 a2 =>
      obtain ⟨a3, ha3⟩ := hy (a0 :: a2) b hy'
      exact ⟨x ++ a3, by rw [ha, ha3]; simp⟩
  · cases c' with
    | nil =>
      rw [List.nil_append] at hd
      exact absurd hd.symm (hhead b)
    | cons c0 c2 =>
      injection hd with h1 h2
      subst h1
      exact hx a c2 hx'

theorem dE_of_no_dollar (x : LStr) (h : '$' ∉ x) : dE x := by
  intro a b hab
  exfalso
  apply h
  rw [hab]
  simp

theorem ne_dollar_head_after (x y : LStr) (d : Char) (hd : d ≠ '\\')
    (h : dE (x ++ d :: y)) : ∀ t, y ≠ '$' :: t := by
  intro t ht
  subst ht
  obtain ⟨a2, ha⟩ := h (x ++ [d]) t (by simp)
  obtain ⟨-, h2⟩ := List.append_inj' ha (by rfl)
  injection h2 with h3 _
  exact hd h3

theorem dE_suffix_of (x y : LStr) (h : dE (x ++ y)) (hhead : ∀ t, y ≠ '$' :: t) :
    dE y := by
  intro a b hab
  cases a with
  | nil => exact absurd (by simpa using hab) (hhead b)
  | cons a0 a2 =>
    obtain ⟨a3, ha3⟩ := h (x ++ a0 :: a2) b (by rw [hab]; simp)
    rcases List.eq_nil_or_concat (a0 :: a2) with hnil | ⟨l2, cl, hconcat⟩
    · exact absurd hnil (by simp)
    · rw [List.concat_eq_append] at hconcat
      rw [hconcat] at ha3 ⊢
      rw [← List.append_assoc] at ha3
      obtain ⟨-, h2⟩ := List.append_inj' ha3 (by rfl)
      injection h2 with h3 _
      subst h3
      exact ⟨l2, rfl⟩

theorem dE_drop2 (x y : LStr) (d : Char) (hd : d ≠ '\\') (h : dE (x ++ d :: y)) :
    dE y := by
  have h2 : dE ((x ++ [d]) ++ y) := by
    rw [List.append_assoc]
    simpa using h
  exact dE_suffix_of _ _ h2 (ne_dollar_head_after x y d hd h)

/-- The sigil escape establishes the invariant. -/
theorem repD_dE (s : LStr) : dE (repD s) := by
  induction s with
  | nil => exact dE_nil
  | cons c t ih =>
    by_cases hc : c = '$'
    · subst hc
      rw [show repD ('$' :: t) = '\\' :: '$' :: repD t from by simp [repD]]
      intro a b hab
      rcases a with _ | ⟨a0, _ | ⟨a1, a2⟩⟩
      · rw [List.nil_append] at hab
        injection hab with h1 _
        exact absurd h1 (by decide)
      · simp only [List.cons_append, List.nil_append] at hab
        injection hab with h1 h2
        exact ⟨[], by rw [← h1]; rfl⟩
      · simp only [List.cons_append] at hab
        injection hab with h1 h2
        injection h2 with h3 h4
        obtain ⟨a3, ha3⟩ := ih a2 b h4
        exact ⟨a0 :: a1 :: a3, by rw [ha3]; simp⟩
    · rw [repD_cons_plain c t hc]
      intro a b hab
      cases a with
      | nil =>
        rw [List.nil_append] at hab
        injection hab with h1 _
        exact absurd h1 hc
      | cons a0 a2 =>
        rw [List.cons_append] at hab
        injection hab with h1 h2
        obtain ⟨a3, ha3⟩ := ih a2 b h2
        exact ⟨a0 :: a3, by rw [ha3]; rfl⟩

theorem dE_quoted (Q : Char) (hQ : Q ≠ '$') (k : LStr) (hk : dE k)
    (hk0 : ∀ t, k ≠ '$' :: t) : dE (Q :: k ++ [Q]) := by
  have h1 : dE ([Q] ++ k) := dE_append [Q] k (dE_single Q hQ) hk hk0
  have h2 : dE (([Q] ++ k) ++ [Q]) :=
    dE_append _ _ h1 (dE_single Q hQ)
      (fun t ht => by injection ht with h3 _; exact hQ h3)
  simpa using h2

theorem dE_replacePair (k v : LStr) (hkE : dE k) (hk0 : ∀ t, k ≠ '$' :: t)
    (hvE : dE v) (hv0 : ∀ t, v ≠ '$' :: t) : dE (replacePair k v) := by
  have hK : dE (if k.contains '\'' then '"' :: k ++ ['"'] else '\'' :: k ++ ['\'']) := by
    by_cases h : k.contains '\'' = true
    · rw [if_pos h]; exact dE_quoted '"' (by decide) k hkE hk0
    · rw [if_neg h]; exact dE_quoted '\'' (by decide) k hkE hk0
  have hV : dE (if v.contains '\'' then '"' :: v ++ ['"'] else '\'' :: v ++ ['\'']) := by
    by_cases h : v.contains '\'' = true
    · rw [if_pos h]; exact dE_quoted '"' (by decide) v hvE hv0
    · rw [if_neg h]; exact dE_quoted '\'' (by decide) v hvE hv0
  have hVhead : ∀ t,
      (if v.contains '\'' then '"' :: v ++ ['"'] else '\'' :: v ++ ['\'']) ≠ '$' :: t := by
    intro t
    by_cases h : v.contains '\'' = true
    · rw [if_pos h]; intro ht; injection ht with h1 _; exact absurd h1 (by decide)
    · rw [if_neg h]; intro ht; injection ht with h1 _; exact absurd h1 (by decide)
  have hTail : dE (':' :: ' ' ::
      (if v.contains '\'' then '"' :: v ++ ['"'] else '\'' :: v ++ ['\''])) := by
    have h2 := dE_append [':', ' '] _ (dE_of_no_dollar _ (by decide)) hV hVhead
    simpa using h2
  unfold replacePair
  exact dE_append _ _ hK hTail
    (fun t ht => by injection ht with h1 _; exact absurd h1 (by decide))

theorem replacePair_head (k v : LStr) :
    ∃ c0 t0, replacePair k v = c0 :: t0 ∧ c0 ≠ '$' := by
  unfold replacePair
  by_cases h : k.contains '\'' = true
  · rw [if_pos h]
    exact ⟨'"', (k ++ ['"']) ++ (':' :: ' ' ::
      (if v.contains '\'' then '"' :: v ++ ['"'] else '\'' :: v ++ ['\''])),
      by simp, by decide⟩
  · rw [if_neg h]
    exact ⟨'\'', (k ++ ['\'']) ++ (':' :: ' ' ::
      (if v.contains '\'' then '"' :: v ++ ['"'] else '\'' :: v ++ ['\''])),
      by simp, by decide⟩

theorem trySub1At_dE (s rep r : LStr) (hde : dE s) (h : trySub1At s = some (rep, r)) :
    dE rep ∧ dE r ∧ (∀ t, r ≠ '$' :: t) ∧ ∃ c0 t0, rep = c0 :: t0 ∧ c0 ≠ '$' := by
  obtain ⟨k, w, v, hs, hrep, hwall⟩ := trySub1At_sound s rep r h
  subst hs
  have h1 : dE (k ++ '"' :: ':' :: (w ++ '"' :: (v ++ '"' :: r))) :=
    dE_drop2 [] _ '"' (by decide) hde
  have hk0 : ∀ t, k ≠ '$' :: t := by
    intro t ht
    subst ht
    obtain ⟨a2, ha⟩ := h1 [] (t ++ '"' :: ':' :: (w ++ '"' :: (v ++ '"' :: r))) (by simp)
    exact absurd ha.symm (by simp)
  have hkE : dE k := dE_prefix k _ h1
  have hde2 : dE (('"' :: k ++ '"' :: ':' :: w) ++ '"' :: (v ++ '"' :: r)) := by
    have e : ('"' :: (k ++ '"' :: ':' :: (w ++ '"' :: (v ++ '"' :: r))) : LStr)
        = ('"' :: k ++ '"' :: ':' :: w) ++ '"' :: (v ++ '"' :: r) := by simp
    rw [← e]
    exact hde
  have h2 : dE (v ++ '"' :: r) := dE_drop2 _ _ '"' (by decide) hde2
  have hv0 : ∀ t, v ≠ '$' :: t := by
    intro t ht
    subst ht
    obtain ⟨a2, ha⟩ := h2 [] (t ++ '"' :: r) (by simp)
    exact absurd ha.symm (by simp)
  have hvE : dE v := dE_prefix v _ h2
  have hrE : dE r := dE_drop2 v r '"' (by decide) h2
  have hr0 : ∀ t, r ≠ '$' :: t := ne_dollar_head_after v r '"' (by decide) h2
  subst hrep
  exact ⟨dE_replacePair k v hkE hk0 hvE hv0, hrE, hr0, replacePair_head k v⟩

theorem trySub2At_dE (s rep r : LStr) (hde : dE s) (h : trySub2At s = some (rep, r)) :
    dE rep ∧ dE r ∧ (∀ t, r ≠ '$' :: t) ∧ ∃ c0 t0, rep = c0 :: t0 ∧ c0 ≠ '$' := by
  obtain ⟨loc, w, hs, hrep, hword, hwall⟩ := trySub2At_sound s rep r h
  subst hs
  subst hrep
  have hde2 : dE (('"' :: loc ++ '"' :: ':' :: w) ++ '{' :: r) := by
    have e : ('"' :: (loc ++ '"' :: ':' :: (w ++ '{' :: r)) : LStr)
        = ('"' :: loc ++ '"' :: ':' :: w) ++ '{' :: r := by simp
    rw [← e]
    exact hde
  have hrE : dE r := dE_drop2 _ _ '{' (by decide) hde2
  have hr0 : ∀ t, r ≠ '$' :: t := ne_dollar_head_after _ _ '{' (by decide) hde2
  refine ⟨dE_of_no_dollar _ ?_, hrE, hr0, '\'', loc ++ ['\'', ':', ' ', '{'], rfl, by decide⟩
  intro hm
  rcases List.mem_cons.mp hm with h1 | hm2
  · exact absurd h1 (by decide)
  · rcases List.mem_append.mp hm2 with h2 | h3
    · exact absurd (hword '$' h2) (by decide)
    · exact absurd h3 (by decide)

/-- The scan preserves the dollar-escape invariant: the pattern fires only at
quotes, its replacement re-emits the matched groups with their in-group
predecessors intact, and the text between matches is copied with its
predecessors intact. -/
theorem reSubF_dEx (tryAt : LStr → Option (LStr × LStr))
    (hq : ∀ (c : Char) (z : LStr), c ≠ '"' → tryAt (c :: z) = none)
    (hstep : ∀ s rep r, dE s → tryAt s = some (rep, r) →
      dE rep ∧ dE r ∧ (∀ t, r ≠ '$' :: t) ∧ ∃ c0 t0, rep = c0 :: t0 ∧ c0 ≠ '$') :
    ∀ (fuel : Nat) (bs : Bool) (s : LStr), dEx bs s → dEx bs (reSubF tryAt fuel s) := by
  intro fuel
  induction fuel with
  | zero => intro bs s h; exact h
  | succ f ih =>
    intro bs s h
    cases s with
    | nil =>
      simp only [reSubF]
      intro a b hab
      exact absurd hab.symm (by simp)
    | cons c rest =>
      simp only [reSubF]
      cases ht : tryAt (c :: rest) with
      | none =>
        dsimp only
        by_cases hcd : c = '$'
        · subst hcd
          have hbs : bs = true := by
            rcases h [] rest rfl with ⟨_, hb⟩ | ⟨a2, ha⟩
            · exact hb
            · exact absurd ha.symm (by simp)
          have hrest : dEx false rest := by
            intro a b hab
            rcases h ('$' :: a) b (by rw [hab]; rfl) with ⟨hcontra, _⟩ | ⟨a2, ha⟩
            · exact absurd hcontra (by simp)
            · rcases List.eq_nil_or_concat a with hnil | ⟨l2, cl, hconcat⟩
              · subst hnil
                have ha2 : ([] : LStr) ++ ['$'] = a2 ++ ['\\'] := by simpa using ha
                obtain ⟨-, h2⟩ := List.append_inj' ha2 (by rfl)
                exact absurd h2 (by simp)
              · rw [List.concat_eq_append] at hconcat
                subst hconcat
                rw [show ('$' :: (l2 ++ [cl]) : LStr) = ('$' :: l2) ++ [cl] from by simp] at ha
                obtain ⟨-, h2⟩ := List.append_inj' ha (by rfl)
                injection h2 with h3 _
                subst h3
                exact Or.inr ⟨l2, rfl⟩
          have hout := ih false rest hrest
          intro a b hab
          cases a with
          | nil => exact Or.inl ⟨rfl, hbs⟩
          | cons a0 a2 =>
            injection hab with h1 h2
            rcases hout a2 b h2 with ⟨_, hff⟩ | ⟨a3, ha3⟩
            · exact Bool.noConfusion hff
            · exact Or.inr ⟨a0 :: a3, by rw [ha3]; rfl⟩
        · by_cases hbc : c = '\\'
          · subst hbc
            have hrest : dEx true rest := by
              intro a b hab
              cases a with
              | nil => exact Or.inl ⟨rfl, rfl⟩
              | cons a0 a2 =>
                rcases h ('\\' :: a0 :: a2) b (by rw [hab]; rfl) with ⟨hcontra, _⟩ | ⟨a3, ha3⟩
                · exact absurd hcontra (by simp)
                · rcases List.eq_nil_or_concat (a0 :: a2) with hnil | ⟨l2, cl, hconcat⟩
                  · exact absurd hnil (by simp)
                  · rw [List.concat_eq_append] at hconcat
                    rw [hconcat,
                      show ('\\' :: (l2 ++ [cl]) : LStr) = ('\\' :: l2) ++ [cl] from by simp]
                      at ha3
                    obtain ⟨-, h2⟩ := List.append_inj' ha3 (by rfl)
                    injection h2 with h3 _
                    rw [hconcat, h3]
                    exact Or.inr ⟨l2, rfl⟩
            have hout := ih true rest hrest
            intro a b hab
            cases a with
            | nil =>
              injection hab with h1 _
              exact absurd h1 (by decide)
            | cons a0 a2 =>
              injection hab with h1 h2
              rcases hout a2 b h2 with ⟨hnil, _⟩ | ⟨a3, ha3⟩
              · subst hnil
                subst h1
                exact Or.inr ⟨[], rfl⟩
              · exact Or.inr ⟨a0 :: a3, by rw [ha3]; rfl⟩
          · have hrest : dEx false rest := by
              intro a b hab
              rcases h (c :: a) b (by rw [hab]; rfl) with ⟨hcontra, _⟩ | ⟨a3, ha3⟩
              · exact absurd hcontra (by simp)
              · rcases List.eq_nil_or_concat a with hnil | ⟨l2, cl, hconcat⟩
                · subst hnil
                  have ha4 : ([] : LStr) ++ [c] = a3 ++ ['\\'] := by simpa using ha3
                  obtain ⟨-, h2⟩ := List.append_inj' ha4 (by rfl)
                  injection h2 with h3 _
                  exact absurd h3 hbc
                · rw [List.concat_eq_append] at hconcat
                  subst hconcat
                  rw [show (c :: (l2 ++ [cl]) : LStr) = (c :: l2) ++ [cl] from by simp] at ha3
                  obtain ⟨-, h2⟩ := List.append_inj' ha3 (by rfl)
                  injection h2 with h3 _
                  subst h3
                  exact Or.inr ⟨l2, rfl⟩
            have hout := ih false rest hrest
            intro a b hab
            cases a with
            | nil =>
              injection hab with h1 _
              exact absurd h1 hcd
            | cons a0 a2 =>
              injection hab with h1 h2
              rcases hout a2 b h2 with ⟨_, hff⟩ | ⟨a3, ha3⟩
              · exact Bool.noConfusion hff
              · exact Or.inr ⟨a0 :: a3, by rw [ha3]; rfl⟩
      | some p =>
        obtain ⟨rep, r⟩ := p
        dsimp only
        have hc : c = '"' := by
          by_cases hc : c = '"'
          · exact hc
          · rw [hq c rest hc] at ht
            exact Option.noConfusion ht
        subst hc
        have hdes : dE ('"' :: rest) := by
          intro a b hab
          rcases h a b hab with ⟨hnil, _⟩ | hr
          · exfalso
            subst hnil
            rw [List.nil_append] at hab
            injection hab with h1 _
            exact absurd h1 (by decide)
          · exact hr
        obtain ⟨hrepE, hrE, hr0, c0, t0, hrep0, hc0⟩ := hstep _ _ _ hdes ht
        have hout := ih false r (dEx_of_dE false r hrE)
        have houtE : dE (reSubF tryAt f r) := dE_of_dEx_false _ hout
        have hohead : ∀ t, reSubF tryAt f r ≠ '$' :: t := by
          intro t hteq
          have hd := dE_head_ne '$' t (hteq ▸ houtE)
          exact hd rfl
        exact dEx_of_dE bs _ (dE_append _ _ hrepE houtE hohead)

/-- The quote rewriter preserves the dollar-escape invariant on every input. -/
theorem convert_dE (s : LStr) (h : dE s) : dE (convert_to_single_quotes s) := by
  rw [convert_eq_RS]
  unfold RS
  have h1 := reSubF_dEx trySub1At trySub1At_nonquote trySub1At_dE s.length false s
    (dEx_of_dE false s h)
  have h2 := reSubF_dEx trySub2At trySub2At_nonquote trySub2At_dE
    (reSubF trySub1At s.length s).length false _ h1
  exact dE_of_dEx_false _ h2

/-- C6: each forward converter writes exactly one assignment
`const crowdin = <literal>;` where `<literal>` is the serialized aggregate
catalog (dollar-escaped; additionally quote-rewritten for
`crowdin_to_dart.py`), and in the literal every occurrence of the sigil `$`
is immediately preceded by a backslash — for `crowdin_to_dart.py` this holds
for every input archive because the quote rewriter preserves the invariant
established by the escape. -/
theorem c6_output_shape (archive : Archive) :
    (∀ out, crowdinAggregate archive = some out →
      crowdinContent out = startMarker ++ (repD (jsonDumpsCompact out) ++ [';']) ∧
      dE (repD (jsonDumpsCompact out))) ∧
    (ctdContent archive = startMarker ++
        (convert_to_single_quotes (repD (jsonDumpsIndent (ctdAggregate archive))) ++ [';']) ∧
      dE (convert_to_single_quotes (repD (jsonDumpsIndent (ctdAggregate archive))))) := by
  refine ⟨fun out _ => ⟨?_, repD_dE _⟩, ?_, convert_dE _ (repD_dE _)⟩
  · simp [crowdinContent]
  · simp [ctdContent]

/-- C6 witness: a concrete archive with a sigil-carrying value. -/
theorem c6_output_shape_witness :
    ctdContent [("de/saturn.json", [("hello".data, "Ha$llo".data)])] = startMarker ++
        (convert_to_single_quotes (repD (jsonDumpsIndent
          (ctdAggregate [("de/saturn.json", [("hello".data, "Ha$llo".data)])]))) ++ [';']) ∧
      dE (convert_to_single_quotes (repD (jsonDumpsIndent
          (ctdAggregate [("de/saturn.json", [("hello".data, "Ha$llo".data)])])))) :=
  (c6_output_shape [("de/saturn.json", [("hello".data, "Ha$llo".data)])]).2

/-- C7 witness: on the generated file of a concrete one-locale catalog, the
reverse converter emits the locale's directory, the serialized bundle write,
the zip and the delete. -/
theorem c7_reverse_output_witness :
    catEffects [("de-de".data, [("a".data, "b".data)])] ++ finalEffects
      = catEffects [("de-de".data, [("a".data, "b".data)])] ++ finalEffects ∧
    FsEffect.write ("./saturn/".data ++ "de-de".data ++ "/saturn.json".data)
        (jsonDumpsBundleTop [("a".data, "b".data)])
      ∈ catEffects [("de-de".data, [("a".data, "b".data)])] ++ finalEffects :=
  ⟨(c7_reverse_output (crowdinContent [("de-de".data, [("a".data, "b".data)])])
      [("de-de".data, [("a".data, "b".data)])]
      (catEffects [("de-de".data, [("a".data, "b".data)])] ++ finalEffects)
      (process_crowdinContent _)).1,
   ((c7_reverse_output (crowdinContent [("de-de".data, [("a".data, "b".data)])])
      [("de-de".data, [("a".data, "b".data)])]
      (catEffects [("de-de".data, [("a".data, "b".data)])] ++ finalEffects)
      (process_crowdinContent _)).2.1 "de-de".data [("a".data, "b".data)]
      (by decide)).2⟩

/-- C8 witness: the three failure modes on concrete inputs — no start marker,
no end marker, unparseable extract. -/
theorem c8_reverse_fails_witness :
    (containsSub startMarker "hello".data = false ∧
      process_dart_file "hello".data = ([], none)) ∧
    (containsSub endMarker "const crowdin = \x7b".data = false ∧
      process_dart_file "const crowdin = \x7b".data = ([], none)) ∧
    (strIndex startMarker "const crowdin = x\x7d;".data = some 0 ∧
      strRIndex endMarker "const crowdin = x\x7d;".data = some 17 ∧
      literalEvalCatalog (repDS (pySlice "const crowdin = x\x7d;".data
        (0 + startMarker.length) (17 + 1))) = none ∧
      process_dart_file "const crowdin = x\x7d;".data = ([], none)) :=
  ⟨⟨by decide, (c8_reverse_fails "hello".data).1 (by decide)⟩,
   ⟨by decide, (c8_reverse_fails "const crowdin = \x7b".data).2.1 (by decide)⟩,
   by decide, by decide, by decide,
   (c8_reverse_fails "const crowdin = x\x7d;".data).2.2 0 17
     (by decide) (by decide) (by decide)⟩

/-- C9 witness: two storage orders of the same two-entry archive produce the
same generated file. -/
theorem c9_determinism_witness :
    ([("b/saturn.json", ([] : Bundle)), ("a/saturn.json", [])] : Archive).Perm
        [("a/saturn.json", []), ("b/saturn.json", [])] ∧
    (([("b/saturn.json", ([] : Bundle)), ("a/saturn.json", [])] : Archive).map
        Prod.fst).Nodup ∧
    ctdContent [("b/saturn.json", []), ("a/saturn.json", [])]
      = ctdContent [("a/saturn.json", []), ("b/saturn.json", [])] :=
  ⟨List.Perm.swap _ _ _, by decide,
   c9_determinism _ _ (List.Perm.swap _ _ _) (by decide)⟩

/-- C10 witness: a markerless input aborts with an empty effect trace. -/
theorem c10_parse_atomicity_witness :
    (process_dart_file "hello".data).2 = none ∧
    (process_dart_file "hello".data).1 = [] :=
  ⟨by decide, c10_parse_atomicity "hello".data (by decide)⟩

/-- C2 amended, witness: a concrete unmapped-locale archive is silently
dropped by `crowdin_to_dart.py` and aborts `crowdin.py`. -/
theorem c2_amended_witness :
    ctdAggregate [("xx/saturn.json", [("k".data, "v".data)])] = [] ∧
    crowdinAggregate [("xx/saturn.json", [("k".data, "v".data)])] = none :=
  ⟨by decide,
   c2_amended.2 [("xx/saturn.json", [("k".data, "v".data)])] "xx/saturn.json"
     [("k".data, "v".data)] (by decide) (by decide) (by decide)⟩
